import Mathlib

set_option maxHeartbeats 1000000
set_option maxRecDepth 20000

/-!
Verification of the rhymu8354/Http HTTP/1.1 message parser library.

The definitions below are a shallow embedding of the Rust sources
(`src/lib.rs`, `src/error.rs`, `src/chunked_body.rs`, `src/request.rs`,
`src/response.rs`).  Bytes are natural numbers, byte strings are lists;
the external collaborators (`rhymessage::MessageHeaders`, `rhymuri::Uri`),
whose sources are not part of this repository, are modelled from the
specification's collaborator contracts and are marked as such.
-/

/-- A byte of wire input.  The sources slice `&[u8]`; we use `Nat` values
(only values < 256 ever arise from real inputs). -/
abbrev Byte := Nat

deriving instance DecidableEq for Except

/-- ASCII bytes of a string literal, used to write concrete wire inputs. -/
def strBytes (s : String) : List Byte := s.toList.map Char.toNat

/-- CRLF, the HTTP line delimiter (`const CRLF` in `src/lib.rs`). -/
def CRLF : List Byte := [13, 10]

/-- Embeds `find_crlf` from `src/lib.rs`: the index of the first
carriage-return/line-feed pair, scanning two-byte windows left to right. -/
def find_crlf : List Byte → Option Nat
  | [] => none
  | [_] => none
  | a :: b :: rest =>
    if a = 13 ∧ b = 10 then some 0 else (find_crlf (b :: rest)).map (· + 1)

/-- `decide (lo ≤ b ∧ b ≤ hi)` as a Bool, for byte-range tests. -/
def between (lo b hi : Nat) : Bool := decide (lo ≤ b ∧ b ≤ hi)

/-- ASCII lower-casing of one byte (`char::to_ascii_lowercase`). -/
def lowerB (b : Byte) : Byte := if 65 ≤ b ∧ b ≤ 90 then b + 32 else b

/-- ASCII lower-casing of a byte string. -/
def lowerL (s : List Byte) : List Byte := s.map lowerB

/-- HTTP optional whitespace: space or horizontal tab. -/
def isOws (b : Byte) : Bool := b == 32 || b == 9

/-- Trim leading and trailing optional whitespace (`str::trim` on the ASCII
header text that can actually occur in header values). -/
def trimOws (l : List Byte) : List Byte :=
  ((l.dropWhile isOws).reverse.dropWhile isOws).reverse

/-- Prepend a byte to the first piece of a split. -/
def consHead (b : Byte) : List (List Byte) → List (List Byte)
  | [] => [[b]]
  | cur :: more => (b :: cur) :: more

/-- Split a byte string at each comma (`str::split(',')`). -/
def splitComma : List Byte → List (List Byte)
  | [] => [[]]
  | b :: rest =>
    if b = 44 then [] :: splitComma rest else consHead b (splitComma rest)

/-- Join byte strings with a separator (`[T]::join`). -/
def joinSep (sep : List Byte) : List (List Byte) → List Byte
  | [] => []
  | [v] => v
  | v :: rest => v ++ sep ++ joinSep sep rest

/-- Decimal digit value of a byte, if any. -/
def decDigit (b : Byte) : Option Nat :=
  if 48 ≤ b ∧ b ≤ 57 then some (b - 48) else none

/-- Hexadecimal digit value of a byte, if any (0-9, a-f, A-F). -/
def hexDigit (b : Byte) : Option Nat :=
  if 48 ≤ b ∧ b ≤ 57 then some (b - 48)
  else if 97 ≤ b ∧ b ≤ 102 then some (b - 87)
  else if 65 ≤ b ∧ b ≤ 70 then some (b - 55)
  else none

/-- Fold a digit string into a value; `none` once a non-digit is seen. -/
def digitsValue (digit : Byte → Option Nat) (base : Nat) :
    List Byte → Option Nat → Option Nat
  | [], acc => acc
  | b :: rest, acc =>
    digitsValue digit base rest
      (match acc, digit b with
       | some a, some d => some (a * base + d)
       | _, _ => none)

/-- Embeds Rust unsigned integer parsing (`str::parse::<usize>` /
`usize::from_str_radix`): an optional leading `+`, then one or more digits;
any other character, an empty digit string, or overflow past `2^64` (the
`usize` width) is a parse error. -/
def parseUnsigned (digit : Byte → Option Nat) (base : Nat) (l : List Byte) :
    Option Nat :=
  let l2 := match l with
    | b :: rest => if b = 43 then rest else l
    | [] => l
  if l2 = [] then none
  else
    match digitsValue digit base l2 (some 0) with
    | some v => if v < 2 ^ 64 then some v else none
    | none => none

/-- `str::parse::<usize>` (decimal). -/
def parseDec (l : List Byte) : Option Nat := parseUnsigned decDigit 10 l

/-- `usize::from_str_radix(_, 16)`. -/
def parseHex (l : List Byte) : Option Nat := parseUnsigned hexDigit 16 l

/-- `usize::to_string`: decimal digits of a number. -/
def natToDec (n : Nat) : List Byte := (Nat.toDigits 10 n).map Char.toNat

/-- One UTF-8 scalar value consumed from the front of a byte string:
returns the remaining bytes, or `none` if the front is not a valid
encoding (`std::str::from_utf8`'s per-scalar check). -/
def utf8Step : List Byte → Option (List Byte)
  | [] => none
  | b :: rest =>
    if b < 128 then some rest
    else if 194 ≤ b ∧ b ≤ 223 then
      match rest with
      | c1 :: rest2 => if between 128 c1 191 then some rest2 else none
      | [] => none
    else if b = 224 then
      match rest with
      | c1 :: c2 :: rest2 =>
        if between 160 c1 191 && between 128 c2 191 then some rest2 else none
      | _ => none
    else if 225 ≤ b ∧ b ≤ 236 then
      match rest with
      | c1 :: c2 :: rest2 =>
        if between 128 c1 191 && between 128 c2 191 then some rest2 else none
      | _ => none
    else if b = 237 then
      match rest with
      | c1 :: c2 :: rest2 =>
        if between 128 c1 159 && between 128 c2 191 then some rest2 else none
      | _ => none
    else if 238 ≤ b ∧ b ≤ 239 then
      match rest with
      | c1 :: c2 :: rest2 =>
        if between 128 c1 191 && between 128 c2 191 then some rest2 else none
      | _ => none
    else if b = 240 then
      match rest with
      | c1 :: c2 :: c3 :: rest2 =>
        if between 144 c1 191 && between 128 c2 191 && between 128 c3 191
        then some rest2 else none
      | _ => none
    else if 241 ≤ b ∧ b ≤ 243 then
      match rest with
      | c1 :: c2 :: c3 :: rest2 =>
        if between 128 c1 191 && between 128 c2 191 && between 128 c3 191
        then some rest2 else none
      | _ => none
    else if b = 244 then
      match rest with
      | c1 :: c2 :: c3 :: rest2 =>
        if between 128 c1 143 && between 128 c2 191 && between 128 c3 191
        then some rest2 else none
      | _ => none
    else none

/-- The validation loop: each step consumes at least one byte, so fuel equal
to the length always suffices. -/
def utf8Loop : Nat → List Byte → Bool
  | _, [] => true
  | 0, _ :: _ => false
  | fuel + 1, b :: rest =>
    match utf8Step (b :: rest) with
    | some rest2 => utf8Loop fuel rest2
    | none => false

/-- UTF-8 validity of a byte string (`std::str::from_utf8` succeeding). -/
def isValidUtf8 (l : List Byte) : Bool := utf8Loop l.length l

/-- Shift the consumed count of a step result by an already-consumed prefix. -/
def eshift {E A S : Type} (c : Nat) :
    Except E (A × Nat × S) → Except E (A × Nat × S)
  | .ok (st, k, s) => .ok (st, c + k, s)
  | .error e => .error e

/-- A single header: name and value. -/
structure Header where
  name : List Byte
  value : List Byte
deriving DecidableEq

/-- Modelled from the spec: the error values of the external `MessageHeaders`
header-block collaborator (§6 of the specification). -/
inductive HeadersError where
  | HeaderLineMissingColon (line : List Byte)
  | HeaderLineTooLong (bytes : List Byte)
  | HeaderNameContainsIllegalCharacter (name : List Byte)
deriving DecidableEq

/-- Parse status of the header-block collaborator. -/
inductive HStatus where
  | Complete
  | Incomplete
deriving DecidableEq

/-- Modelled from the spec: the external `MessageHeaders` collaborator (§6):
an ordered list of (name, value) pairs plus an optional per-line byte limit. -/
structure MessageHeaders where
  headers : List Header
  lineLimit : Option Nat
deriving DecidableEq

def MessageHeaders.new : MessageHeaders := ⟨[], none⟩

def MessageHeaders.set_line_limit (mh : MessageHeaders) (l : Option Nat) :
    MessageHeaders :=
  { mh with lineLimit := l }

/-- RFC 7230 `tchar`: characters legal in a header name. -/
def isTchar (b : Byte) : Bool :=
  between 48 b 57 || between 65 b 90 || between 97 b 122 ||
    [33, 35, 36, 37, 38, 39, 42, 43, 45, 46, 94, 95, 96, 124, 126].contains b

/-- Whether a complete line of length `lineEnd` (+ CRLF) breaks the line
limit; returns the limit when it does. -/
def lineOverLimit (lineLimit : Option Nat) (lineEnd : Nat) : Option Nat :=
  match lineLimit with
  | some limit => if lineEnd + 2 > limit then some limit else none
  | none => none

/-- Whether an unterminated partial line already breaks the line limit
(no completion of it could fit); returns the limit when it does. -/
def partialOverLimit (lineLimit : Option Nat) (partialLen : Nat) : Option Nat :=
  match lineLimit with
  | some limit => if partialLen > limit then some limit else none
  | none => none

/-- Modelled from the spec: the collaborator's incremental `parse` (§6).
Complete CRLF-terminated lines are consumed from the front of the input
until the terminating blank line; a partial trailing line is left to the
caller.  The per-line limit counts the line including its CRLF; an
unterminated partial line longer than the limit fails eagerly (every
completion of it would exceed the limit).  `HeaderLineTooLong` carries the
first `limit` bytes of the offending (partial) line. -/
def headersParseLoop : Nat → MessageHeaders → List Byte →
    Except HeadersError (HStatus × Nat × MessageHeaders)
  | 0, mh, _ => .ok (.Incomplete, 0, mh)
  | fuel + 1, mh, input =>
    match find_crlf input with
    | none =>
      match partialOverLimit mh.lineLimit input.length with
      | some limit => .error (.HeaderLineTooLong (input.take limit))
      | none => .ok (.Incomplete, 0, mh)
    | some lineEnd =>
      match lineOverLimit mh.lineLimit lineEnd with
      | some limit =>
        .error (.HeaderLineTooLong ((input.take lineEnd ++ CRLF).take limit))
      | none =>
        if lineEnd = 0 then .ok (.Complete, 2, mh)
        else
          match (input.take lineEnd).findIdx? (fun b => b == 58) with
          | none => .error (.HeaderLineMissingColon (input.take lineEnd))
          | some i =>
            if ((input.take lineEnd).take i) ≠ [] ∧
                ((input.take lineEnd).take i).all isTchar then
              eshift (lineEnd + 2)
                (headersParseLoop fuel
                  { mh with headers := mh.headers ++
                      [⟨(input.take lineEnd).take i,
                        trimOws ((input.take lineEnd).drop (i + 1))⟩] }
                  (input.drop (lineEnd + 2)))
            else .error (.HeaderNameContainsIllegalCharacter
              ((input.take lineEnd).take i))

/-- The collaborator's `parse`, at a fuel that always suffices (each consumed
line removes at least two bytes of input). -/
def MessageHeaders.parse (mh : MessageHeaders) (input : List Byte) :
    Except HeadersError (HStatus × Nat × MessageHeaders) :=
  headersParseLoop (input.length + 1) mh input

/-- Case-insensitive header-name comparison. -/
def nameMatches (a b : List Byte) : Bool := lowerL a == lowerL b

def MessageHeaders.hasHeader (mh : MessageHeaders) (n : List Byte) : Bool :=
  mh.headers.any (fun h => nameMatches h.name n)

/-- Modelled from the spec: `header_value` returns the combined value of all
headers with the given name (case-insensitive), joined with commas. -/
def MessageHeaders.headerValue (mh : MessageHeaders) (n : List Byte) :
    Option (List Byte) :=
  match (mh.headers.filter (fun h => nameMatches h.name n)).map Header.value with
  | [] => none
  | vs => some (joinSep [44] vs)

/-- Modelled from the spec: `header_tokens` = comma-split, trimmed, empty
tokens dropped. -/
def MessageHeaders.headerTokens (mh : MessageHeaders) (n : List Byte) :
    List (List Byte) :=
  match mh.headerValue n with
  | none => []
  | some v => ((splitComma v).map trimOws).filter (fun t => !t.isEmpty)

/-- Modelled from the spec: `has_header_token`, case-insensitive. -/
def MessageHeaders.hasHeaderToken (mh : MessageHeaders) (n tok : List Byte) :
    Bool :=
  (mh.headerTokens n).any (fun t => lowerL t == lowerL tok)

def MessageHeaders.add_header (mh : MessageHeaders) (h : Header) :
    MessageHeaders :=
  { mh with headers := mh.headers ++ [h] }

/-- Modelled from the spec: `set_header` replaces the value of the first
header with the given name (case-insensitive), drops any further headers
with that name, and appends a new header when none exists. -/
def setHeaderGo (n v : List Byte) : List Header → List Header
  | [] => [⟨n, v⟩]
  | h :: rest =>
    if nameMatches h.name n then
      ⟨h.name, v⟩ :: rest.filter (fun h2 => !nameMatches h2.name n)
    else h :: setHeaderGo n v rest

def MessageHeaders.set_header (mh : MessageHeaders) (n v : List Byte) :
    MessageHeaders :=
  { mh with headers := setHeaderGo n v mh.headers }

/-- Modelled from the spec: `remove_header` removes every header with the
given name (case-insensitive). -/
def MessageHeaders.remove_header (mh : MessageHeaders) (n : List Byte) :
    MessageHeaders :=
  { mh with headers := mh.headers.filter (fun h => !nameMatches h.name n) }

/-- Embeds the error taxonomy of `src/error.rs`.  Foreign payloads
(`ParseIntError`, `io::Error`, `rhymuri::Error`) are dropped;
`Vec<u8>`/`String` payloads are byte lists. -/
inductive Error where
  | BadContentEncoding
  | ChunkSizeLineNotValidText (bytes : List Byte)
  | Headers (inner : HeadersError)
  | InvalidChunkSize
  | InvalidChunkTerminator (bytes : List Byte)
  | InvalidContentLength
  | InvalidStatusCode
  | MessageTooLong
  | RequestLineNoMethodDelimiter (line : List Byte)
  | RequestLineNoMethodOrExtraWhitespace (line : List Byte)
  | RequestLineNoTargetDelimiter (line : List Byte)
  | RequestLineNoTargetOrExtraWhitespace (line : List Byte)
  | RequestLineNotValidText (bytes : List Byte)
  | RequestLineProtocol (line : List Byte)
  | RequestLineTooLong (bytes : List Byte)
  | RequestTargetUriInvalid
  | StatusCodeOutOfRange (code : Nat)
  | StatusLineNoProtocolDelimiter (line : List Byte)
  | StatusLineNoStatusCodeDelimiter (line : List Byte)
  | StatusLineNotValidText (bytes : List Byte)
  | StatusLineProtocol (line : List Byte)
  | StringFormat
  | Trailer (inner : HeadersError)
deriving DecidableEq

/-- Modelled from the spec: the external URI collaborator (§6).  The contract
gives `parse(text) → Uri | Error` with no stated failure conditions, so the
model keeps the raw target text and always succeeds. -/
structure Uri where
  text : List Byte
deriving DecidableEq

def Uri.default : Uri := ⟨[]⟩

def Uri.parse (t : List Byte) : Except Error Uri := .ok ⟨t⟩

/-- `DecodeStatus` from `src/chunked_body.rs`. -/
inductive DecodeStatus where
  | Complete
  | Incomplete
deriving DecidableEq

/-- `DecodeStatusInternal` from `src/chunked_body.rs`. -/
inductive DecodeStatusInternal where
  | CompletePart
  | CompleteWhole
  | Incomplete
deriving DecidableEq

/-- `ChunkedBodyState` from `src/chunked_body.rs`. -/
inductive ChunkedBodyState where
  | ChunkData
  | ChunkSize
  | ChunkTerminator
  | Trailer
deriving DecidableEq

/-- `ChunkedBody` from `src/chunked_body.rs`. -/
structure ChunkedBody where
  buffer : List Byte
  chunk_bytes_needed : Nat
  state : ChunkedBodyState
  trailer : MessageHeaders
deriving DecidableEq

def ChunkedBody.new : ChunkedBody := ⟨[], 0, .ChunkSize, MessageHeaders.new⟩

/-- Embeds `parse_chunk_size` from `src/chunked_body.rs`: the size text is
the prefix of the line up to the first `;` or CR (or the whole line), parsed
as hexadecimal `usize`. -/
def parse_chunk_size (line : List Byte) : Except Error Nat :=
  let delimiter := (line.findIdx? (fun c => c == 59 || c == 13)).getD line.length
  match parseHex (line.take delimiter) with
  | some n => .ok n
  | none => .error .InvalidChunkSize

/-- Embeds `ChunkedBody::decode_data`. -/
def ChunkedBody.decode_data (cb : ChunkedBody) (raw : List Byte) :
    Except Error (DecodeStatusInternal × Nat × ChunkedBody) :=
  let consumed := min raw.length cb.chunk_bytes_needed
  let cb2 : ChunkedBody :=
    { cb with chunk_bytes_needed := cb.chunk_bytes_needed - consumed,
              buffer := cb.buffer ++ raw.take consumed }
  if cb2.chunk_bytes_needed = 0 then
    .ok (.CompletePart, consumed, { cb2 with state := .ChunkTerminator })
  else .ok (.Incomplete, consumed, cb2)

/-- Embeds `ChunkedBody::decode_size`. -/
def ChunkedBody.decode_size (cb : ChunkedBody) (raw : List Byte) :
    Except Error (DecodeStatusInternal × Nat × ChunkedBody) :=
  match find_crlf raw with
  | some lineEnd =>
    let line := raw.take lineEnd
    if isValidUtf8 line then
      match parse_chunk_size line with
      | .ok n =>
        if n = 0 then
          .ok (.CompletePart, lineEnd + 2,
            { cb with chunk_bytes_needed := n, state := .Trailer })
        else
          .ok (.CompletePart, lineEnd + 2,
            { cb with chunk_bytes_needed := n, state := .ChunkData })
      | .error e => .error e
    else .error (.ChunkSizeLineNotValidText line)
  | none => .ok (.Incomplete, 0, cb)

/-- Embeds `ChunkedBody::decode_terminator`. -/
def ChunkedBody.decode_terminator (cb : ChunkedBody) (raw : List Byte) :
    Except Error (DecodeStatusInternal × Nat × ChunkedBody) :=
  match raw with
  | [] => .ok (.Incomplete, 0, cb)
  | [c] =>
    if c = 13 then .ok (.Incomplete, 0, cb)
    else .error (.InvalidChunkTerminator [c])
  | a :: b :: rest =>
    if a = 13 ∧ b = 10 then .ok (.CompletePart, 2, { cb with state := .ChunkSize })
    else .error (.InvalidChunkTerminator (a :: b :: rest))

/-- Embeds `ChunkedBody::decode_trailer`: delegates to the trailer
header-block instance. -/
def ChunkedBody.decode_trailer (cb : ChunkedBody) (raw : List Byte) :
    Except Error (DecodeStatusInternal × Nat × ChunkedBody) :=
  match cb.trailer.parse raw with
  | .error e => .error (.Trailer e)
  | .ok (.Complete, consumed, mh) =>
    .ok (.CompleteWhole, consumed, { cb with trailer := mh })
  | .ok (.Incomplete, consumed, mh) =>
    .ok (.Incomplete, consumed, { cb with trailer := mh })

/-- One dispatch of `ChunkedBody::decode`'s loop body. -/
def ChunkedBody.decodeStep (cb : ChunkedBody) (raw : List Byte) :
    Except Error (DecodeStatusInternal × Nat × ChunkedBody) :=
  match cb.state with
  | .ChunkData => cb.decode_data raw
  | .ChunkSize => cb.decode_size raw
  | .ChunkTerminator => cb.decode_terminator raw
  | .Trailer => cb.decode_trailer raw

/-- The loop of `ChunkedBody::decode`, continuing on `CompletePart`. -/
def ChunkedBody.decodeLoop : Nat → ChunkedBody → List Byte →
    Except Error (DecodeStatus × Nat × ChunkedBody)
  | 0, cb, _ => .ok (.Incomplete, 0, cb)
  | fuel + 1, cb, raw =>
    match cb.decodeStep raw with
    | .error e => .error e
    | .ok (.CompletePart, consumed, cb2) =>
      eshift consumed (ChunkedBody.decodeLoop fuel cb2 (raw.drop consumed))
    | .ok (.CompleteWhole, consumed, cb2) => .ok (.Complete, consumed, cb2)
    | .ok (.Incomplete, consumed, cb2) => .ok (.Incomplete, consumed, cb2)

/-- Embeds `ChunkedBody::decode`, at a fuel that always suffices (shown by
the fuel-irrelevance lemmas below). -/
def ChunkedBody.decode (cb : ChunkedBody) (raw : List Byte) :
    Except Error (DecodeStatus × Nat × ChunkedBody) :=
  ChunkedBody.decodeLoop (2 * raw.length + 4) cb raw

/-- Progress measure rank of a chunked-decoder state: a committed
(`CompletePart`) step strictly decreases `2 * remaining input + rank`. -/
def ChunkedBodyState.chunkRank : ChunkedBodyState → Nat
  | .ChunkData => 1
  | _ => 0

/-- `RequestState` from `src/request.rs`. -/
inductive RequestState where
  | Body (content_length : Nat)
  | Headers
  | RequestLine
deriving DecidableEq

/-- `ParseStatus`, shared shape of `request.rs` and `response.rs`. -/
inductive ParseStatus where
  | Complete
  | Incomplete
deriving DecidableEq

/-- `ParseStatusInternal`, shared shape of `request.rs` and `response.rs`. -/
inductive ParseStatusInternal where
  | CompletePart
  | CompleteWhole
  | Incomplete
deriving DecidableEq

/-- `Request` from `src/request.rs`. -/
structure Request where
  body : List Byte
  headers : MessageHeaders
  max_message_size : Option Nat
  method : List Byte
  request_line_limit : Option Nat
  state : RequestState
  target : Uri
  total_bytes : Nat
deriving DecidableEq

/-- Embeds `Request::new`. -/
def Request.new : Request :=
  { body := [], headers := MessageHeaders.new.set_line_limit (some 1000),
    max_message_size := some 10000000, method := strBytes "GET",
    request_line_limit := some 1000, state := .RequestLine,
    target := Uri.default, total_bytes := 0 }

/-- Embeds `Request::count_bytes`. -/
def Request.count_bytes (r : Request) (bytes : Nat) : Except Error Request :=
  let r2 : Request := { r with total_bytes := r.total_bytes + bytes }
  match r2.max_message_size with
  | some m => if r2.total_bytes > m then .error .MessageTooLong else .ok r2
  | none => .ok r2

/-- Embeds `parse_request_line` from `src/request.rs`. -/
def parse_request_line (line : List Byte) : Except Error (List Byte × Uri) :=
  match line.findIdx? (fun b => b == 32) with
  | none => .error (.RequestLineNoMethodDelimiter line)
  | some methodDelimiter =>
    let method := line.take methodDelimiter
    if method = [] then .error (.RequestLineNoMethodOrExtraWhitespace line)
    else
      let lineAtTarget := line.drop (methodDelimiter + 1)
      match lineAtTarget.findIdx? (fun b => b == 32) with
      | none => .error (.RequestLineNoTargetDelimiter line)
      | some targetDelimiter =>
        if targetDelimiter = 0 then
          .error (.RequestLineNoTargetOrExtraWhitespace line)
        else
          match Uri.parse (lineAtTarget.take targetDelimiter) with
          | .error e => .error e
          | .ok target =>
            if lineAtTarget.drop (targetDelimiter + 1) = strBytes "HTTP/1.1" then
              .ok (method, target)
            else .error (.RequestLineProtocol line)

/-- The body of `Request::parse_message_for_request_line` once a CRLF within
the limit has been found at `lineEnd`. -/
def Request.requestLineFound (r : Request) (raw : List Byte) (lineEnd : Nat) :
    Except Error (ParseStatusInternal × Nat × Request) :=
  let line := raw.take lineEnd
  if isValidUtf8 line then
    let consumed := lineEnd + 2
    match r.count_bytes consumed with
    | .error e => .error e
    | .ok r2 =>
      let r3 : Request := { r2 with state := .Headers }
      match parse_request_line line with
      | .error e => .error e
      | .ok (method, target) =>
        .ok (.CompletePart, consumed, { r3 with method := method, target := target })
  else .error (.RequestLineNotValidText line)

/-- Embeds `Request::parse_message_for_request_line`. -/
def Request.parse_message_for_request_line (r : Request) (raw : List Byte) :
    Except Error (ParseStatusInternal × Nat × Request) :=
  match find_crlf raw, r.request_line_limit with
  | some lineEnd, some limit =>
    if lineEnd > limit then .error (.RequestLineTooLong (raw.take limit))
    else r.requestLineFound raw lineEnd
  | some lineEnd, none => r.requestLineFound raw lineEnd
  | none, some limit =>
    if raw.length > limit then .error (.RequestLineTooLong (raw.take limit))
    else .ok (.Incomplete, 0, r)
  | none, none => .ok (.Incomplete, 0, r)

/-- Embeds `Request::parse_message_for_headers`. -/
def Request.parse_message_for_headers (r : Request) (raw : List Byte) :
    Except Error (ParseStatusInternal × Nat × Request) :=
  match r.headers.parse raw with
  | .error e => .error (.Headers e)
  | .ok (hstatus, consumed, mh) =>
    let r2 : Request := { r with headers := mh }
    match r2.count_bytes consumed with
    | .error e => .error e
    | .ok r3 =>
      match hstatus with
      | .Complete =>
        match r3.headers.headerValue (strBytes "Content-Length") with
        | some clText =>
          match parseDec clText with
          | some content_length =>
            match r3.count_bytes content_length with
            | .error e => .error e
            | .ok r4 =>
              .ok (.CompletePart, consumed, { r4 with state := .Body content_length })
          | none => .error .InvalidContentLength
        | none => .ok (.CompleteWhole, consumed, r3)
      | .Incomplete => .ok (.Incomplete, consumed, r3)

/-- Embeds `Request::parse_message_for_body`. -/
def Request.parse_message_for_body (r : Request) (raw : List Byte)
    (content_length : Nat) : ParseStatusInternal × Nat × Request :=
  let needed := content_length - r.body.length
  if raw.length ≥ needed then
    (.CompleteWhole, needed, { r with body := r.body ++ raw.take needed })
  else (.Incomplete, raw.length, { r with body := r.body ++ raw })

/-- One dispatch of `Request::parse`'s loop body. -/
def Request.parseStep (r : Request) (raw : List Byte) :
    Except Error (ParseStatusInternal × Nat × Request) :=
  match r.state with
  | .Body content_length => .ok (r.parse_message_for_body raw content_length)
  | .Headers => r.parse_message_for_headers raw
  | .RequestLine => r.parse_message_for_request_line raw

/-- The loop of `Request::parse`, continuing on `CompletePart`. -/
def Request.parseLoop : Nat → Request → List Byte →
    Except Error (ParseStatus × Nat × Request)
  | 0, r, _ => .ok (.Incomplete, 0, r)
  | fuel + 1, r, raw =>
    match r.parseStep raw with
    | .error e => .error e
    | .ok (.CompletePart, consumed, r2) =>
      eshift consumed (Request.parseLoop fuel r2 (raw.drop consumed))
    | .ok (.CompleteWhole, consumed, r2) => .ok (.Complete, consumed, r2)
    | .ok (.Incomplete, consumed, r2) => .ok (.Incomplete, consumed, r2)

/-- Embeds `Request::parse`: fuel 3 covers the longest state chain
RequestLine → Headers → Body. -/
def Request.parse (r : Request) (raw : List Byte) :
    Except Error (ParseStatus × Nat × Request) :=
  Request.parseLoop 3 r raw

/-- Rank of a request-parser state: each `CompletePart` step strictly
descends, so fuel 3 always suffices. -/
def RequestState.rank : RequestState → Nat
  | .Body _ => 0
  | .Headers => 1
  | .RequestLine => 2

/-- Side condition for incremental request parsing: if a request-line limit
is set and the input's first CRLF sits at `e`, then `e` is strictly below
the limit.  (At `e = limit` the one-shot parse succeeds but a split just
after the limit fails, because the no-CRLF branch tests `raw.len() > limit`
while the CRLF branch tests `lineEnd > limit`.) -/
def Request.lineFits (r : Request) (raw : List Byte) : Prop :=
  r.state = .RequestLine →
    ∀ limit e, r.request_line_limit = some limit → find_crlf raw = some e →
      e < limit

/-- Incremental driver: feed pieces in order, each call given the
previously unconsumed suffix extended by the next piece, advancing by the
returned consumed count; returns the last call's status, the accumulated
consumed count and the final parser. -/
def Request.feed : Request → List Byte → List (List Byte) →
    Except Error (ParseStatus × Nat × Request)
  | r, _, [] => .ok (.Incomplete, 0, r)
  | r, buf, p :: ps =>
    match Request.parse r (buf ++ p) with
    | .error e => .error e
    | .ok (st, c, r2) =>
      match ps with
      | [] => .ok (st, c, r2)
      | q :: qs =>
        match Request.feed r2 ((buf ++ p).drop c) (q :: qs) with
        | .error e => .error e
        | .ok (st3, c3, r3) => .ok (st3, c + c3, r3)

/-- `ResponseState` from `src/response.rs`. -/
inductive ResponseState where
  | ChunkedBody (cb : ChunkedBody)
  | FixedBody (content_length : Nat)
  | Headers
  | StatusLine
deriving DecidableEq

/-- `Response` from `src/response.rs`. -/
structure Response where
  body : List Byte
  headers : MessageHeaders
  reason_phrase : List Byte
  state : ResponseState
  status_code : Nat
deriving DecidableEq

/-- Embeds `Response::new`. -/
def Response.new : Response :=
  { body := [], headers := MessageHeaders.new, reason_phrase := strBytes "OK",
    state := .StatusLine, status_code := 200 }

/-- Embeds `parse_status_line` from `src/response.rs`. -/
def parse_status_line (line : List Byte) : Except Error (Nat × List Byte) :=
  match line.findIdx? (fun b => b == 32) with
  | none => .error (.StatusLineNoProtocolDelimiter line)
  | some protocolDelimiter =>
    if line.take protocolDelimiter = strBytes "HTTP/1.1" then
      let lineAtStatusCode := line.drop (protocolDelimiter + 1)
      match lineAtStatusCode.findIdx? (fun b => b == 32) with
      | none => .error (.StatusLineNoStatusCodeDelimiter line)
      | some statusCodeDelimiter =>
        match parseDec (lineAtStatusCode.take statusCodeDelimiter) with
        | none => .error .InvalidStatusCode
        | some status_code =>
          if status_code < 1000 then
            .ok (status_code, lineAtStatusCode.drop (statusCodeDelimiter + 1))
          else .error (.StatusCodeOutOfRange status_code)
    else .error (.StatusLineProtocol line)

/-- Append a list of headers in order (`for header in trailer { add_header }`). -/
def addAllHeaders (mh : MessageHeaders) : List Header → MessageHeaders
  | [] => mh
  | h :: rest => addAllHeaders (mh.add_header h) rest

/-- Embeds `Response::parse_message_for_chunked_body`: on decoder completion
the decoded buffer becomes the body, trailer headers are appended, the final
`Transfer-Encoding` token is popped (header removed when none remain, else
re-emitted joined with spaces), `Content-Length` is appended and `Trailer`
removed. -/
def Response.parse_message_for_chunked_body (r : Response) (raw : List Byte)
    (cb : ChunkedBody) : Except Error (ParseStatusInternal × Nat × Response) :=
  match cb.decode raw with
  | .error e => .error e
  | .ok (.Complete, consumed, cb2) =>
    let r2 : Response := { r with body := cb2.buffer }
    let r3 : Response := { r2 with headers := addAllHeaders r2.headers cb2.trailer.headers }
    let transfer_encodings :=
      (r3.headers.headerTokens (strBytes "Transfer-Encoding")).dropLast
    let r4 : Response :=
      if transfer_encodings = [] then
        { r3 with headers := r3.headers.remove_header (strBytes "Transfer-Encoding") }
      else
        let joined := joinSep [32] transfer_encodings
        { r3 with headers := r3.headers.set_header (strBytes "Transfer-Encoding") joined }
    let clHeader : Header := ⟨strBytes "Content-Length", natToDec r4.body.length⟩
    let r5 : Response := { r4 with headers := r4.headers.add_header clHeader }
    let r6 : Response := { r5 with headers := r5.headers.remove_header (strBytes "Trailer") }
    .ok (.CompleteWhole, consumed, { r6 with state := .StatusLine })
  | .ok (.Incomplete, consumed, cb2) =>
    .ok (.Incomplete, consumed, { r with state := .ChunkedBody cb2 })

/-- Embeds `Response::parse_message_for_fixed_body`. -/
def Response.parse_message_for_fixed_body (r : Response) (raw : List Byte)
    (content_length : Nat) : Except Error (ParseStatusInternal × Nat × Response) :=
  let needed := content_length - r.body.length
  if raw.length ≥ needed then
    .ok (.CompleteWhole, needed, { r with body := r.body ++ raw.take needed })
  else .ok (.Incomplete, raw.length, { r with body := r.body ++ raw })

/-- Embeds `Response::parse_message_for_headers`. -/
def Response.parse_message_for_headers (r : Response) (raw : List Byte) :
    Except Error (ParseStatusInternal × Nat × Response) :=
  match r.headers.parse raw with
  | .error e => .error (.Headers e)
  | .ok (hstatus, consumed, mh) =>
    let r2 : Response := { r with headers := mh }
    match hstatus with
    | .Complete =>
      match r2.headers.headerValue (strBytes "Content-Length") with
      | some clText =>
        match parseDec clText with
        | some content_length =>
          .ok (.CompletePart, consumed, { r2 with state := .FixedBody content_length })
        | none => .error .InvalidContentLength
      | none =>
        if r2.headers.hasHeaderToken (strBytes "Transfer-Encoding") (strBytes "chunked") then
          .ok (.CompletePart, consumed, { r2 with state := .ChunkedBody ChunkedBody.new })
        else .ok (.CompleteWhole, consumed, { r2 with state := .Headers })
    | .Incomplete => .ok (.Incomplete, consumed, { r2 with state := .Headers })

/-- Embeds `Response::parse_message_for_status_line`. -/
def Response.parse_message_for_status_line (r : Response) (raw : List Byte) :
    Except Error (ParseStatusInternal × Nat × Response) :=
  match find_crlf raw with
  | some lineEnd =>
    let line := raw.take lineEnd
    if isValidUtf8 line then
      match parse_status_line line with
      | .error e => .error e
      | .ok (status_code, reason_phrase) =>
        .ok (.CompletePart, lineEnd + 2,
          { r with status_code := status_code, reason_phrase := reason_phrase,
                   state := .Headers })
    else .error (.StatusLineNotValidText line)
  | none => .ok (.Incomplete, 0, r)

/-- One dispatch of `Response::parse`'s loop body. -/
def Response.parseStep (r : Response) (raw : List Byte) :
    Except Error (ParseStatusInternal × Nat × Response) :=
  match r.state with
  | .ChunkedBody cb => r.parse_message_for_chunked_body raw cb
  | .FixedBody content_length => r.parse_message_for_fixed_body raw content_length
  | .Headers => r.parse_message_for_headers raw
  | .StatusLine => r.parse_message_for_status_line raw

/-- The loop of `Response::parse`, continuing on `CompletePart`. -/
def Response.parseLoop : Nat → Response → List Byte →
    Except Error (ParseStatus × Nat × Response)
  | 0, r, _ => .ok (.Incomplete, 0, r)
  | fuel + 1, r, raw =>
    match r.parseStep raw with
    | .error e => .error e
    | .ok (.CompletePart, consumed, r2) =>
      eshift consumed (Response.parseLoop fuel r2 (raw.drop consumed))
    | .ok (.CompleteWhole, consumed, r2) => .ok (.Complete, consumed, r2)
    | .ok (.Incomplete, consumed, r2) => .ok (.Incomplete, consumed, r2)

/-- Embeds `Response::parse`: fuel 3 covers the longest state chain
StatusLine → Headers → body state. -/
def Response.parse (r : Response) (raw : List Byte) :
    Except Error (ParseStatus × Nat × Response) :=
  Response.parseLoop 3 r raw

/-- Rank of a response-parser state: each `CompletePart` step strictly
descends, so fuel 3 always suffices. -/
def ResponseState.rank : ResponseState → Nat
  | .ChunkedBody _ => 0
  | .FixedBody _ => 0
  | .Headers => 1
  | .StatusLine => 2

/-- Incremental driver for responses, mirroring `Request.feed`. -/
def Response.feed : Response → List Byte → List (List Byte) →
    Except Error (ParseStatus × Nat × Response)
  | r, _, [] => .ok (.Incomplete, 0, r)
  | r, buf, p :: ps =>
    match Response.parse r (buf ++ p) with
    | .error e => .error e
    | .ok (st, c, r2) =>
      match ps with
      | [] => .ok (st, c, r2)
      | q :: qs =>
        match Response.feed r2 ((buf ++ p).drop c) (q :: qs) with
        | .error e => .error e
        | .ok (st3, c3, r3) => .ok (st3, c + c3, r3)

/-- The wire form of one chunk: size line, CRLF, data, CRLF. -/
def encodeChunk (p : List Byte × List Byte) : List Byte :=
  p.1 ++ (13 :: 10 :: (p.2 ++ (13 :: 10 :: [])))

/-- The wire form of a sequence of chunks. -/
def encodeChunks : List (List Byte × List Byte) → List Byte
  | [] => []
  | p :: rest => encodeChunk p ++ encodeChunks rest

/-- A request line of exactly 1000 bytes: `GET xxx...x HTTP/1.1` with 987
`x` bytes in the target. -/
def c1Line : List Byte :=
  [71, 69, 84, 32] ++
    (List.replicate 987 120 ++ [32, 72, 84, 84, 80, 47, 49, 46, 49])

/-- A complete valid request whose request line is exactly 1000 bytes
(the boundary the one-shot parse accepts): line, CRLF, blank line. -/
def c1Msg : List Byte := c1Line ++ (CRLF ++ CRLF)

/-- The parser state after the request line of `c1Msg` is committed. -/
def c1R1 : Request :=
  { body := [], headers := { headers := [], lineLimit := some 1000 },
    max_message_size := some 10000000, method := [71, 69, 84],
    request_line_limit := some 1000, state := .Headers,
    target := ⟨List.replicate 987 120⟩, total_bytes := 1002 }

/-- The final parser value of a one-shot parse of `c1Msg`. -/
def c1Rfin : Request :=
  { c1R1 with total_bytes := 1004 }

example :
    ChunkedBody.new.decode (strBytes "5\r\nHello\r\n0\r\n\r\n") =
      .ok (.Complete, 15, ⟨strBytes "Hello", 0, .Trailer, MessageHeaders.new⟩) := by
  decide

example :
    (ChunkedBody.new.decode (strBytes "0\r\nX-Foo: Bar\r\n\r\n")).map
        (fun r => (r.2.2.trailer.headers, r.2.1)) =
      .ok ([⟨strBytes "X-Foo", strBytes "Bar"⟩], 17) := by
  decide

/-! ### Basic lemmas about `find_crlf` -/

theorem find_crlf_bound (u : List Byte) :
    ∀ e, find_crlf u = some e → e + 2 ≤ u.length := by
  induction u with
  | nil => intro e h; simp [find_crlf] at h
  | cons a rest ih =>
    intro e h
    cases rest with
    | nil => simp [find_crlf] at h
    | cons b rest2 =>
      rw [find_crlf] at h
      split at h
      · simp at h
        subst h
        simp
      · match he : find_crlf (b :: rest2) with
        | none => rw [he] at h; simp at h
        | some e2 =>
          rw [he] at h
          simp at h
          have h2 := ih e2 he
          simp at h2 ⊢
          omega

/-! ### Claim C7: chunked decoder, size state -/

/-- C7: in the size state, with a CRLF present at `e`, the decoder takes the
bytes before the CRLF as the size line, takes its prefix up to the first `;`
or CR (or the whole line) as the size text, parses it as base-16 usize
(failure, including overflow and empty text, yields `InvalidChunkSize`),
consumes `e + 2` bytes, and transitions to the trailer state on size 0 and
otherwise to the data state with `chunk_bytes_needed` set; with no CRLF it
returns `Incomplete` consuming 0. -/
theorem C7_decode_size (cb : ChunkedBody) (u : List Byte) :
    (find_crlf u = none → cb.decode_size u = .ok (.Incomplete, 0, cb)) ∧
    (∀ e, find_crlf u = some e → isValidUtf8 (u.take e) = true →
      (parseHex ((u.take e).take
          (((u.take e).findIdx? (fun c => c == 59 || c == 13)).getD
            (u.take e).length)) = none →
        cb.decode_size u = .error .InvalidChunkSize) ∧
      (∀ n, parseHex ((u.take e).take
          (((u.take e).findIdx? (fun c => c == 59 || c == 13)).getD
            (u.take e).length)) = some n →
        (n = 0 → cb.decode_size u =
          .ok (.CompletePart, e + 2,
            { cb with chunk_bytes_needed := 0, state := .Trailer })) ∧
        (n ≠ 0 → cb.decode_size u =
          .ok (.CompletePart, e + 2,
            { cb with chunk_bytes_needed := n, state := .ChunkData })))) := by
  constructor
  · intro h
    simp only [ChunkedBody.decode_size]
    rw [h]
  · intro e he hutf
    constructor
    · intro hpx
      have hline : parse_chunk_size (u.take e) = .error .InvalidChunkSize := by
        simp only [parse_chunk_size]
        rw [hpx]
      simp only [ChunkedBody.decode_size]
      rw [he]
      simp only [hutf, if_true]
      rw [hline]
    · intro n hpx
      have hline : parse_chunk_size (u.take e) = .ok n := by
        simp only [parse_chunk_size]
        rw [hpx]
      constructor
      · intro hn
        subst hn
        simp only [ChunkedBody.decode_size]
        rw [he]
        simp only [hutf, if_true]
        rw [hline]
        rfl
      · intro hn
        simp only [ChunkedBody.decode_size]
        rw [he]
        simp only [hutf, if_true]
        rw [hline]
        have : (if n = 0 then (.ok (.CompletePart, e + 2, { cb with chunk_bytes_needed := n, state := .Trailer }) : Except Error (DecodeStatusInternal × Nat × ChunkedBody)) else .ok (.CompletePart, e + 2, { cb with chunk_bytes_needed := n, state := .ChunkData })) = .ok (.CompletePart, e + 2, { cb with chunk_bytes_needed := n, state := .ChunkData }) := if_neg hn
        exact this

/-- Witness for C7 at the concrete input `"5;ext\r\nHELLO"`. -/
theorem C7_decode_size_witness :
    ChunkedBody.new.decode_size (strBytes "5;ext\r\nHELLO") =
      .ok (.CompletePart, 7,
        { ChunkedBody.new with chunk_bytes_needed := 5, state := .ChunkData }) :=
  (((C7_decode_size ChunkedBody.new (strBytes "5;ext\r\nHELLO")).2 5
    (by decide) (by decide)).2 5 (by decide)).2 (by decide)

/-! ### Claim C8: chunked decoder, terminator state -/

/-- C8: in the terminator state, empty input or a single CR yields
`Incomplete` consuming 0; input beginning CR LF consumes exactly 2 bytes and
transitions to the size state; any other input fails with
`InvalidChunkTerminator` carrying the offending bytes; in particular decoding
`"1\r\nXjunk\r\n"` fails with `InvalidChunkTerminator` carrying `"junk\r\n"`. -/
theorem C8_decode_terminator (cb : ChunkedBody) (u : List Byte) :
    ((u = [] ∨ u = [13]) → cb.decode_terminator u = .ok (.Incomplete, 0, cb)) ∧
    (∀ rest, u = 13 :: 10 :: rest →
      cb.decode_terminator u = .ok (.CompletePart, 2, { cb with state := .ChunkSize })) ∧
    (u ≠ [] → u ≠ [13] → u.take 2 ≠ [13, 10] →
      cb.decode_terminator u = .error (.InvalidChunkTerminator u)) ∧
    ChunkedBody.new.decode (strBytes "1\r\nXjunk\r\n") =
      .error (.InvalidChunkTerminator (strBytes "junk\r\n")) := by
  refine ⟨?_, ?_, ?_, by decide⟩
  · rintro (rfl | rfl) <;> simp [ChunkedBody.decode_terminator]
  · rintro rest rfl
    simp [ChunkedBody.decode_terminator]
  · intro h0 h1 h2
    match u with
    | [] => exact absurd rfl h0
    | [c] =>
      have hc : c ≠ 13 := by
        intro h
        subst h
        exact h1 rfl
      simp [ChunkedBody.decode_terminator, hc]
    | a :: b :: rest =>
      have hab : ¬(a = 13 ∧ b = 10) := by
        intro ⟨ha, hb⟩
        subst ha
        subst hb
        simp at h2
      simp [ChunkedBody.decode_terminator, hab]

/-- Witness for C8 at the concrete input `"junk\r\n"` in the terminator
state. -/
theorem C8_decode_terminator_witness :
    ChunkedBody.new.decode_terminator (strBytes "junk\r\n") =
      .error (.InvalidChunkTerminator (strBytes "junk\r\n")) :=
  (C8_decode_terminator ChunkedBody.new (strBytes "junk\r\n")).2.2.1
    (by decide) (by decide) (by decide)

/-! ### Claim C9: response status-line parsing -/

/-- C9: for a status line with a first-space delimiter, a protocol token not
exactly `HTTP/1.1` yields `StatusLineProtocol`; with the protocol correct and
a second delimiter, a status text that does not parse as a non-negative
integer yields `InvalidStatusCode`, a parsed code of 1000 or more yields
`StatusCodeOutOfRange`, and otherwise the code is accepted with the
(possibly empty) remainder as the reason phrase. -/
theorem C9_parse_status_line (line : List Byte) :
    (∀ i, line.findIdx? (fun b => b == 32) = some i →
      line.take i ≠ strBytes "HTTP/1.1" →
      parse_status_line line = .error (.StatusLineProtocol line)) ∧
    (∀ i j, line.findIdx? (fun b => b == 32) = some i →
      line.take i = strBytes "HTTP/1.1" →
      (line.drop (i + 1)).findIdx? (fun b => b == 32) = some j →
      (parseDec ((line.drop (i + 1)).take j) = none →
        parse_status_line line = .error .InvalidStatusCode) ∧
      (∀ code, parseDec ((line.drop (i + 1)).take j) = some code →
        (1000 ≤ code →
          parse_status_line line = .error (.StatusCodeOutOfRange code)) ∧
        (code < 1000 →
          parse_status_line line = .ok (code, (line.drop (i + 1)).drop (j + 1))))) := by
  constructor
  · intro i hi hproto
    simp [parse_status_line, hi, hproto]
  · intro i j hi hproto hj
    constructor
    · intro hdec
      simp [parse_status_line, hi, hproto, hj, hdec]
    · intro code hdec
      constructor
      · intro hge
        have : ¬ code < 1000 := by omega
        simp [parse_status_line, hi, hproto, hj, hdec, this]
      · intro hlt
        simp [parse_status_line, hi, hproto, hj, hdec, hlt]

/-- Witness for C9 at the concrete status line `"HTTP/1.1 200 OK"`. -/
theorem C9_parse_status_line_witness :
    parse_status_line (strBytes "HTTP/1.1 200 OK") = .ok (200, strBytes "OK") :=
  (((C9_parse_status_line (strBytes "HTTP/1.1 200 OK")).2 8 3
    (by decide) (by decide) (by decide)).2 200 (by decide)).2 (by decide)

/-! ### Lemmas locating CRLF in structured inputs -/

/-- If no CR occurs in `A`, the first CRLF of `A ++ 13 :: 10 :: B` is at
`|A|`. -/
theorem find_crlf_append_crlf (A B : List Byte) (h : 13 ∉ A) :
    find_crlf (A ++ 13 :: 10 :: B) = some A.length := by
  induction A with
  | nil => simp [find_crlf]
  | cons a rest ih =>
    have ha : a ≠ 13 := by
      intro hh
      exact h (hh ▸ List.mem_cons_self a rest)
    have h2 : 13 ∉ rest := fun hh => h (List.mem_cons_of_mem _ hh)
    cases rest with
    | nil => simp [find_crlf, ha]
    | cons b rest2 =>
      have := ih h2
      simp only [List.cons_append] at this ⊢
      rw [find_crlf, this]
      simp [ha]

/-- If no CR occurs in `A`, then `A ++ [13]` contains no CRLF. -/
theorem find_crlf_append_cr (A : List Byte) (h : 13 ∉ A) :
    find_crlf (A ++ [13]) = none := by
  induction A with
  | nil => simp [find_crlf]
  | cons a rest ih =>
    have ha : a ≠ 13 := by
      intro hh
      exact h (hh ▸ List.mem_cons_self a rest)
    have h2 : 13 ∉ rest := fun hh => h (List.mem_cons_of_mem _ hh)
    cases rest with
    | nil => simp [find_crlf]
    | cons b rest2 =>
      have := ih h2
      simp only [List.cons_append] at this ⊢
      rw [find_crlf, this]
      simp [ha]

/-- If no CR occurs in `A`, `A` contains no CRLF. -/
theorem find_crlf_none_of_no_cr (A : List Byte) (h : 13 ∉ A) :
    find_crlf A = none := by
  induction A with
  | nil => simp [find_crlf]
  | cons a rest ih =>
    have ha : a ≠ 13 := by
      intro hh
      exact h (hh ▸ List.mem_cons_self a rest)
    have h2 : 13 ∉ rest := fun hh => h (List.mem_cons_of_mem _ hh)
    cases rest with
    | nil => simp [find_crlf]
    | cons b rest2 =>
      have := ih h2
      rw [find_crlf, this]
      simp [ha]

/-! ### Claim C5: request-line length limit -/

/-- In the request-line state with a limit, a CRLF found past the limit is
`RequestLineTooLong` carrying the first `limit` input bytes. -/
theorem request_line_limit_found (r : Request) (u : List Byte) (e limit : Nat)
    (hstate : r.state = .RequestLine) (hlim : r.request_line_limit = some limit)
    (he : find_crlf u = some e) (hgt : e > limit) :
    r.parse u = .error (.RequestLineTooLong (u.take limit)) := by
  have hstep : r.parseStep u = .error (.RequestLineTooLong (u.take limit)) := by
    simp only [Request.parseStep]
    rw [hstate]
    simp only [Request.parse_message_for_request_line]
    rw [he, hlim]
    simp only [if_pos hgt]
  simp only [Request.parse, Request.parseLoop]
  rw [hstep]

/-- In the request-line state with a limit, more than `limit` bytes without a
CRLF is `RequestLineTooLong` carrying the first `limit` input bytes. -/
theorem request_line_limit_nocrlf (r : Request) (u : List Byte) (limit : Nat)
    (hstate : r.state = .RequestLine) (hlim : r.request_line_limit = some limit)
    (he : find_crlf u = none) (hgt : u.length > limit) :
    r.parse u = .error (.RequestLineTooLong (u.take limit)) := by
  have hstep : r.parseStep u = .error (.RequestLineTooLong (u.take limit)) := by
    simp only [Request.parseStep]
    rw [hstate]
    simp only [Request.parse_message_for_request_line]
    rw [he, hlim]
    simp only [if_pos hgt]
  simp only [Request.parse, Request.parseLoop]
  rw [hstep]

/-- C5: in the request-line state with `request_line_limit = some limit`, the
parser fails with `RequestLineTooLong` carrying the first `limit` bytes of
the input whenever a CRLF is found past the limit, or no CRLF is present and
more than `limit` bytes have arrived; in particular a fresh request whose
start line has 1001 bytes fails carrying the first 1000 bytes. -/
theorem C5_request_line_too_long :
    (∀ (r : Request) (u : List Byte) (e limit : Nat),
      r.state = .RequestLine → r.request_line_limit = some limit →
      find_crlf u = some e → e > limit →
      r.parse u = .error (.RequestLineTooLong (u.take limit))) ∧
    (∀ (r : Request) (u : List Byte) (limit : Nat),
      r.state = .RequestLine → r.request_line_limit = some limit →
      find_crlf u = none → u.length > limit →
      r.parse u = .error (.RequestLineTooLong (u.take limit))) ∧
    Request.parse Request.new (List.replicate 1001 120 ++ CRLF) =
      .error (.RequestLineTooLong (List.replicate 1000 120)) := by
  refine ⟨fun r u e limit h1 h2 h3 h4 => request_line_limit_found r u e limit h1 h2 h3 h4,
    fun r u limit h1 h2 h3 h4 => request_line_limit_nocrlf r u limit h1 h2 h3 h4, ?_⟩
  have hno : (13 : Byte) ∉ List.replicate 1001 120 := fun hmem =>
    absurd (List.eq_of_mem_replicate hmem) (by decide)
  have he : find_crlf (List.replicate 1001 120 ++ CRLF) = some 1001 := by
    have h2 := find_crlf_append_crlf (List.replicate 1001 120) [] hno
    rw [show (CRLF : List Byte) = 13 :: 10 :: [] from rfl, h2,
      List.length_replicate]
  have h := request_line_limit_found Request.new (List.replicate 1001 120 ++ CRLF)
    1001 1000 rfl rfl he (by omega)
  have ht : (List.replicate 1001 120 ++ CRLF).take 1000 = List.replicate 1000 120 := by
    rw [List.take_append_of_le_length (by rw [List.length_replicate]; omega),
      List.take_replicate, show min 1000 1001 = 1000 from by decide]
  rw [ht] at h
  exact h

/-- Witness for C5 at a small concrete input: limit 5, line of 15 bytes. -/
theorem C5_request_line_too_long_witness :
    Request.parse
      { Request.new with request_line_limit := some 5 }
      (strBytes "GET /a HTTP/1.1\r\n") =
      .error (.RequestLineTooLong (strBytes "GET /")) := by
  have h := (C5_request_line_too_long).1
    { Request.new with request_line_limit := some 5 }
    (strBytes "GET /a HTTP/1.1\r\n") 15 5 rfl rfl (by decide) (by decide)
  rw [show (strBytes "GET /a HTTP/1.1\r\n").take 5 = strBytes "GET /" by decide] at h
  exact h

/-! ### Claim C6: Content-Length precedence over chunked -/

/-- C6: when the completed header block has both a parsing `Content-Length`
and a `Transfer-Encoding` containing the `chunked` token, the response
parser transitions into the fixed-length body state governed by the
`Content-Length` value; no chunked decoder is created. -/
theorem C6_content_length_precedence (r : Response) (u : List Byte)
    (consumed : Nat) (mh : MessageHeaders) (clText : List Byte) (L : Nat) :
    r.headers.parse u = .ok (.Complete, consumed, mh) →
    mh.headerValue (strBytes "Content-Length") = some clText →
    parseDec clText = some L →
    mh.hasHeaderToken (strBytes "Transfer-Encoding") (strBytes "chunked") = true →
    r.parse_message_for_headers u =
      .ok (.CompletePart, consumed, { r with headers := mh, state := .FixedBody L }) := by
  intro hp hv hd _
  simp only [Response.parse_message_for_headers]
  rw [hp]
  dsimp only
  rw [hv]
  dsimp only
  rw [hd]

/-- Witness for C6: both framings present; fixed body of length 5 chosen. -/
theorem C6_content_length_precedence_witness :
    Response.parse_message_for_headers Response.new
      (strBytes "Content-Length: 5\r\nTransfer-Encoding: chunked\r\n\r\n") =
      .ok (.CompletePart, 49,
        { Response.new with
          headers := ⟨[⟨strBytes "Content-Length", strBytes "5"⟩,
                       ⟨strBytes "Transfer-Encoding", strBytes "chunked"⟩], none⟩,
          state := .FixedBody 5 }) :=
  C6_content_length_precedence Response.new
    (strBytes "Content-Length: 5\r\nTransfer-Encoding: chunked\r\n\r\n") 49
    ⟨[⟨strBytes "Content-Length", strBytes "5"⟩,
      ⟨strBytes "Transfer-Encoding", strBytes "chunked"⟩], none⟩
    (strBytes "5") 5 (by decide) (by decide) (by decide) (by decide)

/-! ### Header-list lemmas for the chunked rewrite -/

theorem filter_not_filter {α : Type} (p : α → Bool) (l : List α) :
    (l.filter (fun x => !p x)).filter p = [] := by
  induction l with
  | nil => rfl
  | cons a rest ih =>
    by_cases h : p a
    · simp [List.filter_cons, h, ih]
    · simp [List.filter_cons, h, ih]

theorem nameMatches_trans {a b c : List Byte} (h : nameMatches a b = true) :
    nameMatches a c = nameMatches b c := by
  have h2 : lowerL a = lowerL b := by
    simpa [nameMatches] using h
  simp [nameMatches, h2]

/-- Filtering for name `n` commutes past removing name `m` when the two
names differ case-insensitively. -/
theorem filter_match_after_remove (n m : List Byte) (l : List Header)
    (hnm : nameMatches n m = false) :
    (l.filter (fun h => !nameMatches h.name m)).filter
        (fun h => nameMatches h.name n) =
      l.filter (fun h => nameMatches h.name n) := by
  induction l with
  | nil => rfl
  | cons h rest ih =>
    by_cases hn : nameMatches h.name n
    · have hm2 : nameMatches h.name m = false := by
        rw [nameMatches_trans hn]
        exact hnm
      simp [List.filter_cons, hn, hm2, ih]
    · by_cases hm3 : nameMatches h.name m <;>
        simp [List.filter_cons, hn, hm3, ih]

/-- After `set_header`, the matching headers carry exactly the new value. -/
theorem setHeaderGo_filter_values (n v : List Byte) (l : List Header) :
    ((setHeaderGo n v l).filter (fun h => nameMatches h.name n)).map
        Header.value = [v] := by
  induction l with
  | nil => simp [setHeaderGo, List.filter, nameMatches]
  | cons h rest ih =>
    by_cases hm : nameMatches h.name n
    · simp only [setHeaderGo, if_pos hm]
      rw [List.filter_cons]
      simp only [hm, if_pos]
      rw [filter_not_filter]
      simp
    · simp only [setHeaderGo, if_neg hm]
      rw [List.filter_cons]
      simp [hm, ih]

/-- After the chunked rewrite's `set_header`/`add_header`/`remove_header`
sequence, `Transfer-Encoding` holds exactly the re-joined value. -/
theorem rewrite_headerValue_te (hs : MessageHeaders) (v : List Byte) (cl : Header)
    (hcl : nameMatches cl.name (strBytes "Transfer-Encoding") = false) :
    ((((hs.set_header (strBytes "Transfer-Encoding") v).add_header cl).remove_header
        (strBytes "Trailer")).headerValue (strBytes "Transfer-Encoding")) = some v := by
  simp only [MessageHeaders.set_header, MessageHeaders.add_header,
    MessageHeaders.remove_header, MessageHeaders.headerValue]
  rw [filter_match_after_remove _ _ _ (by decide)]
  rw [List.filter_append]
  have h1 : List.filter (fun h => nameMatches h.name (strBytes "Transfer-Encoding"))
      [cl] = [] := by
    simp [List.filter_cons, hcl]
  rw [h1, List.append_nil]
  rw [setHeaderGo_filter_values]
  rfl

/-! ### Claim C10: rejoined Transfer-Encoding uses spaces -/

/-- C10: when a chunked response completes and, after dropping the final
`Transfer-Encoding` token, at least two tokens remain, the rewritten
`Transfer-Encoding` value is those tokens joined with a single space. -/
theorem C10_te_tokens_rejoined_with_spaces (r : Response) (u : List Byte)
    (cb cb2 : ChunkedBody) (consumed : Nat) :
    cb.decode u = .ok (.Complete, consumed, cb2) →
    2 ≤ ((addAllHeaders r.headers cb2.trailer.headers).headerTokens
        (strBytes "Transfer-Encoding")).dropLast.length →
    (r.parse_message_for_chunked_body u cb).map
        (fun x => x.2.2.headers.headerValue (strBytes "Transfer-Encoding")) =
      .ok (some (joinSep [32]
        ((addAllHeaders r.headers cb2.trailer.headers).headerTokens
          (strBytes "Transfer-Encoding")).dropLast)) := by
  intro hdec hlen
  have htsne :
      ¬ ((addAllHeaders r.headers cb2.trailer.headers).headerTokens
        (strBytes "Transfer-Encoding")).dropLast = [] := by
    intro h
    rw [h] at hlen
    simp at hlen
  simp only [Response.parse_message_for_chunked_body]
  rw [hdec]
  dsimp only
  rw [if_neg htsne]
  dsimp only [Except.map]
  have hcl : nameMatches (strBytes "Content-Length") (strBytes "Transfer-Encoding") = false :=
    by decide
  rw [rewrite_headerValue_te _ _
    ⟨strBytes "Content-Length", natToDec cb2.buffer.length⟩ hcl]

/-- Witness for C10: tokens `["a", "b", "chunked"]` are re-emitted as
`"a b"`. -/
theorem C10_te_tokens_rejoined_witness :
    (Response.parse_message_for_chunked_body
      { Response.new with
        headers := ⟨[⟨strBytes "Transfer-Encoding", strBytes "a, b, chunked"⟩], none⟩ }
      (strBytes "0\r\n\r\n") ChunkedBody.new).map
        (fun x => x.2.2.headers.headerValue (strBytes "Transfer-Encoding")) =
      .ok (some (strBytes "a b")) := by
  have h := C10_te_tokens_rejoined_with_spaces
    { Response.new with
      headers := ⟨[⟨strBytes "Transfer-Encoding", strBytes "a, b, chunked"⟩], none⟩ }
    (strBytes "0\r\n\r\n") ChunkedBody.new
    ⟨[], 0, .Trailer, MessageHeaders.new⟩ 5 (by decide) (by decide)
  simpa using h

/-- If `A` contains no CRLF, the first CRLF of `A ++ 13 :: 10 :: B` is at
`|A|` (even when `A` ends in a CR). -/
theorem find_crlf_append_crlf_of_none (A B : List Byte)
    (h : find_crlf A = none) :
    find_crlf (A ++ 13 :: 10 :: B) = some A.length := by
  induction A with
  | nil => simp [find_crlf]
  | cons a rest ih =>
    cases rest with
    | nil => simp [find_crlf]
    | cons b rest2 =>
      rw [find_crlf] at h
      split at h
      · exact Option.noConfusion h
      · rename_i hcond
        have h2 : find_crlf (b :: rest2) = none := by
          cases hfc : find_crlf (b :: rest2) with
          | none => rfl
          | some k =>
            rw [hfc] at h
            simp at h
        have := ih h2
        simp only [List.cons_append] at this ⊢
        rw [find_crlf, if_neg hcond, this]
        simp

/-- C4: the request parser accounts `total_bytes` as start-line length
(including CRLF) + header-block bytes + declared `Content-Length` (added at
the transition into the body state), and with `max_message_size = some N` it
fails with `MessageTooLong` as soon as this total exceeds `N`: for an input
consisting only of the start line and header block whose accounted total
exceeds `N`, the very call that completes the headers errors, before any
body byte exists to be consumed; when the total fits, the parser enters the
body state carrying exactly that total. -/
theorem C4_total_bytes_accounting (N : Nat) (line hb clText m : List Byte)
    (t : Uri) (mh : MessageHeaders) (L : Nat)
    (hline : find_crlf line = none)
    (hlen : line.length ≤ 1000)
    (hutf : isValidUtf8 line = true)
    (hreq : parse_request_line line = .ok (m, t))
    (hhb : (MessageHeaders.new.set_line_limit (some 1000)).parse hb =
      .ok (.Complete, hb.length, mh))
    (hcl : mh.headerValue (strBytes "Content-Length") = some clText)
    (hdec : parseDec clText = some L) :
    (line.length + 2 + hb.length + L > N →
      Request.parse { Request.new with max_message_size := some N }
        ((line ++ CRLF) ++ hb) = .error .MessageTooLong) ∧
    (line.length + 2 + hb.length + L ≤ N →
      Request.parse { Request.new with max_message_size := some N }
        ((line ++ CRLF) ++ hb) =
        .ok ((if L = 0 then ParseStatus.Complete else ParseStatus.Incomplete),
          line.length + 2 + hb.length,
          { Request.new with
              max_message_size := some N,
              method := m, target := t, headers := mh,
              state := .Body L,
              total_bytes := line.length + 2 + hb.length + L })) := by
  have hfind : find_crlf ((line ++ CRLF) ++ hb) = some line.length := by
    rw [List.append_assoc]
    exact find_crlf_append_crlf_of_none line hb hline
  have htake : ((line ++ CRLF) ++ hb).take line.length = line := by
    rw [List.append_assoc]
    exact List.take_left _ _
  have hdrop : ((line ++ CRLF) ++ hb).drop (line.length + 2) = hb := by
    have hl2 : (line ++ CRLF).length = line.length + 2 := by simp [CRLF]
    rw [← hl2]
    exact List.drop_left _ _
  by_cases hc1 : line.length + 2 > N
  · -- the request line alone already exceeds the cap
    have hstep : ({ Request.new with max_message_size := some N } : Request).parseStep
        ((line ++ CRLF) ++ hb) = .error .MessageTooLong := by
      simp only [Request.parseStep]
      dsimp only [Request.new]
      simp only [Request.parse_message_for_request_line]
      rw [hfind]
      dsimp only
      rw [if_neg (by omega : ¬ line.length > 1000)]
      simp only [Request.requestLineFound]
      rw [htake, hutf]
      dsimp only [Request.count_bytes]
      simp only [Nat.zero_add]
      rw [if_pos hc1]
      rfl
    constructor
    · intro _
      simp only [Request.parse, Request.parseLoop]
      rw [hstep]
    · intro hle
      omega
  · -- the request line fits; the first parse step succeeds
    have hstep1 : ({ Request.new with max_message_size := some N } : Request).parseStep
        ((line ++ CRLF) ++ hb) = .ok (.CompletePart, line.length + 2,
          { Request.new with
              max_message_size := some N, state := .Headers,
              method := m, target := t, total_bytes := line.length + 2 }) := by
      simp only [Request.parseStep]
      dsimp only [Request.new]
      simp only [Request.parse_message_for_request_line]
      rw [hfind]
      dsimp only
      rw [if_neg (by omega : ¬ line.length > 1000)]
      simp only [Request.requestLineFound]
      rw [htake, hutf]
      dsimp only [Request.count_bytes]
      simp only [Nat.zero_add]
      rw [if_neg hc1]
      dsimp only
      rw [hreq]
      rfl
    by_cases hc2 : line.length + 2 + hb.length > N
    · -- the header block tips the running total over the cap
      have hstep2 : ({ Request.new with
            max_message_size := some N, state := .Headers,
            method := m, target := t, total_bytes := line.length + 2 } : Request).parseStep
          hb = .error .MessageTooLong := by
        simp only [Request.parseStep]
        dsimp only [Request.new]
        simp only [Request.parse_message_for_headers]
        rw [hhb]
        dsimp only [Request.count_bytes]
        rw [if_pos (by omega : line.length + 2 + hb.length > N)]
      constructor
      · intro _
        simp only [Request.parse, Request.parseLoop]
        rw [hstep1]
        dsimp only [eshift]
        rw [hdrop, hstep2]
      · intro hle
        omega
    · by_cases hc3 : line.length + 2 + hb.length + L > N
      · -- the declared Content-Length tips the running total over the cap
        have hstep2 : ({ Request.new with
              max_message_size := some N, state := .Headers,
              method := m, target := t, total_bytes := line.length + 2 } : Request).parseStep
            hb = .error .MessageTooLong := by
          simp only [Request.parseStep]
          dsimp only [Request.new]
          simp only [Request.parse_message_for_headers]
          rw [hhb]
          dsimp only [Request.count_bytes]
          rw [if_neg (by omega : ¬ line.length + 2 + hb.length > N)]
          dsimp only
          rw [hcl]
          dsimp only
          rw [hdec]
          dsimp only [Request.count_bytes]
          rw [if_pos (by omega : line.length + 2 + hb.length + L > N)]
        constructor
        · intro _
          simp only [Request.parse, Request.parseLoop]
          rw [hstep1]
          dsimp only [eshift]
          rw [hdrop, hstep2]
        · intro hle
          omega
      · -- everything fits: the parser enters the body state
        have hstep2 : ({ Request.new with
              max_message_size := some N, state := .Headers,
              method := m, target := t, total_bytes := line.length + 2 } : Request).parseStep
            hb = .ok (.CompletePart, hb.length,
              { Request.new with
                  max_message_size := some N, state := .Body L,
                  method := m, target := t, headers := mh,
                  total_bytes := line.length + 2 + hb.length + L }) := by
          simp only [Request.parseStep]
          dsimp only [Request.new]
          simp only [Request.parse_message_for_headers]
          rw [hhb]
          dsimp only [Request.count_bytes]
          rw [if_neg (by omega : ¬ line.length + 2 + hb.length > N)]
          dsimp only
          rw [hcl]
          dsimp only
          rw [hdec]
          dsimp only [Request.count_bytes]
          rw [if_neg (by omega : ¬ line.length + 2 + hb.length + L > N)]
        constructor
        · intro hgt
          omega
        · intro _
          by_cases hL : L = 0
          · subst hL
            have hstep3 : ({ Request.new with
                  max_message_size := some N,
                  state := .Body 0, method := m, target := t, headers := mh,
                  total_bytes := line.length + 2 + hb.length + 0 } : Request).parseStep
                [] = .ok (.CompleteWhole, 0,
                  { Request.new with
                    max_message_size := some N, state := .Body 0,
                    method := m, target := t, headers := mh,
                    total_bytes := line.length + 2 + hb.length + 0 }) := rfl
            rw [if_pos rfl]
            simp only [Request.parse, Request.parseLoop]
            rw [hstep1]
            dsimp only [eshift]
            rw [hdrop, hstep2]
            dsimp only [eshift]
            rw [List.drop_length, hstep3]
            dsimp only [eshift]
            rfl
          · have hstep3 : ({ Request.new with
                  max_message_size := some N,
                  state := .Body L, method := m, target := t, headers := mh,
                  total_bytes := line.length + 2 + hb.length + L } : Request).parseStep
                [] = .ok (.Incomplete, 0,
                  { Request.new with
                    max_message_size := some N, state := .Body L,
                    method := m, target := t, headers := mh,
                    total_bytes := line.length + 2 + hb.length + L }) := by
              simp only [Request.parseStep]
              dsimp only [Request.new, Request.parse_message_for_body]
              split
              · rename_i hcond
                simp at hcond
                omega
              · rfl
            rw [if_neg hL]
            simp only [Request.parse, Request.parseLoop]
            rw [hstep1]
            dsimp only [eshift]
            rw [hdrop, hstep2]
            dsimp only [eshift]
            rw [List.drop_length, hstep3]
            dsimp only [eshift]
            rfl

/-- Witness for C4: cap 10, start line + headers + declared length 42 > 10,
so the call that completes the headers already fails. -/
theorem C4_total_bytes_accounting_witness :
    Request.parse { Request.new with max_message_size := some 10 }
      ((strBytes "GET / HTTP/1.1" ++ CRLF) ++ strBytes "Content-Length: 5\r\n\r\n") =
      .error .MessageTooLong :=
  (C4_total_bytes_accounting 10 (strBytes "GET / HTTP/1.1")
    (strBytes "Content-Length: 5\r\n\r\n") (strBytes "5") (strBytes "GET")
    ⟨strBytes "/"⟩ ⟨[⟨strBytes "Content-Length", strBytes "5"⟩], some 1000⟩ 5
    (by decide) (by decide) (by decide) (by decide) (by decide) (by decide)
    (by decide)).1 (by decide)

/-! ### Lemmas about `eshift` -/

theorem eshift_zero {E A S : Type} (x : Except E (A × Nat × S)) :
    eshift 0 x = x := by
  cases x with
  | error e => rfl
  | ok v =>
    obtain ⟨st, k, s⟩ := v
    simp [eshift]

theorem eshift_eshift {E A S : Type} (c d : Nat) (x : Except E (A × Nat × S)) :
    eshift c (eshift d x) = eshift (c + d) x := by
  cases x with
  | error e => rfl
  | ok v =>
    obtain ⟨st, k, s⟩ := v
    simp [eshift, Nat.add_assoc]

theorem eshift_eq_ok {E A S : Type} (c : Nat) (x : Except E (A × Nat × S))
    (st : A) (k : Nat) (s : S) (h : eshift c x = .ok (st, k, s)) :
    ∃ k2, k = c + k2 ∧ x = .ok (st, k2, s) := by
  cases x with
  | error e => exact Except.noConfusion h
  | ok v =>
    obtain ⟨st2, k2, s2⟩ := v
    simp only [eshift] at h
    obtain ⟨h1, h2, h3⟩ := by
      simpa using h
    exact ⟨k2, h2.symm, by rw [h1, h3]⟩

/-- A found CRLF stays the first CRLF after appending bytes. -/
theorem find_crlf_append_some (u y : List Byte) (e : Nat)
    (h : find_crlf u = some e) : find_crlf (u ++ y) = some e := by
  induction u generalizing e with
  | nil => simp [find_crlf] at h
  | cons a rest ih =>
    cases rest with
    | nil => simp [find_crlf] at h
    | cons b rest2 =>
      rw [find_crlf] at h
      simp only [List.cons_append]
      rw [find_crlf]
      split at h
      · rename_i hc
        rw [if_pos hc]
        exact h
      · rename_i hc
        rw [if_neg hc]
        match hfc : find_crlf (b :: rest2) with
        | none => rw [hfc] at h; exact Option.noConfusion h
        | some e2 =>
          rw [hfc] at h
          simp only [Option.map_some'] at h
          have := ih e2 hfc
          simp only [List.cons_append] at this
          rw [this]
          simpa using h

theorem headersParseLoop_consumed_le :
    ∀ (f : Nat) (mh : MessageHeaders) (u : List Byte) (st : HStatus) (c : Nat)
      (mh2 : MessageHeaders),
      headersParseLoop f mh u = .ok (st, c, mh2) → c ≤ u.length := by
  intro f
  induction f with
  | zero =>
    intro mh u st c mh2 h
    simp only [headersParseLoop] at h
    obtain ⟨-, h2, -⟩ := by simpa using h
    omega
  | succ fuel ih =>
    intro mh u st c mh2 h
    rw [headersParseLoop] at h
    split at h
    · split at h
      · exact Except.noConfusion h
      · obtain ⟨-, h2, -⟩ := by simpa using h
        omega
    · rename_i lineEnd hfc
      have hbound := find_crlf_bound u lineEnd hfc
      split at h
      · exact Except.noConfusion h
      · split at h
        · obtain ⟨-, h2, -⟩ := by simpa using h
          omega
        · split at h
          · exact Except.noConfusion h
          · split at h
            · obtain ⟨c2, hc2, hrec⟩ := eshift_eq_ok _ _ _ _ _ h
              have := ih _ _ _ _ _ hrec
              simp only [List.length_drop] at this
              omega
            · exact Except.noConfusion h

/-- If `x` has no CRLF but `x ++ w` has one at `e`, the CRLF starts at or
after `x`'s last byte, so `|x| ≤ e + 1`. -/
theorem length_le_of_find_crlf_append (x w : List Byte) (e : Nat)
    (hx : find_crlf x = none) (hxw : find_crlf (x ++ w) = some e) :
    x.length ≤ e + 1 := by
  induction x generalizing e with
  | nil => simp
  | cons a rest ih =>
    cases rest with
    | nil => simp
    | cons b rest2 =>
      rw [find_crlf] at hx
      simp only [List.cons_append] at hxw
      rw [find_crlf] at hxw
      split at hx
      · exact Option.noConfusion hx
      · rename_i hcond
        rw [if_neg hcond] at hxw
        have hx2 : find_crlf (b :: rest2) = none := by
          cases hfc : find_crlf (b :: rest2) with
          | none => rfl
          | some k => rw [hfc] at hx; simp at hx
        match hfc2 : find_crlf ((b :: rest2) ++ w) with
        | none =>
          simp only [List.cons_append] at hfc2
          rw [hfc2] at hxw
          exact Option.noConfusion hxw
        | some e2 =>
          have h2 := ih e2 hx2 hfc2
          simp only [List.cons_append] at hfc2
          rw [hfc2] at hxw
          simp only [Option.map_some'] at hxw
          obtain rfl : e2 + 1 = e := by simpa using hxw
          simp at h2 ⊢
          omega

theorem headersParseLoop_fuel :
    ∀ (f f2 : Nat) (mh : MessageHeaders) (u : List Byte),
      u.length + 1 ≤ f → u.length + 1 ≤ f2 →
      headersParseLoop f mh u = headersParseLoop f2 mh u := by
  intro f
  induction f with
  | zero =>
    intro f2 mh u hf hf2
    omega
  | succ fuel ih =>
    intro f2 mh u hf hf2
    cases f2 with
    | zero => omega
    | succ fuel2 =>
      rw [headersParseLoop]
      rw [headersParseLoop]
      cases hfc : find_crlf u with
      | none => rfl
      | some lineEnd =>
        have hbound := find_crlf_bound u lineEnd hfc
        dsimp only
        cases hover : lineOverLimit mh.lineLimit lineEnd with
        | some limit => rfl
        | none =>
          dsimp only
          by_cases hz : lineEnd = 0
          · rw [if_pos hz, if_pos hz]
          · rw [if_neg hz, if_neg hz]
            cases hidx : (u.take lineEnd).findIdx? (fun b => b == 58) with
            | none => rfl
            | some i =>
              dsimp only
              by_cases hname : ((u.take lineEnd).take i) ≠ [] ∧
                  ((u.take lineEnd).take i).all isTchar
              · rw [if_pos hname, if_pos hname]
                have hrec := ih fuel2 ⟨mh.headers ++
                    [⟨(u.take lineEnd).take i,
                      trimOws ((u.take lineEnd).drop (i + 1))⟩], mh.lineLimit⟩
                  (u.drop (lineEnd + 2))
                  (by simp only [List.length_drop]; omega)
                  (by simp only [List.length_drop]; omega)
                rw [hrec]
              · rw [if_neg hname, if_neg hname]

theorem headersParseLoop_complete_append :
    ∀ (f f2 : Nat) (mh : MessageHeaders) (u y : List Byte) (c : Nat)
      (mh2 : MessageHeaders),
      u.length + 1 ≤ f → (u ++ y).length + 1 ≤ f2 →
      headersParseLoop f mh u = .ok (.Complete, c, mh2) →
      headersParseLoop f2 mh (u ++ y) = .ok (.Complete, c, mh2) := by
  intro f
  induction f with
  | zero =>
    intro f2 mh u y c mh2 hf hf2 h
    omega
  | succ fuel ih =>
    intro f2 mh u y c mh2 hf hf2 h
    cases f2 with
    | zero => omega
    | succ fuel2 =>
      rw [headersParseLoop] at h
      rw [headersParseLoop]
      cases hfc : find_crlf u with
      | none =>
        rw [hfc] at h
        dsimp only at h
        cases hover : partialOverLimit mh.lineLimit u.length with
        | some limit =>
          rw [hover] at h
          exact Except.noConfusion h
        | none =>
          rw [hover] at h
          dsimp only at h
          simp at h
      | some lineEnd =>
        have hbound := find_crlf_bound u lineEnd hfc
        rw [hfc] at h
        dsimp only at h
        rw [find_crlf_append_some u y lineEnd hfc]
        dsimp only
        have htake : (u ++ y).take lineEnd = u.take lineEnd :=
          List.take_append_of_le_length (by omega)
        cases hover : lineOverLimit mh.lineLimit lineEnd with
        | some limit =>
          rw [hover] at h
          exact Except.noConfusion h
        | none =>
          rw [hover] at h
          dsimp only at h
          dsimp only
          rw [htake]
          by_cases hz : lineEnd = 0
          · rw [if_pos hz] at h
            rw [if_pos hz]
            exact h
          · rw [if_neg hz] at h
            rw [if_neg hz]
            cases hidx : (u.take lineEnd).findIdx? (fun b => b == 58) with
            | none =>
              rw [hidx] at h
              exact Except.noConfusion h
            | some i =>
              rw [hidx] at h
              dsimp only at h
              dsimp only
              by_cases hname : ((u.take lineEnd).take i) ≠ [] ∧
                  ((u.take lineEnd).take i).all isTchar
              · rw [if_pos hname] at h
                rw [if_pos hname]
                obtain ⟨c2, hc2, hrec⟩ := eshift_eq_ok _ _ _ _ _ h
                have hdrop : (u ++ y).drop (lineEnd + 2) =
                    u.drop (lineEnd + 2) ++ y :=
                  List.drop_append_of_le_length (by omega)
                rw [hdrop]
                rw [ih fuel2 _ _ y c2 mh2
                  (by simp only [List.length_drop]; omega)
                  (by simp only [List.length_drop, List.length_append] at hf2 ⊢; omega)
                  hrec]
                simp [eshift, hc2]
              · rw [if_neg hname] at h
                exact Except.noConfusion h

theorem headersParseLoop_incomplete_append :
    ∀ (f f2 f3 : Nat) (mh : MessageHeaders) (u y : List Byte) (c : Nat)
      (mh2 : MessageHeaders),
      u.length + 1 ≤ f → (u ++ y).length + 1 ≤ f2 →
      (u.drop c ++ y).length + 1 ≤ f3 →
      headersParseLoop f mh u = .ok (.Incomplete, c, mh2) →
      headersParseLoop f2 mh (u ++ y) =
        eshift c (headersParseLoop f3 mh2 (u.drop c ++ y)) := by
  intro f
  induction f with
  | zero =>
    intro f2 f3 mh u y c mh2 hf hf2 hf3 h
    omega
  | succ fuel ih =>
    intro f2 f3 mh u y c mh2 hf hf2 hf3 h
    cases f2 with
    | zero => omega
    | succ fuel2 =>
      rw [headersParseLoop] at h
      conv_lhs => rw [headersParseLoop]
      cases hfc : find_crlf u with
      | none =>
        rw [hfc] at h
        dsimp only at h
        cases hover : partialOverLimit mh.lineLimit u.length with
        | some limit =>
          rw [hover] at h
          exact Except.noConfusion h
        | none =>
          rw [hover] at h
          dsimp only at h
          obtain ⟨hc, hmh⟩ := by simpa using h
          subst hc
          subst hmh
          simp only [List.drop_zero, eshift_zero]
          exact headersParseLoop_fuel (fuel2 + 1) f3 mh (u ++ y) hf2 hf3
      | some lineEnd =>
        have hbound := find_crlf_bound u lineEnd hfc
        rw [hfc] at h
        dsimp only at h
        rw [find_crlf_append_some u y lineEnd hfc]
        dsimp only
        have htake : (u ++ y).take lineEnd = u.take lineEnd :=
          List.take_append_of_le_length (by omega)
        cases hover : lineOverLimit mh.lineLimit lineEnd with
        | some limit =>
          rw [hover] at h
          exact Except.noConfusion h
        | none =>
          rw [hover] at h
          dsimp only at h
          dsimp only
          rw [htake]
          by_cases hz : lineEnd = 0
          · rw [if_pos hz] at h
            simp at h
          · rw [if_neg hz] at h
            rw [if_neg hz]
            cases hidx : (u.take lineEnd).findIdx? (fun b => b == 58) with
            | none =>
              rw [hidx] at h
              exact Except.noConfusion h
            | some i =>
              rw [hidx] at h
              dsimp only at h
              dsimp only
              by_cases hname : ((u.take lineEnd).take i) ≠ [] ∧
                  ((u.take lineEnd).take i).all isTchar
              · rw [if_pos hname] at h
                rw [if_pos hname]
                obtain ⟨c2, hc2, hrec⟩ := eshift_eq_ok _ _ _ _ _ h
                have hdrop : (u ++ y).drop (lineEnd + 2) =
                    u.drop (lineEnd + 2) ++ y :=
                  List.drop_append_of_le_length (by omega)
                rw [hdrop]
                have hdd : (u.drop (lineEnd + 2)).drop c2 = u.drop c := by
                  rw [List.drop_drop, hc2]
                have hih := ih fuel2 f3 _ (u.drop (lineEnd + 2)) y c2 mh2
                  (by simp only [List.length_drop]; omega)
                  (by simp only [List.length_drop, List.length_append] at hf2 ⊢; omega)
                  (by rw [hdd]; exact hf3)
                  hrec
                rw [hdd] at hih
                rw [hih, eshift_eshift, hc2]
              · rw [if_neg hname] at h
                exact Except.noConfusion h

theorem headersParseLoop_prefix_ok :
    ∀ (f f2 : Nat) (mh : MessageHeaders) (x w : List Byte) (rst : HStatus)
      (rc : Nat) (rmh : MessageHeaders),
      (x ++ w).length + 1 ≤ f → x.length + 1 ≤ f2 →
      headersParseLoop f mh (x ++ w) = .ok (rst, rc, rmh) →
      ∃ st c mh2, headersParseLoop f2 mh x = .ok (st, c, mh2) ∧ c ≤ rc := by
  intro f
  induction f with
  | zero =>
    intro f2 mh x w rst rc rmh hf hf2 h
    omega
  | succ fuel ih =>
    intro f2 mh x w rst rc rmh hf hf2 h
    cases f2 with
    | zero => omega
    | succ fuel2 =>
      rw [headersParseLoop] at h
      rw [headersParseLoop]
      cases hfcx : find_crlf x with
      | none =>
        -- x ends mid-line; show the partial cannot break the limit
        have hlim : partialOverLimit mh.lineLimit x.length = none := by
          cases hll : mh.lineLimit with
          | none => rfl
          | some L =>
            simp only [partialOverLimit]
            rw [if_neg]
            cases hfcw : find_crlf (x ++ w) with
            | none =>
              rw [hfcw] at h
              dsimp only at h
              cases hover : partialOverLimit mh.lineLimit (x ++ w).length with
              | some limit =>
                rw [hover] at h
                exact Except.noConfusion h
              | none =>
                rw [hll] at hover
                simp only [partialOverLimit] at hover
                split at hover
                · exact Option.noConfusion hover
                · rename_i hgt
                  simp only [List.length_append] at hgt
                  omega
            | some e =>
              rw [hfcw] at h
              dsimp only at h
              cases hover : lineOverLimit mh.lineLimit e with
              | some limit =>
                rw [hover] at h
                exact Except.noConfusion h
              | none =>
                rw [hll] at hover
                simp only [lineOverLimit] at hover
                split at hover
                · exact Option.noConfusion hover
                · rename_i hgt
                  have hxe := length_le_of_find_crlf_append x w e hfcx hfcw
                  omega
        rw [hlim]
        exact ⟨.Incomplete, 0, mh, rfl, Nat.zero_le _⟩
      | some lineEnd =>
        have hboundx := find_crlf_bound x lineEnd hfcx
        have hfcw := find_crlf_append_some x w lineEnd hfcx
        rw [hfcw] at h
        dsimp only at h
        dsimp only
        have htake : (x ++ w).take lineEnd = x.take lineEnd :=
          List.take_append_of_le_length (by omega)
        rw [htake] at h
        cases hover : lineOverLimit mh.lineLimit lineEnd with
        | some limit =>
          rw [hover] at h
          exact Except.noConfusion h
        | none =>
          rw [hover] at h
          dsimp only at h
          by_cases hz : lineEnd = 0
          · rw [if_pos hz] at h
            rw [if_pos hz]
            have hres := Except.ok.inj h
            refine ⟨.Complete, 2, mh, rfl, ?_⟩
            rw [show rc = (HStatus.Complete, (2 : Nat), mh).2.1 from
              congrArg (fun t => t.2.1) hres.symm]
          · rw [if_neg hz] at h
            rw [if_neg hz]
            cases hidx : (x.take lineEnd).findIdx? (fun b => b == 58) with
            | none =>
              rw [hidx] at h
              exact Except.noConfusion h
            | some i =>
              rw [hidx] at h
              dsimp only at h
              dsimp only
              by_cases hname : ((x.take lineEnd).take i) ≠ [] ∧
                  ((x.take lineEnd).take i).all isTchar
              · rw [if_pos hname] at h
                rw [if_pos hname]
                have hdrop : (x ++ w).drop (lineEnd + 2) =
                    x.drop (lineEnd + 2) ++ w :=
                  List.drop_append_of_le_length (by omega)
                rw [hdrop] at h
                obtain ⟨c2, hc2, hrec⟩ := eshift_eq_ok _ _ _ _ _ h
                obtain ⟨st2, c3, mh3, hx2, hle3⟩ := ih fuel2 _
                  (x.drop (lineEnd + 2)) w rst c2 rmh
                  (by simp only [List.length_drop, List.length_append] at hf ⊢; omega)
                  (by simp only [List.length_drop]; omega)
                  hrec
                refine ⟨st2, lineEnd + 2 + c3, mh3, ?_, by omega⟩
                rw [hx2]
                rfl
              · rw [if_neg hname] at h
                exact Except.noConfusion h

/-! ### Rank of request-parser states: each committed step strictly
descends, so fuel 3 always suffices -/

theorem Request.stepConsumedLe (r : Request) (u : List Byte)
    (st : ParseStatusInternal) (c : Nat) (r2 : Request)
    (h : r.parseStep u = .ok (st, c, r2)) : c ≤ u.length := by
  cases hst : r.state with
  | Body cl =>
    rw [Request.parseStep, hst] at h
    dsimp only [Request.parse_message_for_body] at h
    split at h
    · obtain ⟨-, hc, -⟩ := by simpa using h
      omega
    · obtain ⟨-, hc, -⟩ := by simpa using h
      omega
  | Headers =>
    rw [Request.parseStep, hst] at h
    rw [Request.parse_message_for_headers] at h
    cases hp : r.headers.parse u with
    | error e =>
      rw [hp] at h
      exact Except.noConfusion h
    | ok v =>
      obtain ⟨hstat, c2, mh⟩ := v
      have hc2 := headersParseLoop_consumed_le _ _ _ _ _ _ hp
      rw [hp] at h
      dsimp only at h
      cases hcb : Request.count_bytes { r with headers := mh } c2 with
      | error e =>
        rw [hcb] at h
        exact Except.noConfusion h
      | ok r3 =>
        rw [hcb] at h
        dsimp only at h
        cases hstat with
        | Complete =>
          cases hcl : r3.headers.headerValue (strBytes "Content-Length") with
          | none =>
            rw [hcl] at h
            obtain ⟨-, hc, -⟩ := by simpa using h
            omega
          | some clText =>
            rw [hcl] at h
            dsimp only at h
            cases hdec : parseDec clText with
            | none =>
              rw [hdec] at h
              exact Except.noConfusion h
            | some L =>
              rw [hdec] at h
              dsimp only at h
              cases hcb2 : Request.count_bytes r3 L with
              | error e =>
                rw [hcb2] at h
                exact Except.noConfusion h
              | ok r4 =>
                rw [hcb2] at h
                obtain ⟨-, hc, -⟩ := by simpa using h
                omega
        | Incomplete =>
          obtain ⟨-, hc, -⟩ := by simpa using h
          omega
  | RequestLine =>
    rw [Request.parseStep, hst] at h
    rw [Request.parse_message_for_request_line] at h
    cases hfc : find_crlf u with
    | none =>
      rw [hfc] at h
      cases hlim : r.request_line_limit with
      | none =>
        rw [hlim] at h
        obtain ⟨-, hc, -⟩ := by simpa using h
        omega
      | some limit =>
        rw [hlim] at h
        dsimp only at h
        split at h
        · exact Except.noConfusion h
        · obtain ⟨-, hc, -⟩ := by simpa using h
          omega
    | some lineEnd =>
      have hbound := find_crlf_bound u lineEnd hfc
      rw [hfc] at h
      have hfound : ∀ (hh : r.requestLineFound u lineEnd = .ok (st, c, r2)),
          c ≤ u.length := by
        intro hh
        rw [Request.requestLineFound] at hh
        split at hh
        · dsimp only at hh
          cases hcb : r.count_bytes (lineEnd + 2) with
          | error e =>
            rw [hcb] at hh
            exact Except.noConfusion hh
          | ok r3 =>
            rw [hcb] at hh
            dsimp only at hh
            cases hpr : parse_request_line (u.take lineEnd) with
            | error e =>
              rw [hpr] at hh
              exact Except.noConfusion hh
            | ok mt =>
              rw [hpr] at hh
              obtain ⟨-, hc, -⟩ := by simpa using hh
              omega
        · exact Except.noConfusion hh
      cases hlim : r.request_line_limit with
      | none =>
        rw [hlim] at h
        exact hfound h
      | some limit =>
        rw [hlim] at h
        dsimp only at h
        split at h
        · exact Except.noConfusion h
        · exact hfound h

theorem Request.stepRankLt (r : Request) (u : List Byte) (c : Nat) (r2 : Request)
    (h : r.parseStep u = .ok (.CompletePart, c, r2)) :
    r2.state.rank < r.state.rank := by
  cases hst : r.state with
  | Body cl =>
    rw [Request.parseStep, hst] at h
    dsimp only [Request.parse_message_for_body] at h
    split at h
    · simp at h
    · simp at h
  | Headers =>
    rw [Request.parseStep, hst] at h
    rw [Request.parse_message_for_headers] at h
    cases hp : r.headers.parse u with
    | error e =>
      rw [hp] at h
      exact Except.noConfusion h
    | ok v =>
      obtain ⟨hstat, c2, mh⟩ := v
      rw [hp] at h
      dsimp only at h
      cases hcb : Request.count_bytes { r with headers := mh } c2 with
      | error e =>
        rw [hcb] at h
        exact Except.noConfusion h
      | ok r3 =>
        rw [hcb] at h
        dsimp only at h
        cases hstat with
        | Complete =>
          cases hcl : r3.headers.headerValue (strBytes "Content-Length") with
          | none =>
            rw [hcl] at h
            simp at h
          | some clText =>
            rw [hcl] at h
            dsimp only at h
            cases hdec : parseDec clText with
            | none =>
              rw [hdec] at h
              exact Except.noConfusion h
            | some L =>
              rw [hdec] at h
              dsimp only at h
              cases hcb2 : Request.count_bytes r3 L with
              | error e =>
                rw [hcb2] at h
                exact Except.noConfusion h
              | ok r4 =>
                rw [hcb2] at h
                obtain ⟨-, hr⟩ := by simpa using h
                rw [← hr]
                simp [RequestState.rank, hst]
        | Incomplete =>
          simp at h
  | RequestLine =>
    rw [Request.parseStep, hst] at h
    rw [Request.parse_message_for_request_line] at h
    cases hfc : find_crlf u with
    | none =>
      rw [hfc] at h
      cases hlim : r.request_line_limit with
      | none =>
        rw [hlim] at h
        simp at h
      | some limit =>
        rw [hlim] at h
        dsimp only at h
        split at h
        · exact Except.noConfusion h
        · simp at h
    | some lineEnd =>
      rw [hfc] at h
      have hfound : ∀ (hh : r.requestLineFound u lineEnd = .ok (.CompletePart, c, r2)),
          r2.state.rank < RequestState.rank .RequestLine := by
        intro hh
        rw [Request.requestLineFound] at hh
        split at hh
        · dsimp only at hh
          cases hcb : r.count_bytes (lineEnd + 2) with
          | error e =>
            rw [hcb] at hh
            exact Except.noConfusion hh
          | ok r3 =>
            rw [hcb] at hh
            dsimp only at hh
            cases hpr : parse_request_line (u.take lineEnd) with
            | error e =>
              rw [hpr] at hh
              exact Except.noConfusion hh
            | ok mt =>
              rw [hpr] at hh
              obtain ⟨-, hr⟩ := by simpa using hh
              rw [← hr]
              simp [RequestState.rank]
        · exact Except.noConfusion hh
      dsimp only at h
      cases hlim : r.request_line_limit with
      | none =>
        rw [hlim] at h
        exact hfound h
      | some limit =>
        rw [hlim] at h
        dsimp only at h
        split at h
        · exact Except.noConfusion h
        · exact hfound h

theorem Request.stepRankIncomplete (r : Request) (u : List Byte) (c : Nat)
    (r2 : Request) (h : r.parseStep u = .ok (.Incomplete, c, r2)) :
    r2.state = r.state := by
  cases hst : r.state with
  | Body cl =>
    rw [Request.parseStep, hst] at h
    dsimp only [Request.parse_message_for_body] at h
    split at h
    · simp at h
    · obtain ⟨-, hr⟩ := by simpa using h
      rw [← hr, hst]
  | Headers =>
    rw [Request.parseStep, hst] at h
    rw [Request.parse_message_for_headers] at h
    cases hp : r.headers.parse u with
    | error e =>
      rw [hp] at h
      exact Except.noConfusion h
    | ok v =>
      obtain ⟨hstat, c2, mh⟩ := v
      rw [hp] at h
      dsimp only at h
      cases hcb : Request.count_bytes { r with headers := mh } c2 with
      | error e =>
        rw [hcb] at h
        exact Except.noConfusion h
      | ok r3 =>
        rw [hcb] at h
        dsimp only at h
        have hr3 : r3.state = r.state := by
          unfold Request.count_bytes at hcb
          dsimp only at hcb
          split at hcb
          · split at hcb
            · exact Except.noConfusion hcb
            · obtain hr := by simpa using hcb
              rw [← hr]
          · obtain hr := by simpa using hcb
            rw [← hr]
        cases hstat with
        | Complete =>
          cases hcl : r3.headers.headerValue (strBytes "Content-Length") with
          | none =>
            rw [hcl] at h
            simp at h
          | some clText =>
            rw [hcl] at h
            dsimp only at h
            cases hdec : parseDec clText with
            | none =>
              rw [hdec] at h
              exact Except.noConfusion h
            | some L =>
              rw [hdec] at h
              dsimp only at h
              cases hcb2 : Request.count_bytes r3 L with
              | error e =>
                rw [hcb2] at h
                exact Except.noConfusion h
              | ok r4 =>
                rw [hcb2] at h
                simp at h
        | Incomplete =>
          obtain ⟨-, hr⟩ := by simpa using h
          rw [← hr, hr3, hst]
  | RequestLine =>
    rw [Request.parseStep, hst] at h
    rw [Request.parse_message_for_request_line] at h
    cases hfc : find_crlf u with
    | none =>
      rw [hfc] at h
      cases hlim : r.request_line_limit with
      | none =>
        rw [hlim] at h
        obtain ⟨-, hr⟩ := by simpa using h
        rw [← hr, hst]
      | some limit =>
        rw [hlim] at h
        dsimp only at h
        split at h
        · exact Except.noConfusion h
        · obtain ⟨-, hr⟩ := by simpa using h
          rw [← hr, hst]
    | some lineEnd =>
      rw [hfc] at h
      have hfound : ∀ (hh : r.requestLineFound u lineEnd = .ok (.Incomplete, c, r2)),
          r2.state = RequestState.RequestLine := by
        intro hh
        rw [Request.requestLineFound] at hh
        split at hh
        · dsimp only at hh
          cases hcb : r.count_bytes (lineEnd + 2) with
          | error e =>
            rw [hcb] at hh
            exact Except.noConfusion hh
          | ok r3 =>
            rw [hcb] at hh
            dsimp only at hh
            cases hpr : parse_request_line (u.take lineEnd) with
            | error e =>
              rw [hpr] at hh
              exact Except.noConfusion hh
            | ok mt =>
              rw [hpr] at hh
              simp at hh
        · exact Except.noConfusion hh
      dsimp only at h
      cases hlim : r.request_line_limit with
      | none =>
        rw [hlim] at h
        exact hfound h
      | some limit =>
        rw [hlim] at h
        dsimp only at h
        split at h
        · exact Except.noConfusion h
        · exact hfound h

theorem Request.parseLoop_fuel (f : Nat) :
    ∀ (f2 : Nat) (r : Request) (u : List Byte),
      r.state.rank < f → r.state.rank < f2 →
      Request.parseLoop f r u = Request.parseLoop f2 r u := by
  induction f with
  | zero =>
    intro f2 r u hf hf2
    omega
  | succ fuel ih =>
    intro f2 r u hf hf2
    cases f2 with
    | zero => omega
    | succ fuel2 =>
      rw [Request.parseLoop]
      rw [Request.parseLoop]
      cases hstep : r.parseStep u with
      | error e => rfl
      | ok v =>
        obtain ⟨st, c, r3⟩ := v
        cases st with
        | CompletePart =>
          dsimp only
          have hrank := Request.stepRankLt r u c r3 hstep
          rw [ih fuel2 r3 (u.drop c) (by omega) (by omega)]
        | CompleteWhole => rfl
        | Incomplete => rfl

theorem Request.stepExt (r : Request) (u y : List Byte)
    (st : ParseStatusInternal) (c : Nat) (r2 : Request)
    (hni : st ≠ .Incomplete) (h : r.parseStep u = .ok (st, c, r2)) :
    r.parseStep (u ++ y) = .ok (st, c, r2) := by
  cases hst : r.state with
  | Body cl =>
    rw [Request.parseStep, hst] at h
    rw [Request.parseStep, hst]
    dsimp only [Request.parse_message_for_body] at h ⊢
    split at h
    · rename_i hge
      obtain ⟨h1, h2, h3⟩ := by simpa using h
      rw [if_pos (by simp only [List.length_append]; omega)]
      rw [List.take_append_of_le_length (by omega)]
      rw [h1, h2]
      rw [h2] at h3
      rw [h3]
    · obtain ⟨h1, -, -⟩ := by simpa using h
      exact absurd h1.symm hni
  | Headers =>
    rw [Request.parseStep, hst] at h
    rw [Request.parseStep, hst]
    rw [Request.parse_message_for_headers] at h
    rw [Request.parse_message_for_headers]
    cases hp : r.headers.parse u with
    | error e =>
      rw [hp] at h
      exact Except.noConfusion h
    | ok v =>
      obtain ⟨hstat, c2, mh⟩ := v
      rw [hp] at h
      dsimp only at h
      cases hstat with
      | Incomplete =>
        cases hcb : Request.count_bytes { r with headers := mh } c2 with
        | error e =>
          rw [hcb] at h
          exact Except.noConfusion h
        | ok r3 =>
          rw [hcb] at h
          dsimp only at h
          obtain ⟨h1, -, -⟩ := by simpa using h
          exact absurd h1.symm hni
      | Complete =>
        have hp2 : r.headers.parse (u ++ y) = .ok (.Complete, c2, mh) :=
          headersParseLoop_complete_append (u.length + 1) ((u ++ y).length + 1)
            r.headers u y c2 mh (Nat.le_refl _) (Nat.le_refl _) hp
        rw [hp2]
        dsimp only
        exact h
  | RequestLine =>
    rw [Request.parseStep, hst] at h
    rw [Request.parseStep, hst]
    rw [Request.parse_message_for_request_line] at h
    rw [Request.parse_message_for_request_line]
    cases hfc : find_crlf u with
    | none =>
      rw [hfc] at h
      cases hlim : r.request_line_limit with
      | none =>
        rw [hlim] at h
        obtain ⟨h1, -, -⟩ := by simpa using h
        exact absurd h1.symm hni
      | some limit =>
        rw [hlim] at h
        dsimp only at h
        split at h
        · exact Except.noConfusion h
        · obtain ⟨h1, -, -⟩ := by simpa using h
          exact absurd h1.symm hni
    | some lineEnd =>
      have hbound := find_crlf_bound u lineEnd hfc
      rw [hfc] at h
      rw [find_crlf_append_some u y lineEnd hfc]
      have hrlf : r.requestLineFound (u ++ y) lineEnd = r.requestLineFound u lineEnd := by
        rw [Request.requestLineFound, Request.requestLineFound,
          List.take_append_of_le_length (by omega)]
      cases hlim : r.request_line_limit with
      | none =>
        rw [hlim] at h
        dsimp only
        rw [hrlf]
        exact h
      | some limit =>
        rw [hlim] at h
        dsimp only at h ⊢
        split at h
        · exact Except.noConfusion h
        · rename_i hgt
          rw [if_neg hgt, hrlf]
          exact h

theorem Request.count_bytes_add (r : Request) (a b : Nat) :
    r.count_bytes (a + b) =
      Request.count_bytes { r with total_bytes := r.total_bytes + a } b := by
  unfold Request.count_bytes
  dsimp only
  rw [← Nat.add_assoc]

theorem Request.pmbComp (r : Request) (u y : List Byte) (cl c : Nat) (r2 : Request)
    (h : r.parse_message_for_body u cl = (.Incomplete, c, r2)) :
    (Except.ok (r.parse_message_for_body (u ++ y) cl) : Except Error _) =
      eshift c (Except.ok (r2.parse_message_for_body (u.drop c ++ y) cl)) := by
  dsimp only [Request.parse_message_for_body] at h
  split at h
  · simp at h
  · rename_i hlt
    obtain ⟨hc, hr⟩ := by simpa using h
    subst hc
    subst hr
    rw [List.drop_length, List.nil_append]
    dsimp only [Request.parse_message_for_body]
    by_cases hy : y.length ≥ cl - (r.body.length + u.length)
    · rw [if_pos (show (u ++ y).length ≥ cl - r.body.length by
        simp only [List.length_append]; omega)]
      rw [if_pos (show y.length ≥ cl - (r.body ++ u).length by
        simp only [List.length_append]; omega)]
      dsimp only [eshift]
      have h2 : r.body ++ (u ++ y).take (cl - r.body.length) =
          (r.body ++ u) ++ y.take (cl - (r.body ++ u).length) := by
        rw [List.take_append_eq_append_take,
          List.take_of_length_le (by omega), List.append_assoc,
          Nat.sub_sub, List.length_append]
      rw [h2]
      have h1 : cl - r.body.length = u.length + (cl - (r.body ++ u).length) := by
        simp only [List.length_append]
        omega
      rw [h1]
    · rw [if_neg (show ¬ (u ++ y).length ≥ cl - r.body.length by
        simp only [List.length_append]; omega)]
      rw [if_neg (show ¬ y.length ≥ cl - (r.body ++ u).length by
        simp only [List.length_append]; omega)]
      dsimp only [eshift]
      rw [List.length_append, List.append_assoc]

theorem Request.pmhComp (r : Request) (u y : List Byte) (c : Nat) (r2 : Request)
    (h : r.parse_message_for_headers u = .ok (.Incomplete, c, r2)) :
    r.parse_message_for_headers (u ++ y) =
      eshift c (r2.parse_message_for_headers (u.drop c ++ y)) := by
  rw [Request.parse_message_for_headers] at h
  cases hp : r.headers.parse u with
  | error e =>
    rw [hp] at h
    exact Except.noConfusion h
  | ok v =>
    obtain ⟨hstat, c2, mh⟩ := v
    rw [hp] at h
    dsimp only at h
    cases hcb : Request.count_bytes { r with headers := mh } c2 with
    | error e =>
      rw [hcb] at h
      exact Except.noConfusion h
    | ok r3 =>
      rw [hcb] at h
      dsimp only at h
      cases hstat with
      | Complete =>
        cases hcl : r3.headers.headerValue (strBytes "Content-Length") with
        | none =>
          rw [hcl] at h
          simp at h
        | some clText =>
          rw [hcl] at h
          dsimp only at h
          cases hdec : parseDec clText with
          | none =>
            rw [hdec] at h
            exact Except.noConfusion h
          | some L =>
            rw [hdec] at h
            dsimp only at h
            cases hcb2 : Request.count_bytes r3 L with
            | error e =>
              rw [hcb2] at h
              exact Except.noConfusion h
            | ok r4 =>
              rw [hcb2] at h
              simp at h
      | Incomplete =>
        obtain ⟨hc, hr⟩ := by simpa using h
        subst hc
        have hr3 : r3 = { r with headers := mh, total_bytes := r.total_bytes + c2 } := by
          unfold Request.count_bytes at hcb
          dsimp only at hcb
          split at hcb
          · split at hcb
            · exact Except.noConfusion hcb
            · obtain h3 := by simpa using hcb
              exact h3.symm
          · obtain h3 := by simpa using hcb
            exact h3.symm
        subst hr
        subst hr3
        rw [Request.parse_message_for_headers, Request.parse_message_for_headers]
        rw [MessageHeaders.parse] at hp
        have hinc := headersParseLoop_incomplete_append (u.length + 1)
          ((u ++ y).length + 1) ((u.drop c2 ++ y).length + 1) r.headers u y c2 mh
          (Nat.le_refl _) (Nat.le_refl _) (Nat.le_refl _) hp
        dsimp only
        simp only [MessageHeaders.parse]
        rw [hinc]
        cases hq : headersParseLoop ((u.drop c2 ++ y).length + 1) mh
            (u.drop c2 ++ y) with
        | error e =>
          rfl
        | ok w =>
          obtain ⟨hstat2, c3, mh3⟩ := w
          dsimp only [eshift]
          rw [Request.count_bytes_add]
          dsimp only
          cases hcb3 : Request.count_bytes
              { r with headers := mh3, total_bytes := r.total_bytes + c2 } c3 with
          | error e =>
            rfl
          | ok r4 =>
            dsimp only
            cases hstat2 with
            | Complete =>
              cases hcl2 : r4.headers.headerValue (strBytes "Content-Length") with
              | none =>
                rfl
              | some clT =>
                dsimp only
                cases hdec2 : parseDec clT with
                | none =>
                  rfl
                | some L2 =>
                  dsimp only
                  cases hcb4 : Request.count_bytes r4 L2 with
                  | error e =>
                    rfl
                  | ok r5 =>
                    rfl
            | Incomplete =>
              rfl

theorem Request.stepComp (r : Request) (u y : List Byte) (c : Nat) (r2 : Request)
    (h : r.parseStep u = .ok (.Incomplete, c, r2)) :
    r.parseStep (u ++ y) = eshift c (r2.parseStep (u.drop c ++ y)) := by
  have hstate := Request.stepRankIncomplete r u c r2 h
  cases hst : r.state with
  | Body cl =>
    rw [hst] at hstate
    rw [Request.parseStep, hst] at h
    rw [Request.parseStep, hst, Request.parseStep, hstate]
    exact Request.pmbComp r u y cl c r2 (by simpa using h)
  | Headers =>
    rw [hst] at hstate
    rw [Request.parseStep, hst] at h
    rw [Request.parseStep, hst, Request.parseStep, hstate]
    exact Request.pmhComp r u y c r2 h
  | RequestLine =>
    rw [hst] at hstate
    rw [Request.parseStep, hst] at h
    rw [Request.parse_message_for_request_line] at h
    cases hfc : find_crlf u with
    | none =>
      rw [hfc] at h
      have hfin : c = 0 ∧ r = r2 := by
        cases hlim : r.request_line_limit with
        | none =>
          rw [hlim] at h
          obtain ⟨hc, hr⟩ := by simpa using h
          exact ⟨hc.symm, hr⟩
        | some limit =>
          rw [hlim] at h
          dsimp only at h
          split at h
          · exact Except.noConfusion h
          · obtain ⟨hc, hr⟩ := by simpa using h
            exact ⟨hc.symm, hr⟩
      obtain ⟨hc, hr⟩ := hfin
      subst hc
      subst hr
      rw [List.drop_zero, eshift_zero]
    | some lineEnd =>
      rw [hfc] at h
      have hfound : ∀ (hh : r.requestLineFound u lineEnd = .ok (.Incomplete, c, r2)),
          False := by
        intro hh
        rw [Request.requestLineFound] at hh
        split at hh
        · dsimp only at hh
          cases hcb : r.count_bytes (lineEnd + 2) with
          | error e =>
            rw [hcb] at hh
            exact Except.noConfusion hh
          | ok r3 =>
            rw [hcb] at hh
            dsimp only at hh
            cases hpr : parse_request_line (u.take lineEnd) with
            | error e =>
              rw [hpr] at hh
              exact Except.noConfusion hh
            | ok mt =>
              rw [hpr] at hh
              simp at hh
        · exact Except.noConfusion hh
      cases hlim : r.request_line_limit with
      | none =>
        rw [hlim] at h
        exact absurd h (fun hh => hfound hh)
      | some limit =>
        rw [hlim] at h
        dsimp only at h
        split at h
        · exact Except.noConfusion h
        · exact absurd h (fun hh => hfound hh)

theorem Request.loopRankIncomplete : ∀ (f : Nat) (r : Request) (u : List Byte)
    (c : Nat) (r2 : Request),
    Request.parseLoop f r u = .ok (.Incomplete, c, r2) →
    r2.state.rank ≤ r.state.rank := by
  intro f
  induction f with
  | zero =>
    intro r u c r2 h
    simp only [Request.parseLoop] at h
    simp at h
    exact Nat.le_of_eq (by rw [h.2])
  | succ fuel ih =>
    intro r u c r2 h
    rw [Request.parseLoop] at h
    cases hstep : r.parseStep u with
    | error e =>
      rw [hstep] at h
      exact Except.noConfusion h
    | ok v =>
      obtain ⟨st, c1, r3⟩ := v
      rw [hstep] at h
      cases st with
      | CompletePart =>
        dsimp only at h
        obtain ⟨c2, hc2, hrec⟩ := eshift_eq_ok _ _ _ _ _ h
        have h1 := Request.stepRankLt r u c1 r3 hstep
        have h2 := ih r3 (u.drop c1) c2 r2 hrec
        omega
      | CompleteWhole =>
        simp at h
      | Incomplete =>
        obtain ⟨-, hr⟩ := by simpa using h
        rw [← hr, Request.stepRankIncomplete r u c1 r3 hstep]

theorem Request.loopExt : ∀ (f : Nat) (r : Request) (u y : List Byte)
    (c : Nat) (r2 : Request),
    Request.parseLoop f r u = .ok (.Complete, c, r2) →
    Request.parseLoop f r (u ++ y) = .ok (.Complete, c, r2) := by
  intro f
  induction f with
  | zero =>
    intro r u y c r2 h
    simp only [Request.parseLoop] at h
    simp at h
  | succ fuel ih =>
    intro r u y c r2 h
    rw [Request.parseLoop] at h
    rw [Request.parseLoop]
    cases hstep : r.parseStep u with
    | error e =>
      rw [hstep] at h
      exact Except.noConfusion h
    | ok v =>
      obtain ⟨st, c1, r3⟩ := v
      rw [hstep] at h
      cases st with
      | CompletePart =>
        dsimp only at h
        have hle := Request.stepConsumedLe r u _ c1 r3 hstep
        rw [Request.stepExt r u y _ c1 r3 (by simp) hstep]
        dsimp only
        obtain ⟨c2, hc2, hrec⟩ := eshift_eq_ok _ _ _ _ _ h
        rw [List.drop_append_of_le_length hle]
        rw [ih r3 (u.drop c1) y c2 r2 hrec]
        simp [eshift, hc2]
      | CompleteWhole =>
        rw [Request.stepExt r u y _ c1 r3 (by simp) hstep]
        exact h
      | Incomplete =>
        simp at h

theorem Request.loopComp : ∀ (f : Nat) (r : Request) (u y : List Byte)
    (c : Nat) (r2 : Request),
    r.state.rank < f →
    Request.parseLoop f r u = .ok (.Incomplete, c, r2) →
    Request.parseLoop f r (u ++ y) =
      eshift c (Request.parseLoop f r2 (u.drop c ++ y)) := by
  intro f
  induction f with
  | zero =>
    intro r u y c r2 hf h
    omega
  | succ fuel ih =>
    intro r u y c r2 hf h
    rw [Request.parseLoop] at h
    rw [Request.parseLoop]
    cases hstep : r.parseStep u with
    | error e =>
      rw [hstep] at h
      exact Except.noConfusion h
    | ok v =>
      obtain ⟨st, c1, r3⟩ := v
      rw [hstep] at h
      cases st with
      | CompleteWhole =>
        simp at h
      | Incomplete =>
        dsimp only at h
        obtain ⟨hc, hr⟩ := by simpa using h
        subst hc
        subst hr
        have hcomp := Request.stepComp r u y c1 r3 hstep
        have hle := Request.stepConsumedLe r u _ c1 r3 hstep
        rw [hcomp]
        conv_rhs => rw [Request.parseLoop]
        cases hq : r3.parseStep (u.drop c1 ++ y) with
        | error e =>
          rfl
        | ok w =>
          obtain ⟨st2, c4, r4⟩ := w
          cases st2 with
          | CompleteWhole => rfl
          | Incomplete => rfl
          | CompletePart =>
            rw [show (eshift c1 (Except.ok (ParseStatusInternal.CompletePart, c4, r4)) :
                  Except Error (ParseStatusInternal × Nat × Request)) =
                Except.ok (ParseStatusInternal.CompletePart, c1 + c4, r4) from rfl]
            dsimp only
            rw [eshift_eshift]
            have hdd : (u ++ y).drop (c1 + c4) = (u.drop c1 ++ y).drop c4 := by
              rw [← List.drop_drop, List.drop_append_of_le_length hle]
            rw [hdd]
      | CompletePart =>
        dsimp only at h
        obtain ⟨c2, hc2, hrec⟩ := eshift_eq_ok _ _ _ _ _ h
        have hrank3 := Request.stepRankLt r u c1 r3 hstep
        have hle := Request.stepConsumedLe r u _ c1 r3 hstep
        have hrank2 := Request.loopRankIncomplete fuel r3 (u.drop c1) c2 r2 hrec
        rw [Request.stepExt r u y _ c1 r3 (by simp) hstep]
        dsimp only
        rw [List.drop_append_of_le_length hle]
        rw [ih r3 (u.drop c1) y c2 r2 (by omega) hrec]
        rw [eshift_eshift, List.drop_drop, ← hc2]
        rw [Request.parseLoop_fuel fuel (fuel + 1) r2 (u.drop c ++ y)
          (by omega) (by omega)]

theorem RequestState.rank_le_two (s : RequestState) : s.rank ≤ 2 := by
  cases s <;> simp [RequestState.rank]

theorem Request.count_bytes_ok_mono (r r' : Request) (a b : Nat) (r2 : Request)
    (hmax : r'.max_message_size = r.max_message_size)
    (htot : r'.total_bytes = r.total_bytes) (hab : a ≤ b)
    (h : r.count_bytes b = .ok r2) :
    r'.count_bytes a = .ok { r' with total_bytes := r'.total_bytes + a } := by
  unfold Request.count_bytes at h ⊢
  dsimp only at h ⊢
  rw [hmax, htot]
  cases hm : r.max_message_size with
  | none =>
    rfl
  | some m =>
    rw [hm] at h
    dsimp only at h
    split at h
    · exact Except.noConfusion h
    · rename_i hgt
      dsimp only
      rw [if_neg (by omega)]

theorem Request.stepPre (r : Request) (x w : List Byte) (st : ParseStatusInternal)
    (c : Nat) (r2 : Request) (hside : r.lineFits (x ++ w))
    (h : r.parseStep (x ++ w) = .ok (st, c, r2)) :
    ∃ st2 c2 r3, r.parseStep x = .ok (st2, c2, r3) := by
  cases hst : r.state with
  | Body cl =>
    exact ⟨_, _, _, by rw [Request.parseStep, hst]⟩
  | Headers =>
    rw [Request.parseStep, hst] at h
    rw [Request.parse_message_for_headers] at h
    cases hp : r.headers.parse (x ++ w) with
    | error e =>
      rw [hp] at h
      exact Except.noConfusion h
    | ok v =>
      obtain ⟨hstat, cfull, mh⟩ := v
      rw [hp] at h
      dsimp only at h
      rw [MessageHeaders.parse] at hp
      obtain ⟨stp, cp, mhp, hpx, hcple⟩ := headersParseLoop_prefix_ok
        ((x ++ w).length + 1) (x.length + 1) r.headers x w hstat cfull mh
        (Nat.le_refl _) (Nat.le_refl _) hp
      cases hcb : Request.count_bytes { r with headers := mh } cfull with
      | error e =>
        rw [hcb] at h
        exact Except.noConfusion h
      | ok r3 =>
        rw [hcb] at h
        dsimp only at h
        cases stp with
        | Complete =>
          have hfull2 : headersParseLoop ((x ++ w).length + 1) r.headers (x ++ w) =
              .ok (.Complete, cp, mhp) :=
            headersParseLoop_complete_append (x.length + 1) ((x ++ w).length + 1)
              r.headers x w cp mhp (Nat.le_refl _) (Nat.le_refl _) hpx
          rw [hp] at hfull2
          obtain ⟨he1, he2, he3⟩ := by simpa using hfull2
          rw [he2, he3] at hcb
          rw [he1, he2] at h
          dsimp only at h
          refine ⟨st, c, r2, ?_⟩
          rw [Request.parseStep, hst]
          rw [Request.parse_message_for_headers]
          rw [show r.headers.parse x = .ok (.Complete, cp, mhp) from hpx]
          dsimp only
          rw [hcb]
          dsimp only
          exact h
        | Incomplete =>
          have hcbx := Request.count_bytes_ok_mono { r with headers := mh }
            { r with headers := mhp } cp cfull r3 rfl rfl hcple hcb
          refine ⟨.Incomplete, cp,
            { r with headers := mhp, total_bytes := r.total_bytes + cp }, ?_⟩
          rw [Request.parseStep, hst]
          rw [Request.parse_message_for_headers]
          rw [show r.headers.parse x = .ok (.Incomplete, cp, mhp) from hpx]
          dsimp only
          rw [hcbx]
          dsimp only
          rw [hst]
  | RequestLine =>
    rw [Request.parseStep, hst] at h
    rw [Request.parse_message_for_request_line] at h
    cases hfcx : find_crlf x with
    | some e =>
      have hfcw := find_crlf_append_some x w e hfcx
      have hbound := find_crlf_bound x e hfcx
      rw [hfcw] at h
      have hrlf : r.requestLineFound x e = r.requestLineFound (x ++ w) e := by
        rw [Request.requestLineFound, Request.requestLineFound,
          List.take_append_of_le_length (by omega)]
      cases hlim : r.request_line_limit with
      | none =>
        rw [hlim] at h
        refine ⟨st, c, r2, ?_⟩
        rw [Request.parseStep, hst, Request.parse_message_for_request_line,
          hfcx, hlim]
        dsimp only
        rw [hrlf]
        exact h
      | some limit =>
        rw [hlim] at h
        dsimp only at h
        split at h
        · exact Except.noConfusion h
        · rename_i hgt
          refine ⟨st, c, r2, ?_⟩
          rw [Request.parseStep, hst, Request.parse_message_for_request_line,
            hfcx, hlim]
          dsimp only
          rw [if_neg hgt, hrlf]
          exact h
    | none =>
      cases hlim : r.request_line_limit with
      | none =>
        refine ⟨.Incomplete, 0, r, ?_⟩
        rw [Request.parseStep, hst, Request.parse_message_for_request_line,
          hfcx, hlim]
      | some limit =>
        have hxle : x.length ≤ limit := by
          cases hfcw : find_crlf (x ++ w) with
          | some e =>
            have he := hside hst limit e hlim hfcw
            have := length_le_of_find_crlf_append x w e hfcx hfcw
            omega
          | none =>
            rw [hfcw, hlim] at h
            dsimp only at h
            split at h
            · exact Except.noConfusion h
            · rename_i hgt
              simp only [List.length_append] at hgt
              omega
        refine ⟨.Incomplete, 0, r, ?_⟩
        rw [Request.parseStep, hst, Request.parse_message_for_request_line,
          hfcx, hlim]
        dsimp only
        rw [if_neg (by omega)]

theorem Request.loopPre : ∀ (f : Nat) (r : Request) (x w : List Byte)
    (st : ParseStatus) (c : Nat) (r2 : Request),
    r.state.rank < f → r.lineFits (x ++ w) →
    Request.parseLoop f r (x ++ w) = .ok (st, c, r2) →
    ∃ st2 c2 r3, Request.parseLoop f r x = .ok (st2, c2, r3) := by
  intro f
  induction f with
  | zero =>
    intro r x w st c r2 hf hside h
    omega
  | succ fuel ih =>
    intro r x w st c r2 hf hside h
    rw [Request.parseLoop] at h
    cases hfull : r.parseStep (x ++ w) with
    | error e =>
      rw [hfull] at h
      exact Except.noConfusion h
    | ok v =>
      obtain ⟨stf, cf, rf⟩ := v
      obtain ⟨st2, c2, r3, hpx⟩ := Request.stepPre r x w stf cf rf hside hfull
      cases st2 with
      | Incomplete =>
        exact ⟨.Incomplete, c2, r3, by rw [Request.parseLoop, hpx]⟩
      | CompleteWhole =>
        exact ⟨.Complete, c2, r3, by rw [Request.parseLoop, hpx]⟩
      | CompletePart =>
        have hfull2 := Request.stepExt r x w .CompletePart c2 r3 (by simp) hpx
        rw [hfull] at hfull2
        obtain ⟨he1, he2, he3⟩ := by simpa using hfull2
        rw [hfull] at h
        rw [he1, he2, he3] at h
        dsimp only at h
        obtain ⟨c4, hc4, hrec⟩ := eshift_eq_ok _ _ _ _ _ h
        have hle := Request.stepConsumedLe r x _ c2 r3 hpx
        have hrank := Request.stepRankLt r x c2 r3 hpx
        rw [List.drop_append_of_le_length hle] at hrec
        have hfits3 : r3.lineFits (x.drop c2 ++ w) := by
          intro hst3 limit e h1 h2
          exfalso
          rw [hst3] at hrank
          have h2r := RequestState.rank_le_two r.state
          have h2q : RequestState.rank .RequestLine = 2 := rfl
          omega
        obtain ⟨st4, c5, r4, hx4⟩ := ih r3 (x.drop c2) w st c4 r2
          (by omega) hfits3 hrec
        refine ⟨st4, c2 + c5, r4, ?_⟩
        rw [Request.parseLoop, hpx]
        dsimp only
        rw [hx4]
        rfl

theorem Request.loopConsumedLe : ∀ (f : Nat) (r : Request) (u : List Byte)
    (st : ParseStatus) (c : Nat) (r2 : Request),
    Request.parseLoop f r u = .ok (st, c, r2) → c ≤ u.length := by
  intro f
  induction f with
  | zero =>
    intro r u st c r2 h
    simp only [Request.parseLoop] at h
    obtain ⟨-, hc, -⟩ := by simpa using h
    omega
  | succ fuel ih =>
    intro r u st c r2 h
    rw [Request.parseLoop] at h
    cases hstep : r.parseStep u with
    | error e =>
      rw [hstep] at h
      exact Except.noConfusion h
    | ok v =>
      obtain ⟨st1, c1, r3⟩ := v
      rw [hstep] at h
      have hle1 := Request.stepConsumedLe r u st1 c1 r3 hstep
      cases st1 with
      | CompletePart =>
        dsimp only at h
        obtain ⟨c2, hc2, hrec⟩ := eshift_eq_ok _ _ _ _ _ h
        have hle2 := ih r3 (u.drop c1) st c2 r2 hrec
        simp only [List.length_drop] at hle2
        omega
      | CompleteWhole =>
        obtain ⟨-, hc, -⟩ := by simpa using h
        omega
      | Incomplete =>
        obtain ⟨-, hc, -⟩ := by simpa using h
        omega

theorem Request.feed_eq : ∀ (ps : List (List Byte)) (pre : List Byte)
    (t : Nat) (r1 : Request) (n : Nat) (rfin : Request),
    ps ≠ [] → (∀ p ∈ ps, p ≠ []) →
    Request.new.lineFits (pre ++ ps.flatten) →
    Request.parse Request.new pre = .ok (.Incomplete, t, r1) →
    Request.parse Request.new (pre ++ ps.flatten) = .ok (.Complete, n, rfin) →
    n = (pre ++ ps.flatten).length →
    Request.feed r1 (pre.drop t) ps = .ok (.Complete, n - t, rfin) := by
  intro ps
  induction ps with
  | nil =>
    intro pre t r1 n rfin hne
    exact absurd rfl hne
  | cons p ps ih =>
    intro pre t r1 n rfin hne hpieces hfits hpre hfull hall
    have hrank0 : Request.new.state.rank < 3 := by decide
    rw [List.flatten_cons, ← List.append_assoc] at hfits hfull hall
    rw [Request.parse] at hpre hfull
    have ht := Request.loopConsumedLe 3 Request.new pre .Incomplete t r1 hpre
    obtain ⟨st2, c2, r2, hppre⟩ := Request.loopPre 3 Request.new (pre ++ p)
      ps.flatten .Complete n rfin hrank0 hfits hfull
    have hcomp := Request.loopComp 3 Request.new pre p t r1 hrank0 hpre
    rw [hppre] at hcomp
    obtain ⟨k2, hk2, hinner⟩ := eshift_eq_ok _ _ _ _ _ hcomp.symm
    have hc2 := Request.loopConsumedLe 3 Request.new (pre ++ p) st2 c2 r2 hppre
    cases ps with
    | nil =>
      rw [List.flatten_nil, List.append_nil] at hfull hall
      rw [hppre] at hfull
      obtain ⟨hst, hc, hr⟩ := by simpa using hfull
      have hinner2 : Request.parse r1 (pre.drop t ++ p) = .ok (st2, k2, r2) :=
        hinner
      rw [Request.feed, hinner2]
      dsimp only
      rw [hst, hr, show k2 = n - t by omega]
    | cons q qs =>
      have hqlen : 0 < (q :: qs).flatten.length := by
        rw [List.flatten_cons, List.length_append]
        have hq : q ≠ [] := hpieces q (by simp)
        have := List.length_pos.mpr hq
        omega
      cases st2 with
      | Complete =>
        exfalso
        have hext := Request.loopExt 3 Request.new (pre ++ p) ((q :: qs).flatten)
          c2 r2 hppre
        rw [hfull] at hext
        obtain ⟨hcn, -⟩ := by simpa using hext
        simp only [List.length_append] at hall hc2
        omega
      | Incomplete =>
        have hfits2 : Request.new.lineFits ((pre ++ p) ++ (q :: qs).flatten) := hfits
        have hih := ih (pre ++ p) c2 r2 n rfin (by simp) 
          (fun x hx => hpieces x (by simp [hx]))
          hfits2 hppre hfull hall
        have hinner2 : Request.parse r1 (pre.drop t ++ p) =
            .ok (.Incomplete, k2, r2) := hinner
        rw [Request.feed, hinner2]
        dsimp only
        have hbuf : (pre.drop t ++ p).drop k2 = (pre ++ p).drop c2 := by
          rw [hk2, ← List.drop_drop, List.drop_append_of_le_length ht]
        rw [hbuf, hih]
        dsimp only
        simp only [List.length_append] at hall hc2
        rw [show k2 + (n - c2) = n - t by omega]

theorem ChunkedBodyState.chunkRank_le_one (s : ChunkedBodyState) :
    s.chunkRank ≤ 1 := by
  cases s <;> simp [ChunkedBodyState.chunkRank]

theorem ChunkedBody.stepConsumedLe_cb (cb : ChunkedBody) (u : List Byte)
    (st : DecodeStatusInternal) (c : Nat) (cb2 : ChunkedBody)
    (h : cb.decodeStep u = .ok (st, c, cb2)) : c ≤ u.length := by
  cases hst : cb.state with
  | ChunkData =>
    rw [ChunkedBody.decodeStep, hst] at h
    rw [ChunkedBody.decode_data] at h
    dsimp only at h
    split at h
    · obtain ⟨-, hc, -⟩ := by simpa using h
      omega
    · obtain ⟨-, hc, -⟩ := by simpa using h
      omega
  | ChunkSize =>
    rw [ChunkedBody.decodeStep, hst] at h
    rw [ChunkedBody.decode_size] at h
    cases hfc : find_crlf u with
    | none =>
      rw [hfc] at h
      obtain ⟨-, hc, -⟩ := by simpa using h
      omega
    | some lineEnd =>
      have hbound := find_crlf_bound u lineEnd hfc
      rw [hfc] at h
      dsimp only at h
      split at h
      · cases hcs : parse_chunk_size (u.take lineEnd) with
        | error e =>
          rw [hcs] at h
          exact Except.noConfusion h
        | ok n =>
          rw [hcs] at h
          dsimp only at h
          split at h
          · obtain ⟨-, hc, -⟩ := by simpa using h
            omega
          · obtain ⟨-, hc, -⟩ := by simpa using h
            omega
      · exact Except.noConfusion h
  | ChunkTerminator =>
    rw [ChunkedBody.decodeStep, hst] at h
    rw [ChunkedBody.decode_terminator.eq_def] at h
    match u with
    | [] =>
      obtain ⟨-, hc, -⟩ := by simpa using h
      omega
    | [a] =>
      dsimp only at h
      split at h
      · obtain ⟨-, hc, -⟩ := by simpa using h
        omega
      · exact Except.noConfusion h
    | a :: b :: rest =>
      dsimp only at h
      split at h
      · obtain ⟨-, hc, -⟩ := by simpa using h
        simp
        omega
      · exact Except.noConfusion h
  | Trailer =>
    rw [ChunkedBody.decodeStep, hst] at h
    rw [ChunkedBody.decode_trailer] at h
    cases hp : cb.trailer.parse u with
    | error e =>
      rw [hp] at h
      exact Except.noConfusion h
    | ok v =>
      obtain ⟨hstat, c2, mh⟩ := v
      rw [hp] at h
      have hle := headersParseLoop_consumed_le (u.length + 1) cb.trailer u
        hstat c2 mh hp
      cases hstat with
      | Complete =>
        obtain ⟨-, hc, -⟩ := by simpa using h
        omega
      | Incomplete =>
        obtain ⟨-, hc, -⟩ := by simpa using h
        omega

theorem ChunkedBody.stepMeasure (cb : ChunkedBody) (u : List Byte)
    (c : Nat) (cb2 : ChunkedBody)
    (h : cb.decodeStep u = .ok (.CompletePart, c, cb2)) :
    2 * (u.length - c) + cb2.state.chunkRank <
      2 * u.length + cb.state.chunkRank := by
  have hle := ChunkedBody.stepConsumedLe_cb cb u .CompletePart c cb2 h
  cases hst : cb.state with
  | ChunkData =>
    rw [ChunkedBody.decodeStep, hst] at h
    rw [ChunkedBody.decode_data] at h
    dsimp only at h
    split at h
    · obtain ⟨-, hr⟩ := by simpa using h
      rw [← hr]
      simp only [ChunkedBodyState.chunkRank]
      omega
    · simp at h
  | ChunkSize =>
    rw [ChunkedBody.decodeStep, hst] at h
    rw [ChunkedBody.decode_size] at h
    cases hfc : find_crlf u with
    | none =>
      rw [hfc] at h
      simp at h
    | some lineEnd =>
      have hbound := find_crlf_bound u lineEnd hfc
      rw [hfc] at h
      dsimp only at h
      split at h
      · cases hcs : parse_chunk_size (u.take lineEnd) with
        | error e =>
          rw [hcs] at h
          exact Except.noConfusion h
        | ok n =>
          rw [hcs] at h
          dsimp only at h
          split at h
          · obtain ⟨hc, hr⟩ := by simpa using h
            rw [← hr, ← hc]
            have h1 : ChunkedBodyState.chunkRank .Trailer = 0 := rfl
            have h2 : ChunkedBodyState.chunkRank .ChunkSize = 0 := rfl
            simp only [h1, h2]
            omega
          · obtain ⟨hc, hr⟩ := by simpa using h
            rw [← hr, ← hc]
            have h1 : ChunkedBodyState.chunkRank .ChunkData = 1 := rfl
            have h2 : ChunkedBodyState.chunkRank .ChunkSize = 0 := rfl
            simp only [h1, h2]
            omega
      · exact Except.noConfusion h
  | ChunkTerminator =>
    rw [ChunkedBody.decodeStep, hst] at h
    rw [ChunkedBody.decode_terminator.eq_def] at h
    match u, hle with
    | [], hle =>
      simp at h
    | [a], hle =>
      dsimp only at h
      split at h
      · simp at h
      · exact Except.noConfusion h
    | a :: b :: rest, hle =>
      dsimp only at h
      split at h
      · obtain ⟨hc, hr⟩ := by simpa using h
        rw [← hr, ← hc]
        have h1 : ChunkedBodyState.chunkRank .ChunkSize = 0 := rfl
        have h2 : ChunkedBodyState.chunkRank .ChunkTerminator = 0 := rfl
        simp only [h1, h2]
        simp
        omega
      · exact Except.noConfusion h
  | Trailer =>
    rw [ChunkedBody.decodeStep, hst] at h
    rw [ChunkedBody.decode_trailer] at h
    cases hp : cb.trailer.parse u with
    | error e =>
      rw [hp] at h
      exact Except.noConfusion h
    | ok v =>
      obtain ⟨hstat, c2, mh⟩ := v
      rw [hp] at h
      cases hstat with
      | Complete => simp at h
      | Incomplete => simp at h

theorem ChunkedBody.stepStateIncomplete (cb : ChunkedBody) (u : List Byte)
    (c : Nat) (cb2 : ChunkedBody)
    (h : cb.decodeStep u = .ok (.Incomplete, c, cb2)) :
    cb2.state = cb.state := by
  cases hst : cb.state with
  | ChunkData =>
    rw [ChunkedBody.decodeStep, hst] at h
    rw [ChunkedBody.decode_data] at h
    dsimp only at h
    split at h
    · simp at h
    · obtain ⟨-, hr⟩ := by simpa using h
      rw [← hr, hst]
  | ChunkSize =>
    rw [ChunkedBody.decodeStep, hst] at h
    rw [ChunkedBody.decode_size] at h
    cases hfc : find_crlf u with
    | none =>
      rw [hfc] at h
      obtain ⟨-, hr⟩ := by simpa using h
      rw [← hr, hst]
    | some lineEnd =>
      rw [hfc] at h
      dsimp only at h
      split at h
      · cases hcs : parse_chunk_size (u.take lineEnd) with
        | error e =>
          rw [hcs] at h
          exact Except.noConfusion h
        | ok n =>
          rw [hcs] at h
          dsimp only at h
          split at h
          · simp at h
          · simp at h
      · exact Except.noConfusion h
  | ChunkTerminator =>
    rw [ChunkedBody.decodeStep, hst] at h
    rw [ChunkedBody.decode_terminator.eq_def] at h
    match u with
    | [] =>
      obtain ⟨-, hr⟩ := by simpa using h
      rw [← hr, hst]
    | [a] =>
      dsimp only at h
      split at h
      · obtain ⟨-, hr⟩ := by simpa using h
        rw [← hr, hst]
      · exact Except.noConfusion h
    | a :: b :: rest =>
      dsimp only at h
      split at h
      · simp at h
      · exact Except.noConfusion h
  | Trailer =>
    rw [ChunkedBody.decodeStep, hst] at h
    rw [ChunkedBody.decode_trailer] at h
    cases hp : cb.trailer.parse u with
    | error e =>
      rw [hp] at h
      exact Except.noConfusion h
    | ok v =>
      obtain ⟨hstat, c2, mh⟩ := v
      rw [hp] at h
      cases hstat with
      | Complete => simp at h
      | Incomplete =>
        obtain ⟨-, hr⟩ := by simpa using h
        rw [← hr, hst]

theorem ChunkedBody.decodeLoop_fuel : ∀ (f f2 : Nat) (cb : ChunkedBody)
    (u : List Byte),
    2 * u.length + cb.state.chunkRank < f →
    2 * u.length + cb.state.chunkRank < f2 →
    ChunkedBody.decodeLoop f cb u = ChunkedBody.decodeLoop f2 cb u := by
  intro f
  induction f with
  | zero =>
    intro f2 cb u hf hf2
    omega
  | succ fuel ih =>
    intro f2 cb u hf hf2
    cases f2 with
    | zero => omega
    | succ fuel2 =>
      rw [ChunkedBody.decodeLoop]
      rw [ChunkedBody.decodeLoop]
      cases hstep : cb.decodeStep u with
      | error e => rfl
      | ok v =>
        obtain ⟨st, c1, cb3⟩ := v
        cases st with
        | CompleteWhole => rfl
        | Incomplete => rfl
        | CompletePart =>
          dsimp only
          have hm := ChunkedBody.stepMeasure cb u c1 cb3 hstep
          rw [ih fuel2 cb3 (u.drop c1)
            (by simp only [List.length_drop]; omega)
            (by simp only [List.length_drop]; omega)]

theorem ChunkedBody.stepExt_cb (cb : ChunkedBody) (u y : List Byte)
    (st : DecodeStatusInternal) (c : Nat) (cb2 : ChunkedBody)
    (hni : st ≠ .Incomplete) (h : cb.decodeStep u = .ok (st, c, cb2)) :
    cb.decodeStep (u ++ y) = .ok (st, c, cb2) := by
  cases hst : cb.state with
  | ChunkData =>
    rw [ChunkedBody.decodeStep, hst] at h
    rw [ChunkedBody.decodeStep, hst]
    rw [ChunkedBody.decode_data] at h
    rw [ChunkedBody.decode_data]
    dsimp only at h ⊢
    split at h
    · rename_i hcond
      have hneed : cb.chunk_bytes_needed ≤ u.length := by omega
      rw [show u.length ⊓ cb.chunk_bytes_needed = cb.chunk_bytes_needed
        from by omega] at h
      have hmf : (u ++ y).length ⊓ cb.chunk_bytes_needed =
          cb.chunk_bytes_needed := by
        simp only [List.length_append]
        omega
      rw [hmf]
      rw [if_pos (by omega)]
      rw [List.take_append_of_le_length hneed]
      exact h
    · obtain ⟨h1, -, -⟩ := by simpa using h
      exact absurd h1.symm hni
  | ChunkSize =>
    rw [ChunkedBody.decodeStep, hst] at h
    rw [ChunkedBody.decodeStep, hst]
    rw [ChunkedBody.decode_size] at h
    rw [ChunkedBody.decode_size]
    cases hfc : find_crlf u with
    | none =>
      rw [hfc] at h
      obtain ⟨h1, -, -⟩ := by simpa using h
      exact absurd h1.symm hni
    | some lineEnd =>
      have hbound := find_crlf_bound u lineEnd hfc
      rw [hfc] at h
      rw [find_crlf_append_some u y lineEnd hfc]
      dsimp only at h ⊢
      rw [List.take_append_of_le_length (by omega)]
      exact h
  | ChunkTerminator =>
    rw [ChunkedBody.decodeStep, hst] at h
    rw [ChunkedBody.decodeStep, hst]
    rw [ChunkedBody.decode_terminator.eq_def] at h
    rw [ChunkedBody.decode_terminator.eq_def]
    match u with
    | [] =>
      obtain ⟨h1, -, -⟩ := by simpa using h
      exact absurd h1.symm hni
    | [a] =>
      dsimp only at h
      split at h
      · obtain ⟨h1, -, -⟩ := by simpa using h
        exact absurd h1.symm hni
      · exact Except.noConfusion h
    | a :: b :: rest =>
      dsimp only at h
      simp only [List.cons_append]
      split at h
      · rename_i hab
        rw [if_pos hab]
        obtain ⟨h1, h2, h3⟩ := by simpa using h
        rw [h1, h2, h3]
      · exact Except.noConfusion h
  | Trailer =>
    rw [ChunkedBody.decodeStep, hst] at h
    rw [ChunkedBody.decodeStep, hst]
    rw [ChunkedBody.decode_trailer] at h
    rw [ChunkedBody.decode_trailer]
    cases hp : cb.trailer.parse u with
    | error e =>
      rw [hp] at h
      exact Except.noConfusion h
    | ok v =>
      obtain ⟨hstat, c2, mh⟩ := v
      rw [hp] at h
      cases hstat with
      | Incomplete =>
        obtain ⟨h1, -, -⟩ := by simpa using h
        exact absurd h1.symm hni
      | Complete =>
        have hp2 : cb.trailer.parse (u ++ y) = .ok (.Complete, c2, mh) :=
          headersParseLoop_complete_append (u.length + 1) ((u ++ y).length + 1)
            cb.trailer u y c2 mh (Nat.le_refl _) (Nat.le_refl _) hp
        rw [hp2]
        exact h

theorem ChunkedBody.stepComp_cb (cb : ChunkedBody) (u y : List Byte)
    (c : Nat) (cb2 : ChunkedBody)
    (h : cb.decodeStep u = .ok (.Incomplete, c, cb2)) :
    cb.decodeStep (u ++ y) = eshift c (cb2.decodeStep (u.drop c ++ y)) := by
  have hstate := ChunkedBody.stepStateIncomplete cb u c cb2 h
  cases hst : cb.state with
  | ChunkData =>
    rw [hst] at hstate
    rw [ChunkedBody.decodeStep, hst] at h
    rw [ChunkedBody.decodeStep, hst, ChunkedBody.decodeStep, hstate]
    rw [ChunkedBody.decode_data] at h
    dsimp only at h
    split at h
    · simp at h
    · rename_i hcond
      obtain ⟨hc, hr⟩ := by simpa using h
      have hlt : u.length < cb.chunk_bytes_needed := by omega
      rw [show u.length ⊓ cb.chunk_bytes_needed = u.length from by omega] at hc hr
      subst hc
      rw [List.take_length] at hr
      subst hr
      rw [List.drop_length, List.nil_append]
      rw [ChunkedBody.decode_data, ChunkedBody.decode_data]
      dsimp only
      by_cases hy : cb.chunk_bytes_needed ≤ u.length + y.length
      · have hm1 : (u ++ y).length ⊓ cb.chunk_bytes_needed =
            cb.chunk_bytes_needed := by
          simp only [List.length_append]
          omega
        have hm2 : y.length ⊓ (cb.chunk_bytes_needed - u.length) =
            cb.chunk_bytes_needed - u.length := by omega
        rw [hm1, hm2]
        rw [if_pos (by omega), if_pos (by omega)]
        dsimp only [eshift]
        have hb : cb.buffer ++ (u ++ y).take cb.chunk_bytes_needed =
            (cb.buffer ++ u) ++ y.take (cb.chunk_bytes_needed - u.length) := by
          rw [List.take_append_eq_append_take,
            List.take_of_length_le (by omega), List.append_assoc]
        rw [hb]
        rw [show cb.chunk_bytes_needed =
          u.length + (cb.chunk_bytes_needed - u.length) from by omega]
        simp only [Nat.sub_self, Nat.add_sub_cancel_left]
      · have hm1 : (u ++ y).length ⊓ cb.chunk_bytes_needed =
            (u ++ y).length := by
          simp only [List.length_append]
          omega
        have hm2 : y.length ⊓ (cb.chunk_bytes_needed - u.length) =
            y.length := by omega
        rw [hm1, hm2]
        rw [if_neg (by simp only [List.length_append]; omega),
          if_neg (by omega)]
        dsimp only [eshift]
        rw [List.take_length, List.take_length, List.append_assoc,
          List.length_append]
        rw [show cb.chunk_bytes_needed - (u.length + y.length) =
          cb.chunk_bytes_needed - u.length - y.length from by omega]
  | ChunkSize =>
    rw [hst] at hstate
    rw [ChunkedBody.decodeStep, hst] at h
    rw [ChunkedBody.decodeStep, hst, ChunkedBody.decodeStep, hstate]
    rw [ChunkedBody.decode_size] at h
    cases hfc : find_crlf u with
    | some lineEnd =>
      rw [hfc] at h
      dsimp only at h
      split at h
      · cases hcs : parse_chunk_size (u.take lineEnd) with
        | error e =>
          rw [hcs] at h
          exact Except.noConfusion h
        | ok n =>
          rw [hcs] at h
          dsimp only at h
          split at h
          · simp at h
          · simp at h
      · exact Except.noConfusion h
    | none =>
      rw [hfc] at h
      obtain ⟨hc, hr⟩ := by simpa using h
      subst hr
      rw [← hc, List.drop_zero, eshift_zero]
  | ChunkTerminator =>
    rw [hst] at hstate
    rw [ChunkedBody.decodeStep, hst] at h
    rw [ChunkedBody.decodeStep, hst, ChunkedBody.decodeStep, hstate]
    rw [ChunkedBody.decode_terminator.eq_def] at h
    match u with
    | [] =>
      obtain ⟨hc, hr⟩ := by simpa using h
      subst hr
      rw [← hc, List.drop_zero, eshift_zero, List.nil_append]
    | [a] =>
      dsimp only at h
      split at h
      · obtain ⟨hc, hr⟩ := by simpa using h
        subst hr
        rw [← hc, List.drop_zero, eshift_zero]
      · exact Except.noConfusion h
    | a :: b :: rest =>
      dsimp only at h
      split at h
      · simp at h
      · exact Except.noConfusion h
  | Trailer =>
    rw [hst] at hstate
    rw [ChunkedBody.decodeStep, hst] at h
    rw [ChunkedBody.decodeStep, hst, ChunkedBody.decodeStep, hstate]
    rw [ChunkedBody.decode_trailer] at h
    cases hp : cb.trailer.parse u with
    | error e =>
      rw [hp] at h
      exact Except.noConfusion h
    | ok v =>
      obtain ⟨hstat, c2, mh⟩ := v
      rw [hp] at h
      cases hstat with
      | Complete => simp at h
      | Incomplete =>
        obtain ⟨hc, hr⟩ := by simpa using h
        subst hc
        rw [MessageHeaders.parse] at hp
        have hinc := headersParseLoop_incomplete_append (u.length + 1)
          ((u ++ y).length + 1) ((u.drop c2 ++ y).length + 1) cb.trailer u y
          c2 mh (Nat.le_refl _) (Nat.le_refl _) (Nat.le_refl _) hp
        rw [ChunkedBody.decode_trailer, ChunkedBody.decode_trailer]
        subst hr
        dsimp only
        simp only [MessageHeaders.parse]
        rw [hinc]
        cases hq : headersParseLoop ((u.drop c2 ++ y).length + 1) mh
            (u.drop c2 ++ y) with
        | error e =>
          rfl
        | ok w2 =>
          obtain ⟨hstat2, c3, mh3⟩ := w2
          cases hstat2 with
          | Complete => rfl
          | Incomplete => rfl

theorem ChunkedBody.stepPre_cb (cb : ChunkedBody) (x w : List Byte)
    (st : DecodeStatusInternal) (c : Nat) (cb2 : ChunkedBody)
    (h : cb.decodeStep (x ++ w) = .ok (st, c, cb2)) :
    ∃ st2 c2 cb3, cb.decodeStep x = .ok (st2, c2, cb3) := by
  cases hst : cb.state with
  | ChunkData =>
    rw [ChunkedBody.decodeStep, hst, ChunkedBody.decode_data]
    dsimp only
    by_cases hcond : cb.chunk_bytes_needed - x.length ⊓ cb.chunk_bytes_needed = 0
    · rw [if_pos hcond]
      exact ⟨_, _, _, rfl⟩
    · rw [if_neg hcond]
      exact ⟨_, _, _, rfl⟩
  | ChunkSize =>
    rw [ChunkedBody.decodeStep, hst] at h
    rw [ChunkedBody.decode_size] at h
    rw [ChunkedBody.decodeStep, hst, ChunkedBody.decode_size]
    cases hfcx : find_crlf x with
    | none =>
      exact ⟨_, _, _, rfl⟩
    | some lineEnd =>
      have hbound := find_crlf_bound x lineEnd hfcx
      rw [find_crlf_append_some x w lineEnd hfcx] at h
      dsimp only at h ⊢
      rw [List.take_append_of_le_length (by omega)] at h
      split at h
      · rename_i hutf
        rw [if_pos hutf]
        cases hcs : parse_chunk_size (x.take lineEnd) with
        | error e =>
          rw [hcs] at h
          exact Except.noConfusion h
        | ok n =>
          dsimp only
          by_cases hz : n = 0
          · rw [if_pos hz]
            exact ⟨_, _, _, rfl⟩
          · rw [if_neg hz]
            exact ⟨_, _, _, rfl⟩
      · exact Except.noConfusion h
  | ChunkTerminator =>
    rw [ChunkedBody.decodeStep, hst] at h
    rw [ChunkedBody.decode_terminator.eq_def] at h
    rw [ChunkedBody.decodeStep, hst, ChunkedBody.decode_terminator.eq_def]
    match x with
    | [] =>
      exact ⟨_, _, _, rfl⟩
    | [a] =>
      dsimp only
      by_cases ha : a = 13
      · rw [if_pos ha]
        exact ⟨_, _, _, rfl⟩
      · exfalso
        simp only [List.cons_append, List.nil_append] at h
        match w with
        | [] =>
          dsimp only at h
          rw [if_neg ha] at h
          exact Except.noConfusion h
        | b :: rest =>
          dsimp only at h
          rw [if_neg (by intro hab; exact ha hab.1)] at h
          exact Except.noConfusion h
    | a :: b :: rest =>
      simp only [List.cons_append] at h
      dsimp only at h ⊢
      split at h
      · rename_i hab
        rw [if_pos hab]
        exact ⟨_, _, _, rfl⟩
      · exact Except.noConfusion h
  | Trailer =>
    rw [ChunkedBody.decodeStep, hst] at h
    rw [ChunkedBody.decode_trailer] at h
    rw [ChunkedBody.decodeStep, hst, ChunkedBody.decode_trailer]
    cases hp : cb.trailer.parse (x ++ w) with
    | error e =>
      rw [hp] at h
      exact Except.noConfusion h
    | ok v =>
      obtain ⟨hstat, c2, mh⟩ := v
      rw [MessageHeaders.parse] at hp
      obtain ⟨stp, cp, mhp, hpx, -⟩ := headersParseLoop_prefix_ok
        ((x ++ w).length + 1) (x.length + 1) cb.trailer x w hstat c2 mh
        (Nat.le_refl _) (Nat.le_refl _) hp
      rw [show cb.trailer.parse x = .ok (stp, cp, mhp) from hpx]
      cases stp with
      | Complete => exact ⟨_, _, _, rfl⟩
      | Incomplete => exact ⟨_, _, _, rfl⟩

theorem ChunkedBody.decodeLoopExt : ∀ (f f2 : Nat) (cb : ChunkedBody)
    (u y : List Byte) (c : Nat) (cb2 : ChunkedBody),
    2 * u.length + cb.state.chunkRank < f →
    2 * (u ++ y).length + cb.state.chunkRank < f2 →
    ChunkedBody.decodeLoop f cb u = .ok (.Complete, c, cb2) →
    ChunkedBody.decodeLoop f2 cb (u ++ y) = .ok (.Complete, c, cb2) := by
  intro f
  induction f with
  | zero =>
    intro f2 cb u y c cb2 hf hf2 h
    omega
  | succ fuel ih =>
    intro f2 cb u y c cb2 hf hf2 h
    cases f2 with
    | zero => omega
    | succ fuel2 =>
      rw [ChunkedBody.decodeLoop] at h
      rw [ChunkedBody.decodeLoop]
      cases hstep : cb.decodeStep u with
      | error e =>
        rw [hstep] at h
        exact Except.noConfusion h
      | ok v =>
        obtain ⟨st1, c1, cb3⟩ := v
        rw [hstep] at h
        cases st1 with
        | CompletePart =>
          dsimp only at h
          have hle := ChunkedBody.stepConsumedLe_cb cb u _ c1 cb3 hstep
          have hm := ChunkedBody.stepMeasure cb u c1 cb3 hstep
          rw [ChunkedBody.stepExt_cb cb u y _ c1 cb3 (by simp) hstep]
          dsimp only
          obtain ⟨c2, hc2, hrec⟩ := eshift_eq_ok _ _ _ _ _ h
          rw [List.drop_append_of_le_length hle]
          rw [ih fuel2 cb3 (u.drop c1) y c2 cb2
            (by simp only [List.length_drop]; omega)
            (by simp only [List.length_drop, List.length_append] at hf2 ⊢; omega)
            hrec]
          simp [eshift, hc2]
        | CompleteWhole =>
          rw [ChunkedBody.stepExt_cb cb u y _ c1 cb3 (by simp) hstep]
          exact h
        | Incomplete =>
          simp at h

theorem ChunkedBody.decodeLoopComp : ∀ (f f2 f3 : Nat) (cb : ChunkedBody)
    (u y : List Byte) (c : Nat) (cb2 : ChunkedBody),
    2 * u.length + cb.state.chunkRank < f →
    2 * (u ++ y).length + cb.state.chunkRank < f2 →
    2 * (u.drop c ++ y).length + cb2.state.chunkRank < f3 →
    ChunkedBody.decodeLoop f cb u = .ok (.Incomplete, c, cb2) →
    ChunkedBody.decodeLoop f2 cb (u ++ y) =
      eshift c (ChunkedBody.decodeLoop f3 cb2 (u.drop c ++ y)) := by
  intro f
  induction f with
  | zero =>
    intro f2 f3 cb u y c cb2 hf hf2 hf3 h
    omega
  | succ fuel ih =>
    intro f2 f3 cb u y c cb2 hf hf2 hf3 h
    cases f2 with
    | zero => omega
    | succ fuel2 =>
      rw [ChunkedBody.decodeLoop] at h
      rw [ChunkedBody.decodeLoop]
      cases hstep : cb.decodeStep u with
      | error e =>
        rw [hstep] at h
        exact Except.noConfusion h
      | ok v =>
        obtain ⟨st1, c1, cb3⟩ := v
        rw [hstep] at h
        cases st1 with
        | CompleteWhole =>
          simp at h
        | Incomplete =>
          dsimp only at h
          obtain ⟨hc, hr⟩ := by simpa using h
          subst hc
          subst hr
          have hcomp := ChunkedBody.stepComp_cb cb u y c1 cb3 hstep
          have hle := ChunkedBody.stepConsumedLe_cb cb u _ c1 cb3 hstep
          have hstate := ChunkedBody.stepStateIncomplete cb u c1 cb3 hstep
          cases f3 with
          | zero => omega
          | succ fuel3 =>
            rw [hcomp]
            conv_rhs => rw [ChunkedBody.decodeLoop]
            cases hq : cb3.decodeStep (u.drop c1 ++ y) with
            | error e =>
              rfl
            | ok w2 =>
              obtain ⟨st2, c4, cb4⟩ := w2
              cases st2 with
              | CompleteWhole => rfl
              | Incomplete => rfl
              | CompletePart =>
                rw [show (eshift c1 (Except.ok
                      (DecodeStatusInternal.CompletePart, c4, cb4)) :
                    Except Error (DecodeStatusInternal × Nat × ChunkedBody)) =
                  Except.ok (DecodeStatusInternal.CompletePart, c1 + c4, cb4)
                  from rfl]
                dsimp only
                rw [eshift_eshift]
                have hdd : (u ++ y).drop (c1 + c4) = (u.drop c1 ++ y).drop c4 := by
                  rw [← List.drop_drop, List.drop_append_of_le_length hle]
                rw [hdd]
                have hm4 := ChunkedBody.stepMeasure cb3 (u.drop c1 ++ y) c4 cb4 hq
                rw [ChunkedBody.decodeLoop_fuel fuel2 fuel3 cb4
                  ((u.drop c1 ++ y).drop c4)
                  (by
                    simp only [List.length_drop, List.length_append] at hf2 hm4 ⊢
                    rw [hstate] at hm4
                    omega)
                  (by
                    simp only [List.length_drop, List.length_append] at hf3 hm4 ⊢
                    omega)]
        | CompletePart =>
          dsimp only at h
          obtain ⟨c2, hc2, hrec⟩ := eshift_eq_ok _ _ _ _ _ h
          have hm := ChunkedBody.stepMeasure cb u c1 cb3 hstep
          have hle := ChunkedBody.stepConsumedLe_cb cb u _ c1 cb3 hstep
          rw [ChunkedBody.stepExt_cb cb u y _ c1 cb3 (by simp) hstep]
          dsimp only
          rw [List.drop_append_of_le_length hle]
          have hih := ih fuel2 f3 cb3 (u.drop c1) y c2 cb2
            (by simp only [List.length_drop]; omega)
            (by simp only [List.length_drop, List.length_append] at hf2 ⊢; omega)
            (by
              rw [List.drop_drop, show c1 + c2 = c from hc2.symm]
              exact hf3)
            hrec
          rw [List.drop_drop, show c1 + c2 = c from hc2.symm] at hih
          rw [hih, eshift_eshift, ← hc2]

theorem ChunkedBody.decodeLoopPre : ∀ (f f2 : Nat) (cb : ChunkedBody)
    (x w : List Byte) (st : DecodeStatus) (c : Nat) (cb2 : ChunkedBody),
    2 * (x ++ w).length + cb.state.chunkRank < f →
    2 * x.length + cb.state.chunkRank < f2 →
    ChunkedBody.decodeLoop f cb (x ++ w) = .ok (st, c, cb2) →
    ∃ st2 c2 cb3, ChunkedBody.decodeLoop f2 cb x = .ok (st2, c2, cb3) := by
  intro f
  induction f with
  | zero =>
    intro f2 cb x w st c cb2 hf hf2 h
    omega
  | succ fuel ih =>
    intro f2 cb x w st c cb2 hf hf2 h
    cases f2 with
    | zero => omega
    | succ fuel2 =>
      rw [ChunkedBody.decodeLoop] at h
      cases hfull : cb.decodeStep (x ++ w) with
      | error e =>
        rw [hfull] at h
        exact Except.noConfusion h
      | ok v =>
        obtain ⟨stf, cf, cbf⟩ := v
        obtain ⟨st2, c2, cb3, hpx⟩ := ChunkedBody.stepPre_cb cb x w stf cf cbf hfull
        cases st2 with
        | Incomplete =>
          exact ⟨.Incomplete, c2, cb3, by rw [ChunkedBody.decodeLoop, hpx]⟩
        | CompleteWhole =>
          exact ⟨.Complete, c2, cb3, by rw [ChunkedBody.decodeLoop, hpx]⟩
        | CompletePart =>
          have hfull2 := ChunkedBody.stepExt_cb cb x w .CompletePart c2 cb3
            (by simp) hpx
          rw [hfull] at hfull2
          obtain ⟨he1, he2, he3⟩ := by simpa using hfull2
          rw [hfull] at h
          rw [he1, he2, he3] at h
          dsimp only at h
          obtain ⟨c4, hc4, hrec⟩ := eshift_eq_ok _ _ _ _ _ h
          have hle := ChunkedBody.stepConsumedLe_cb cb x _ c2 cb3 hpx
          have hm := ChunkedBody.stepMeasure cb x c2 cb3 hpx
          rw [List.drop_append_of_le_length hle] at hrec
          obtain ⟨st4, c5, cb4, hx4⟩ := ih fuel2 cb3 (x.drop c2) w st c4 cb2
            (by simp only [List.length_drop, List.length_append] at hf hm ⊢; omega)
            (by simp only [List.length_drop]; omega)
            hrec
          refine ⟨st4, c2 + c5, cb4, ?_⟩
          rw [ChunkedBody.decodeLoop, hpx]
          dsimp only
          rw [hx4]
          rfl

theorem ChunkedBody.decodeExt (cb : ChunkedBody) (u y : List Byte)
    (c : Nat) (cb2 : ChunkedBody)
    (h : cb.decode u = .ok (.Complete, c, cb2)) :
    cb.decode (u ++ y) = .ok (.Complete, c, cb2) := by
  have h1 := ChunkedBodyState.chunkRank_le_one cb.state
  exact ChunkedBody.decodeLoopExt (2 * u.length + 4) (2 * (u ++ y).length + 4)
    cb u y c cb2 (by omega)
    (by simp only [List.length_append]; omega) h

theorem ChunkedBody.decodeComp (cb : ChunkedBody) (u y : List Byte)
    (c : Nat) (cb2 : ChunkedBody)
    (h : cb.decode u = .ok (.Incomplete, c, cb2)) :
    cb.decode (u ++ y) = eshift c (cb2.decode (u.drop c ++ y)) := by
  have h1 := ChunkedBodyState.chunkRank_le_one cb.state
  have h2 := ChunkedBodyState.chunkRank_le_one cb2.state
  exact ChunkedBody.decodeLoopComp (2 * u.length + 4) (2 * (u ++ y).length + 4)
    (2 * (u.drop c ++ y).length + 4) cb u y c cb2 (by omega)
    (by simp only [List.length_append]; omega)
    (by simp only [List.length_append, List.length_drop]; omega) h

theorem ChunkedBody.decodePre (cb : ChunkedBody) (x w : List Byte)
    (st : DecodeStatus) (c : Nat) (cb2 : ChunkedBody)
    (h : cb.decode (x ++ w) = .ok (st, c, cb2)) :
    ∃ st2 c2 cb3, cb.decode x = .ok (st2, c2, cb3) := by
  have h1 := ChunkedBodyState.chunkRank_le_one cb.state
  exact ChunkedBody.decodeLoopPre (2 * (x ++ w).length + 4) (2 * x.length + 4)
    cb x w st c cb2 (by simp only [List.length_append]; omega) (by omega) h

theorem ChunkedBody.decodeLoopConsumedLe : ∀ (f : Nat) (cb : ChunkedBody)
    (u : List Byte) (st : DecodeStatus) (c : Nat) (cb2 : ChunkedBody),
    ChunkedBody.decodeLoop f cb u = .ok (st, c, cb2) → c ≤ u.length := by
  intro f
  induction f with
  | zero =>
    intro cb u st c cb2 h
    simp only [ChunkedBody.decodeLoop] at h
    obtain ⟨-, hc, -⟩ := by simpa using h
    omega
  | succ fuel ih =>
    intro cb u st c cb2 h
    rw [ChunkedBody.decodeLoop] at h
    cases hstep : cb.decodeStep u with
    | error e =>
      rw [hstep] at h
      exact Except.noConfusion h
    | ok v =>
      obtain ⟨st1, c1, cb3⟩ := v
      rw [hstep] at h
      have hle1 := ChunkedBody.stepConsumedLe_cb cb u st1 c1 cb3 hstep
      cases st1 with
      | CompletePart =>
        dsimp only at h
        obtain ⟨c2, hc2, hrec⟩ := eshift_eq_ok _ _ _ _ _ h
        have hle2 := ih cb3 (u.drop c1) st c2 cb2 hrec
        simp only [List.length_drop] at hle2
        omega
      | CompleteWhole =>
        obtain ⟨-, hc, -⟩ := by simpa using h
        omega
      | Incomplete =>
        obtain ⟨-, hc, -⟩ := by simpa using h
        omega

theorem ChunkedBody.decodeConsumedLe (cb : ChunkedBody) (u : List Byte)
    (st : DecodeStatus) (c : Nat) (cb2 : ChunkedBody)
    (h : cb.decode u = .ok (st, c, cb2)) : c ≤ u.length :=
  ChunkedBody.decodeLoopConsumedLe (2 * u.length + 4) cb u st c cb2 h

theorem Response.stepConsumedLe_resp (r : Response) (u : List Byte)
    (st : ParseStatusInternal) (c : Nat) (r2 : Response)
    (h : r.parseStep u = .ok (st, c, r2)) : c ≤ u.length := by
  cases hst : r.state with
  | ChunkedBody cb =>
    rw [Response.parseStep, hst] at h
    dsimp only at h
    rw [Response.parse_message_for_chunked_body.eq_def] at h
    cases hd : cb.decode u with
    | error e =>
      rw [hd] at h
      exact Except.noConfusion h
    | ok v =>
      obtain ⟨dst, c1, cb2⟩ := v
      rw [hd] at h
      have hle := ChunkedBody.decodeConsumedLe cb u dst c1 cb2 hd
      cases dst with
      | Complete =>
        obtain ⟨-, hc, -⟩ := by simpa using h
        omega
      | Incomplete =>
        obtain ⟨-, hc, -⟩ := by simpa using h
        omega
  | FixedBody cl =>
    rw [Response.parseStep, hst] at h
    dsimp only at h
    rw [Response.parse_message_for_fixed_body.eq_def] at h
    dsimp only at h
    split at h
    · obtain ⟨-, hc, -⟩ := by simpa using h
      omega
    · obtain ⟨-, hc, -⟩ := by simpa using h
      omega
  | Headers =>
    rw [Response.parseStep, hst] at h
    rw [Response.parse_message_for_headers] at h
    cases hp : r.headers.parse u with
    | error e =>
      rw [hp] at h
      exact Except.noConfusion h
    | ok v =>
      obtain ⟨hstat, c2, mh⟩ := v
      rw [hp] at h
      dsimp only at h
      have hle := headersParseLoop_consumed_le (u.length + 1) r.headers u
        hstat c2 mh hp
      cases hstat with
      | Complete =>
        cases hcl : (MessageHeaders.headerValue
            { headers := mh.headers, lineLimit := mh.lineLimit }
            (strBytes "Content-Length")) with
        | some clText =>
          rw [show mh = { headers := mh.headers, lineLimit := mh.lineLimit }
            from rfl] at h
          rw [hcl] at h
          dsimp only at h
          cases hdec : parseDec clText with
          | none =>
            rw [hdec] at h
            exact Except.noConfusion h
          | some L =>
            rw [hdec] at h
            obtain ⟨-, hc, -⟩ := by simpa using h
            omega
        | none =>
          rw [show mh = { headers := mh.headers, lineLimit := mh.lineLimit }
            from rfl] at h
          rw [hcl] at h
          dsimp only at h
          split at h
          · obtain ⟨-, hc, -⟩ := by simpa using h
            omega
          · obtain ⟨-, hc, -⟩ := by simpa using h
            omega
      | Incomplete =>
        obtain ⟨-, hc, -⟩ := by simpa using h
        omega
  | StatusLine =>
    rw [Response.parseStep, hst] at h
    rw [Response.parse_message_for_status_line] at h
    cases hfc : find_crlf u with
    | none =>
      rw [hfc] at h
      obtain ⟨-, hc, -⟩ := by simpa using h
      omega
    | some lineEnd =>
      have hbound := find_crlf_bound u lineEnd hfc
      rw [hfc] at h
      dsimp only at h
      split at h
      · cases hps : parse_status_line (u.take lineEnd) with
        | error e =>
          rw [hps] at h
          exact Except.noConfusion h
        | ok v2 =>
          obtain ⟨sc, rp⟩ := v2
          rw [hps] at h
          obtain ⟨-, hc, -⟩ := by simpa using h
          omega
      · exact Except.noConfusion h

theorem Response.stepRankLt_resp (r : Response) (u : List Byte) (c : Nat)
    (r2 : Response) (h : r.parseStep u = .ok (.CompletePart, c, r2)) :
    r2.state.rank < r.state.rank := by
  cases hst : r.state with
  | ChunkedBody cb =>
    rw [Response.parseStep, hst] at h
    dsimp only at h
    rw [Response.parse_message_for_chunked_body.eq_def] at h
    cases hd : cb.decode u with
    | error e =>
      rw [hd] at h
      exact Except.noConfusion h
    | ok v =>
      obtain ⟨dst, c1, cb2⟩ := v
      rw [hd] at h
      cases dst with
      | Complete => simp at h
      | Incomplete => simp at h
  | FixedBody cl =>
    rw [Response.parseStep, hst] at h
    dsimp only at h
    rw [Response.parse_message_for_fixed_body.eq_def] at h
    dsimp only at h
    split at h
    · simp at h
    · simp at h
  | Headers =>
    rw [Response.parseStep, hst] at h
    rw [Response.parse_message_for_headers] at h
    cases hp : r.headers.parse u with
    | error e =>
      rw [hp] at h
      exact Except.noConfusion h
    | ok v =>
      obtain ⟨hstat, c2, mh⟩ := v
      rw [hp] at h
      dsimp only at h
      cases hstat with
      | Complete =>
        cases hcl : (MessageHeaders.headerValue
            { headers := mh.headers, lineLimit := mh.lineLimit }
            (strBytes "Content-Length")) with
        | some clText =>
          rw [show mh = { headers := mh.headers, lineLimit := mh.lineLimit }
            from rfl] at h
          rw [hcl] at h
          dsimp only at h
          cases hdec : parseDec clText with
          | none =>
            rw [hdec] at h
            exact Except.noConfusion h
          | some L =>
            rw [hdec] at h
            obtain ⟨-, hr⟩ := by simpa using h
            rw [← hr]
            simp [ResponseState.rank, hst]
        | none =>
          rw [show mh = { headers := mh.headers, lineLimit := mh.lineLimit }
            from rfl] at h
          rw [hcl] at h
          dsimp only at h
          split at h
          · obtain ⟨-, hr⟩ := by simpa using h
            rw [← hr]
            simp [ResponseState.rank, hst]
          · simp at h
      | Incomplete =>
        simp at h
  | StatusLine =>
    rw [Response.parseStep, hst] at h
    rw [Response.parse_message_for_status_line] at h
    cases hfc : find_crlf u with
    | none =>
      rw [hfc] at h
      simp at h
    | some lineEnd =>
      rw [hfc] at h
      dsimp only at h
      split at h
      · cases hps : parse_status_line (u.take lineEnd) with
        | error e =>
          rw [hps] at h
          exact Except.noConfusion h
        | ok v2 =>
          obtain ⟨sc, rp⟩ := v2
          rw [hps] at h
          obtain ⟨-, hr⟩ := by simpa using h
          rw [← hr]
          simp [ResponseState.rank, hst]
      · exact Except.noConfusion h

theorem Response.stepRankIncomplete_resp (r : Response) (u : List Byte) (c : Nat)
    (r2 : Response) (h : r.parseStep u = .ok (.Incomplete, c, r2)) :
    r2.state.rank = r.state.rank := by
  cases hst : r.state with
  | ChunkedBody cb =>
    rw [Response.parseStep, hst] at h
    dsimp only at h
    rw [Response.parse_message_for_chunked_body.eq_def] at h
    cases hd : cb.decode u with
    | error e =>
      rw [hd] at h
      exact Except.noConfusion h
    | ok v =>
      obtain ⟨dst, c1, cb2⟩ := v
      rw [hd] at h
      cases dst with
      | Complete => simp at h
      | Incomplete =>
        obtain ⟨-, hr⟩ := by simpa using h
        rw [← hr]
        rfl
  | FixedBody cl =>
    rw [Response.parseStep, hst] at h
    dsimp only at h
    rw [Response.parse_message_for_fixed_body.eq_def] at h
    dsimp only at h
    split at h
    · simp at h
    · obtain ⟨-, hr⟩ := by simpa using h
      rw [← hr, hst]
  | Headers =>
    rw [Response.parseStep, hst] at h
    rw [Response.parse_message_for_headers] at h
    cases hp : r.headers.parse u with
    | error e =>
      rw [hp] at h
      exact Except.noConfusion h
    | ok v =>
      obtain ⟨hstat, c2, mh⟩ := v
      rw [hp] at h
      dsimp only at h
      cases hstat with
      | Complete =>
        cases hcl : (MessageHeaders.headerValue
            { headers := mh.headers, lineLimit := mh.lineLimit }
            (strBytes "Content-Length")) with
        | some clText =>
          rw [show mh = { headers := mh.headers, lineLimit := mh.lineLimit }
            from rfl] at h
          rw [hcl] at h
          dsimp only at h
          cases hdec : parseDec clText with
          | none =>
            rw [hdec] at h
            exact Except.noConfusion h
          | some L =>
            rw [hdec] at h
            simp at h
        | none =>
          rw [show mh = { headers := mh.headers, lineLimit := mh.lineLimit }
            from rfl] at h
          rw [hcl] at h
          dsimp only at h
          split at h
          · simp at h
          · simp at h
      | Incomplete =>
        obtain ⟨-, hr⟩ := by simpa using h
        rw [← hr]
  | StatusLine =>
    rw [Response.parseStep, hst] at h
    rw [Response.parse_message_for_status_line] at h
    cases hfc : find_crlf u with
    | none =>
      rw [hfc] at h
      obtain ⟨-, hr⟩ := by simpa using h
      rw [← hr, hst]
    | some lineEnd =>
      rw [hfc] at h
      dsimp only at h
      split at h
      · cases hps : parse_status_line (u.take lineEnd) with
        | error e =>
          rw [hps] at h
          exact Except.noConfusion h
        | ok v2 =>
          obtain ⟨sc, rp⟩ := v2
          rw [hps] at h
          simp at h
      · exact Except.noConfusion h

theorem ResponseState.rank_le_two_resp (s : ResponseState) : s.rank ≤ 2 := by
  cases s <;> simp [ResponseState.rank]

theorem Response.parseLoop_fuel_resp (f : Nat) :
    ∀ (f2 : Nat) (r : Response) (u : List Byte),
      r.state.rank < f → r.state.rank < f2 →
      Response.parseLoop f r u = Response.parseLoop f2 r u := by
  induction f with
  | zero =>
    intro f2 r u hf hf2
    omega
  | succ fuel ih =>
    intro f2 r u hf hf2
    cases f2 with
    | zero => omega
    | succ fuel2 =>
      rw [Response.parseLoop]
      rw [Response.parseLoop]
      cases hstep : r.parseStep u with
      | error e => rfl
      | ok v =>
        obtain ⟨st, c, r3⟩ := v
        cases st with
        | CompletePart =>
          dsimp only
          have hrank := Response.stepRankLt_resp r u c r3 hstep
          rw [ih fuel2 r3 (u.drop c) (by omega) (by omega)]
        | CompleteWhole => rfl
        | Incomplete => rfl

theorem Response.stepExt_resp (r : Response) (u y : List Byte)
    (st : ParseStatusInternal) (c : Nat) (r2 : Response)
    (hni : st ≠ .Incomplete) (h : r.parseStep u = .ok (st, c, r2)) :
    r.parseStep (u ++ y) = .ok (st, c, r2) := by
  cases hst : r.state with
  | ChunkedBody cb =>
    rw [Response.parseStep, hst] at h
    rw [Response.parseStep, hst]
    dsimp only at h ⊢
    rw [Response.parse_message_for_chunked_body.eq_def] at h
    rw [Response.parse_message_for_chunked_body.eq_def]
    cases hd : cb.decode u with
    | error e =>
      rw [hd] at h
      exact Except.noConfusion h
    | ok v =>
      obtain ⟨dst, c1, cb2⟩ := v
      rw [hd] at h
      cases dst with
      | Incomplete =>
        obtain ⟨h1, -, -⟩ := by simpa using h
        exact absurd h1.symm hni
      | Complete =>
        rw [ChunkedBody.decodeExt cb u y c1 cb2 hd]
        exact h
  | FixedBody cl =>
    rw [Response.parseStep, hst] at h
    rw [Response.parseStep, hst]
    dsimp only at h ⊢
    rw [Response.parse_message_for_fixed_body.eq_def] at h
    rw [Response.parse_message_for_fixed_body.eq_def]
    dsimp only at h ⊢
    split at h
    · rename_i hge
      obtain ⟨h1, h2, h3⟩ := by simpa using h
      rw [if_pos (by simp only [List.length_append]; omega)]
      rw [List.take_append_of_le_length (by omega)]
      rw [h1, h2]
      rw [h2] at h3
      rw [h3]
    · obtain ⟨h1, -, -⟩ := by simpa using h
      exact absurd h1.symm hni
  | Headers =>
    rw [Response.parseStep, hst] at h
    rw [Response.parseStep, hst]
    rw [Response.parse_message_for_headers] at h
    rw [Response.parse_message_for_headers]
    cases hp : r.headers.parse u with
    | error e =>
      rw [hp] at h
      exact Except.noConfusion h
    | ok v =>
      obtain ⟨hstat, c2, mh⟩ := v
      rw [hp] at h
      dsimp only at h
      cases hstat with
      | Incomplete =>
        obtain ⟨h1, -, -⟩ := by simpa using h
        exact absurd h1.symm hni
      | Complete =>
        have hp2 : r.headers.parse (u ++ y) = .ok (.Complete, c2, mh) :=
          headersParseLoop_complete_append (u.length + 1) ((u ++ y).length + 1)
            r.headers u y c2 mh (Nat.le_refl _) (Nat.le_refl _) hp
        rw [hp2]
        dsimp only
        exact h
  | StatusLine =>
    rw [Response.parseStep, hst] at h
    rw [Response.parseStep, hst]
    rw [Response.parse_message_for_status_line] at h
    rw [Response.parse_message_for_status_line]
    cases hfc : find_crlf u with
    | none =>
      rw [hfc] at h
      obtain ⟨h1, -, -⟩ := by simpa using h
      exact absurd h1.symm hni
    | some lineEnd =>
      have hbound := find_crlf_bound u lineEnd hfc
      rw [hfc] at h
      rw [find_crlf_append_some u y lineEnd hfc]
      dsimp only at h ⊢
      rw [List.take_append_of_le_length (by omega)]
      exact h

theorem Response.stepComp_resp (r : Response) (u y : List Byte) (c : Nat)
    (r2 : Response) (h : r.parseStep u = .ok (.Incomplete, c, r2)) :
    r.parseStep (u ++ y) = eshift c (r2.parseStep (u.drop c ++ y)) := by
  cases hst : r.state with
  | ChunkedBody cb =>
    rw [Response.parseStep, hst] at h
    dsimp only at h
    rw [Response.parse_message_for_chunked_body.eq_def] at h
    cases hd : cb.decode u with
    | error e =>
      rw [hd] at h
      exact Except.noConfusion h
    | ok v =>
      obtain ⟨dst, c1, cb2⟩ := v
      rw [hd] at h
      cases dst with
      | Complete => simp at h
      | Incomplete =>
        obtain ⟨hc, hr⟩ := by simpa using h
        subst hc
        subst hr
        rw [Response.parseStep, hst, Response.parseStep]
        dsimp only
        rw [Response.parse_message_for_chunked_body.eq_def,
          Response.parse_message_for_chunked_body.eq_def]
        rw [ChunkedBody.decodeComp cb u y c1 cb2 hd]
        cases hq : cb2.decode (u.drop c1 ++ y) with
        | error e =>
          rfl
        | ok w2 =>
          obtain ⟨dst2, c3, cb3⟩ := w2
          cases dst2 with
          | Complete =>
            dsimp only [eshift]
            by_cases hte : ((addAllHeaders r.headers cb3.trailer.headers).headerTokens
                (strBytes "Transfer-Encoding")).dropLast = []
            · simp only [if_pos hte]
            · simp only [if_neg hte]
          | Incomplete => rfl
  | FixedBody cl =>
    rw [Response.parseStep, hst] at h
    dsimp only at h
    rw [Response.parse_message_for_fixed_body.eq_def] at h
    dsimp only at h
    split at h
    · simp at h
    · rename_i hlt
      obtain ⟨hc, hr⟩ := by simpa using h
      subst hc
      subst hr
      rw [Response.parseStep, hst, Response.parseStep]
      dsimp only
      rw [Response.parse_message_for_fixed_body.eq_def,
        Response.parse_message_for_fixed_body.eq_def]
      rw [List.drop_length, List.nil_append]
      dsimp only
      by_cases hy : y.length ≥ cl - (r.body.length + u.length)
      · rw [if_pos (show (u ++ y).length ≥ cl - r.body.length by
          simp only [List.length_append]; omega)]
        rw [if_pos (show y.length ≥ cl - (r.body ++ u).length by
          simp only [List.length_append]; omega)]
        dsimp only [eshift]
        have h2 : r.body ++ (u ++ y).take (cl - r.body.length) =
            (r.body ++ u) ++ y.take (cl - (r.body ++ u).length) := by
          rw [List.take_append_eq_append_take,
            List.take_of_length_le (by omega), List.append_assoc,
            Nat.sub_sub, List.length_append]
        rw [h2]
        have h1 : cl - r.body.length = u.length + (cl - (r.body ++ u).length) := by
          simp only [List.length_append]
          omega
        rw [h1, hst]
      · rw [if_neg (show ¬ (u ++ y).length ≥ cl - r.body.length by
          simp only [List.length_append]; omega)]
        rw [if_neg (show ¬ y.length ≥ cl - (r.body ++ u).length by
          simp only [List.length_append]; omega)]
        dsimp only [eshift]
        rw [List.length_append, List.append_assoc, hst]
  | Headers =>
    rw [Response.parseStep, hst] at h
    rw [Response.parse_message_for_headers] at h
    cases hp : r.headers.parse u with
    | error e =>
      rw [hp] at h
      exact Except.noConfusion h
    | ok v =>
      obtain ⟨hstat, c2, mh⟩ := v
      rw [hp] at h
      dsimp only at h
      cases hstat with
      | Complete =>
        cases hcl : (MessageHeaders.headerValue
            { headers := mh.headers, lineLimit := mh.lineLimit }
            (strBytes "Content-Length")) with
        | some clText =>
          rw [show mh = { headers := mh.headers, lineLimit := mh.lineLimit }
            from rfl] at h
          rw [hcl] at h
          dsimp only at h
          cases hdec : parseDec clText with
          | none =>
            rw [hdec] at h
            exact Except.noConfusion h
          | some L =>
            rw [hdec] at h
            simp at h
        | none =>
          rw [show mh = { headers := mh.headers, lineLimit := mh.lineLimit }
            from rfl] at h
          rw [hcl] at h
          dsimp only at h
          split at h
          · simp at h
          · simp at h
      | Incomplete =>
        obtain ⟨hc, hr⟩ := by simpa using h
        subst hc
        subst hr
        rw [Response.parseStep, hst, Response.parseStep]
        dsimp only
        rw [Response.parse_message_for_headers, Response.parse_message_for_headers]
        rw [MessageHeaders.parse] at hp
        have hinc := headersParseLoop_incomplete_append (u.length + 1)
          ((u ++ y).length + 1) ((u.drop c2 ++ y).length + 1) r.headers u y c2 mh
          (Nat.le_refl _) (Nat.le_refl _) (Nat.le_refl _) hp
        dsimp only
        simp only [MessageHeaders.parse]
        rw [hinc]
        cases hq : headersParseLoop ((u.drop c2 ++ y).length + 1) mh
            (u.drop c2 ++ y) with
        | error e =>
          rfl
        | ok w2 =>
          obtain ⟨hstat2, c3, mh3⟩ := w2
          dsimp only [eshift]
          cases hstat2 with
          | Complete =>
            cases hcl2 : mh3.headerValue (strBytes "Content-Length") with
            | some clT =>
              dsimp only
              cases hdec2 : parseDec clT with
              | none =>
                rfl
              | some L2 =>
                rfl
            | none =>
              dsimp only
              by_cases hte : mh3.hasHeaderToken (strBytes "Transfer-Encoding")
                  (strBytes "chunked")
              · rw [if_pos hte, if_pos hte]
              · rw [if_neg hte, if_neg hte]
          | Incomplete =>
            rfl
  | StatusLine =>
    rw [Response.parseStep, hst] at h
    rw [Response.parse_message_for_status_line] at h
    cases hfc : find_crlf u with
    | none =>
      rw [hfc] at h
      obtain ⟨hc, hr⟩ := by simpa using h
      subst hr
      rw [← hc, List.drop_zero, eshift_zero]
    | some lineEnd =>
      rw [hfc] at h
      dsimp only at h
      split at h
      · cases hps : parse_status_line (u.take lineEnd) with
        | error e =>
          rw [hps] at h
          exact Except.noConfusion h
        | ok v2 =>
          obtain ⟨sc, rp⟩ := v2
          rw [hps] at h
          simp at h
      · exact Except.noConfusion h

theorem Response.stepPre_resp (r : Response) (x w : List Byte)
    (st : ParseStatusInternal) (c : Nat) (r2 : Response)
    (h : r.parseStep (x ++ w) = .ok (st, c, r2)) :
    ∃ st2 c2 r3, r.parseStep x = .ok (st2, c2, r3) := by
  cases hst : r.state with
  | ChunkedBody cb =>
    rw [Response.parseStep, hst] at h
    dsimp only at h
    rw [Response.parse_message_for_chunked_body.eq_def] at h
    cases hd : cb.decode (x ++ w) with
    | error e =>
      rw [hd] at h
      exact Except.noConfusion h
    | ok v =>
      obtain ⟨dst, c1, cb2⟩ := v
      obtain ⟨dst2, c2, cb3, hdx⟩ := ChunkedBody.decodePre cb x w dst c1 cb2 hd
      rw [Response.parseStep, hst]
      dsimp only
      rw [Response.parse_message_for_chunked_body.eq_def, hdx]
      cases dst2 with
      | Complete => exact ⟨_, _, _, rfl⟩
      | Incomplete => exact ⟨_, _, _, rfl⟩
  | FixedBody cl =>
    rw [Response.parseStep, hst]
    dsimp only
    rw [Response.parse_message_for_fixed_body.eq_def]
    dsimp only
    by_cases hge : x.length ≥ cl - r.body.length
    · rw [if_pos hge]
      exact ⟨_, _, _, rfl⟩
    · rw [if_neg hge]
      exact ⟨_, _, _, rfl⟩
  | Headers =>
    rw [Response.parseStep, hst] at h
    rw [Response.parse_message_for_headers] at h
    cases hp : r.headers.parse (x ++ w) with
    | error e =>
      rw [hp] at h
      exact Except.noConfusion h
    | ok v =>
      obtain ⟨hstat, cfull, mh⟩ := v
      rw [hp] at h
      dsimp only at h
      rw [MessageHeaders.parse] at hp
      obtain ⟨stp, cp, mhp, hpx, -⟩ := headersParseLoop_prefix_ok
        ((x ++ w).length + 1) (x.length + 1) r.headers x w hstat cfull mh
        (Nat.le_refl _) (Nat.le_refl _) hp
      cases stp with
      | Complete =>
        have hfull2 : headersParseLoop ((x ++ w).length + 1) r.headers (x ++ w) =
            .ok (.Complete, cp, mhp) :=
          headersParseLoop_complete_append (x.length + 1) ((x ++ w).length + 1)
            r.headers x w cp mhp (Nat.le_refl _) (Nat.le_refl _) hpx
        rw [hp] at hfull2
        obtain ⟨he1, he2, he3⟩ := by simpa using hfull2
        rw [he1, he2] at h
        dsimp only at h
        rw [he3] at h
        refine ⟨st, c, r2, ?_⟩
        rw [Response.parseStep, hst]
        rw [Response.parse_message_for_headers]
        rw [show r.headers.parse x = .ok (.Complete, cp, mhp) from hpx]
        dsimp only
        exact h
      | Incomplete =>
        refine ⟨.Incomplete, cp,
          { r with headers := mhp, state := .Headers }, ?_⟩
        rw [Response.parseStep, hst]
        rw [Response.parse_message_for_headers]
        rw [show r.headers.parse x = .ok (.Incomplete, cp, mhp) from hpx]
  | StatusLine =>
    rw [Response.parseStep, hst] at h
    rw [Response.parse_message_for_status_line] at h
    rw [Response.parseStep, hst, Response.parse_message_for_status_line]
    cases hfcx : find_crlf x with
    | none =>
      exact ⟨_, _, _, rfl⟩
    | some lineEnd =>
      have hbound := find_crlf_bound x lineEnd hfcx
      rw [find_crlf_append_some x w lineEnd hfcx] at h
      dsimp only at h ⊢
      rw [List.take_append_of_le_length (by omega)] at h
      split at h
      · rename_i hutf
        rw [if_pos hutf]
        cases hps : parse_status_line (x.take lineEnd) with
        | error e =>
          rw [hps] at h
          exact Except.noConfusion h
        | ok v2 =>
          obtain ⟨sc, rp⟩ := v2
          dsimp only
          exact ⟨_, _, _, rfl⟩
      · exact Except.noConfusion h

theorem Response.loopConsumedLe_resp : ∀ (f : Nat) (r : Response) (u : List Byte)
    (st : ParseStatus) (c : Nat) (r2 : Response),
    Response.parseLoop f r u = .ok (st, c, r2) → c ≤ u.length := by
  intro f
  induction f with
  | zero =>
    intro r u st c r2 h
    simp only [Response.parseLoop] at h
    obtain ⟨-, hc, -⟩ := by simpa using h
    omega
  | succ fuel ih =>
    intro r u st c r2 h
    rw [Response.parseLoop] at h
    cases hstep : r.parseStep u with
    | error e =>
      rw [hstep] at h
      exact Except.noConfusion h
    | ok v =>
      obtain ⟨st1, c1, r3⟩ := v
      rw [hstep] at h
      have hle1 := Response.stepConsumedLe_resp r u st1 c1 r3 hstep
      cases st1 with
      | CompletePart =>
        dsimp only at h
        obtain ⟨c2, hc2, hrec⟩ := eshift_eq_ok _ _ _ _ _ h
        have hle2 := ih r3 (u.drop c1) st c2 r2 hrec
        simp only [List.length_drop] at hle2
        omega
      | CompleteWhole =>
        obtain ⟨-, hc, -⟩ := by simpa using h
        omega
      | Incomplete =>
        obtain ⟨-, hc, -⟩ := by simpa using h
        omega

theorem Response.loopRankIncomplete_resp : ∀ (f : Nat) (r : Response) (u : List Byte)
    (c : Nat) (r2 : Response),
    Response.parseLoop f r u = .ok (.Incomplete, c, r2) →
    r2.state.rank ≤ r.state.rank := by
  intro f
  induction f with
  | zero =>
    intro r u c r2 h
    simp only [Response.parseLoop] at h
    simp at h
    exact Nat.le_of_eq (by rw [h.2])
  | succ fuel ih =>
    intro r u c r2 h
    rw [Response.parseLoop] at h
    cases hstep : r.parseStep u with
    | error e =>
      rw [hstep] at h
      exact Except.noConfusion h
    | ok v =>
      obtain ⟨st, c1, r3⟩ := v
      rw [hstep] at h
      cases st with
      | CompletePart =>
        dsimp only at h
        obtain ⟨c2, hc2, hrec⟩ := eshift_eq_ok _ _ _ _ _ h
        have h1 := Response.stepRankLt_resp r u c1 r3 hstep
        have h2 := ih r3 (u.drop c1) c2 r2 hrec
        omega
      | CompleteWhole =>
        simp at h
      | Incomplete =>
        obtain ⟨-, hr⟩ := by simpa using h
        rw [← hr, Response.stepRankIncomplete_resp r u c1 r3 hstep]

theorem Response.loopExt_resp : ∀ (f : Nat) (r : Response) (u y : List Byte)
    (c : Nat) (r2 : Response),
    Response.parseLoop f r u = .ok (.Complete, c, r2) →
    Response.parseLoop f r (u ++ y) = .ok (.Complete, c, r2) := by
  intro f
  induction f with
  | zero =>
    intro r u y c r2 h
    simp only [Response.parseLoop] at h
    simp at h
  | succ fuel ih =>
    intro r u y c r2 h
    rw [Response.parseLoop] at h
    rw [Response.parseLoop]
    cases hstep : r.parseStep u with
    | error e =>
      rw [hstep] at h
      exact Except.noConfusion h
    | ok v =>
      obtain ⟨st, c1, r3⟩ := v
      rw [hstep] at h
      cases st with
      | CompletePart =>
        dsimp only at h
        have hle := Response.stepConsumedLe_resp r u _ c1 r3 hstep
        rw [Response.stepExt_resp r u y _ c1 r3 (by simp) hstep]
        dsimp only
        obtain ⟨c2, hc2, hrec⟩ := eshift_eq_ok _ _ _ _ _ h
        rw [List.drop_append_of_le_length hle]
        rw [ih r3 (u.drop c1) y c2 r2 hrec]
        simp [eshift, hc2]
      | CompleteWhole =>
        rw [Response.stepExt_resp r u y _ c1 r3 (by simp) hstep]
        exact h
      | Incomplete =>
        simp at h

theorem Response.loopComp_resp : ∀ (f : Nat) (r : Response) (u y : List Byte)
    (c : Nat) (r2 : Response),
    r.state.rank < f →
    Response.parseLoop f r u = .ok (.Incomplete, c, r2) →
    Response.parseLoop f r (u ++ y) =
      eshift c (Response.parseLoop f r2 (u.drop c ++ y)) := by
  intro f
  induction f with
  | zero =>
    intro r u y c r2 hf h
    omega
  | succ fuel ih =>
    intro r u y c r2 hf h
    rw [Response.parseLoop] at h
    rw [Response.parseLoop]
    cases hstep : r.parseStep u with
    | error e =>
      rw [hstep] at h
      exact Except.noConfusion h
    | ok v =>
      obtain ⟨st, c1, r3⟩ := v
      rw [hstep] at h
      cases st with
      | CompleteWhole =>
        simp at h
      | Incomplete =>
        dsimp only at h
        obtain ⟨hc, hr⟩ := by simpa using h
        subst hc
        subst hr
        have hcomp := Response.stepComp_resp r u y c1 r3 hstep
        have hle := Response.stepConsumedLe_resp r u _ c1 r3 hstep
        rw [hcomp]
        conv_rhs => rw [Response.parseLoop]
        cases hq : r3.parseStep (u.drop c1 ++ y) with
        | error e =>
          rfl
        | ok w2 =>
          obtain ⟨st2, c4, r4⟩ := w2
          cases st2 with
          | CompleteWhole => rfl
          | Incomplete => rfl
          | CompletePart =>
            rw [show (eshift c1 (Except.ok (ParseStatusInternal.CompletePart, c4, r4)) :
                  Except Error (ParseStatusInternal × Nat × Response)) =
                Except.ok (ParseStatusInternal.CompletePart, c1 + c4, r4) from rfl]
            dsimp only
            rw [eshift_eshift]
            have hdd : (u ++ y).drop (c1 + c4) = (u.drop c1 ++ y).drop c4 := by
              rw [← List.drop_drop, List.drop_append_of_le_length hle]
            rw [hdd]
      | CompletePart =>
        dsimp only at h
        obtain ⟨c2, hc2, hrec⟩ := eshift_eq_ok _ _ _ _ _ h
        have hrank3 := Response.stepRankLt_resp r u c1 r3 hstep
        have hle := Response.stepConsumedLe_resp r u _ c1 r3 hstep
        have hrank2 := Response.loopRankIncomplete_resp fuel r3 (u.drop c1) c2 r2 hrec
        rw [Response.stepExt_resp r u y _ c1 r3 (by simp) hstep]
        dsimp only
        rw [List.drop_append_of_le_length hle]
        rw [ih r3 (u.drop c1) y c2 r2 (by omega) hrec]
        rw [eshift_eshift, List.drop_drop, ← hc2]
        rw [Response.parseLoop_fuel_resp fuel (fuel + 1) r2 (u.drop c ++ y)
          (by omega) (by omega)]

theorem Response.loopPre_resp : ∀ (f : Nat) (r : Response) (x w : List Byte)
    (st : ParseStatus) (c : Nat) (r2 : Response),
    r.state.rank < f →
    Response.parseLoop f r (x ++ w) = .ok (st, c, r2) →
    ∃ st2 c2 r3, Response.parseLoop f r x = .ok (st2, c2, r3) := by
  intro f
  induction f with
  | zero =>
    intro r x w st c r2 hf h
    omega
  | succ fuel ih =>
    intro r x w st c r2 hf h
    rw [Response.parseLoop] at h
    cases hfull : r.parseStep (x ++ w) with
    | error e =>
      rw [hfull] at h
      exact Except.noConfusion h
    | ok v =>
      obtain ⟨stf, cf, rf⟩ := v
      obtain ⟨st2, c2, r3, hpx⟩ := Response.stepPre_resp r x w stf cf rf hfull
      cases st2 with
      | Incomplete =>
        exact ⟨.Incomplete, c2, r3, by rw [Response.parseLoop, hpx]⟩
      | CompleteWhole =>
        exact ⟨.Complete, c2, r3, by rw [Response.parseLoop, hpx]⟩
      | CompletePart =>
        have hfull2 := Response.stepExt_resp r x w .CompletePart c2 r3 (by simp) hpx
        rw [hfull] at hfull2
        obtain ⟨he1, he2, he3⟩ := by simpa using hfull2
        rw [hfull] at h
        rw [he1, he2, he3] at h
        dsimp only at h
        obtain ⟨c4, hc4, hrec⟩ := eshift_eq_ok _ _ _ _ _ h
        have hle := Response.stepConsumedLe_resp r x _ c2 r3 hpx
        have hrank := Response.stepRankLt_resp r x c2 r3 hpx
        rw [List.drop_append_of_le_length hle] at hrec
        obtain ⟨st4, c5, r4, hx4⟩ := ih r3 (x.drop c2) w st c4 r2
          (by omega) hrec
        refine ⟨st4, c2 + c5, r4, ?_⟩
        rw [Response.parseLoop, hpx]
        dsimp only
        rw [hx4]
        rfl

theorem Response.feed_eq_resp : ∀ (ps : List (List Byte)) (pre : List Byte)
    (t : Nat) (r1 : Response) (n : Nat) (rfin : Response),
    ps ≠ [] → (∀ p ∈ ps, p ≠ []) →
    Response.parse Response.new pre = .ok (.Incomplete, t, r1) →
    Response.parse Response.new (pre ++ ps.flatten) = .ok (.Complete, n, rfin) →
    n = (pre ++ ps.flatten).length →
    Response.feed r1 (pre.drop t) ps = .ok (.Complete, n - t, rfin) := by
  intro ps
  induction ps with
  | nil =>
    intro pre t r1 n rfin hne
    exact absurd rfl hne
  | cons p ps ih =>
    intro pre t r1 n rfin hne hpieces hpre hfull hall
    have hrank0 : Response.new.state.rank < 3 := by decide
    rw [List.flatten_cons, ← List.append_assoc] at hfull hall
    rw [Response.parse] at hpre hfull
    have ht := Response.loopConsumedLe_resp 3 Response.new pre .Incomplete t r1 hpre
    obtain ⟨st2, c2, r2, hppre⟩ := Response.loopPre_resp 3 Response.new (pre ++ p)
      ps.flatten .Complete n rfin hrank0 hfull
    have hcomp := Response.loopComp_resp 3 Response.new pre p t r1 hrank0 hpre
    rw [hppre] at hcomp
    obtain ⟨k2, hk2, hinner⟩ := eshift_eq_ok _ _ _ _ _ hcomp.symm
    have hc2 := Response.loopConsumedLe_resp 3 Response.new (pre ++ p) st2 c2 r2 hppre
    cases ps with
    | nil =>
      rw [List.flatten_nil, List.append_nil] at hfull hall
      rw [hppre] at hfull
      obtain ⟨hst, hc, hr⟩ := by simpa using hfull
      have hinner2 : Response.parse r1 (pre.drop t ++ p) = .ok (st2, k2, r2) :=
        hinner
      rw [Response.feed, hinner2]
      dsimp only
      rw [hst, hr, show k2 = n - t by omega]
    | cons q qs =>
      have hqlen : 0 < (q :: qs).flatten.length := by
        rw [List.flatten_cons, List.length_append]
        have hq : q ≠ [] := hpieces q (by simp)
        have := List.length_pos.mpr hq
        omega
      cases st2 with
      | Complete =>
        exfalso
        have hext := Response.loopExt_resp 3 Response.new (pre ++ p) ((q :: qs).flatten)
          c2 r2 hppre
        rw [hfull] at hext
        obtain ⟨hcn, -⟩ := by simpa using hext
        simp only [List.length_append] at hall hc2
        omega
      | Incomplete =>
        have hih := ih (pre ++ p) c2 r2 n rfin (by simp)
          (fun x hx => hpieces x (by simp [hx]))
          hppre hfull hall
        have hinner2 : Response.parse r1 (pre.drop t ++ p) =
            .ok (.Incomplete, k2, r2) := hinner
        rw [Response.feed, hinner2]
        dsimp only
        have hbuf : (pre.drop t ++ p).drop k2 = (pre ++ p).drop c2 := by
          rw [hk2, ← List.drop_drop, List.drop_append_of_le_length ht]
        rw [hbuf, hih]
        dsimp only
        simp only [List.length_append] at hall hc2
        rw [show k2 + (n - c2) = n - t by omega]

/-- C3: for every valid message `M` — one a fresh parse completes consuming
exactly `|M|` — followed by arbitrary trailing bytes `T`, `parse (M ++ T)` on
a fresh `Request` (resp. `Response`) parser returns `Complete` with consumed
exactly `|M|` and the identical final parser value: no byte of `T` is
consumed or incorporated into parser state. -/
theorem C3_no_over_consume (M T M2 T2 : List Byte) (rf : Request)
    (sf : Response)
    (hq : Request.parse Request.new M = .ok (.Complete, M.length, rf))
    (hs : Response.parse Response.new M2 = .ok (.Complete, M2.length, sf)) :
    Request.parse Request.new (M ++ T) = .ok (.Complete, M.length, rf) ∧
    Response.parse Response.new (M2 ++ T2) = .ok (.Complete, M2.length, sf) :=
  ⟨Request.loopExt 3 Request.new M T M.length rf hq,
   Response.loopExt_resp 3 Response.new M2 T2 M2.length sf hs⟩

theorem C3_no_over_consume_witness :
    Request.parse Request.new
        (strBytes "GET / HTTP/1.1\r\n\r\n" ++ strBytes "EXTRA") =
      .ok (.Complete, (strBytes "GET / HTTP/1.1\r\n\r\n").length,
        { body := [], headers := { headers := [], lineLimit := some 1000 },
          max_message_size := some 10000000, method := strBytes "GET",
          request_line_limit := some 1000, state := .Headers,
          target := ⟨strBytes "/"⟩, total_bytes := 18 }) ∧
    Response.parse Response.new
        (strBytes "HTTP/1.1 200 OK\r\nContent-Length: 2\r\n\r\nHi" ++
          strBytes "EXTRA") =
      .ok (.Complete,
        (strBytes "HTTP/1.1 200 OK\r\nContent-Length: 2\r\n\r\nHi").length,
        { body := strBytes "Hi",
          headers := { headers := [⟨strBytes "Content-Length", strBytes "2"⟩],
                       lineLimit := none },
          reason_phrase := strBytes "OK", state := .FixedBody 2,
          status_code := 200 }) :=
  C3_no_over_consume (strBytes "GET / HTTP/1.1\r\n\r\n") (strBytes "EXTRA")
    (strBytes "HTTP/1.1 200 OK\r\nContent-Length: 2\r\n\r\nHi")
    (strBytes "EXTRA")
    { body := [], headers := { headers := [], lineLimit := some 1000 },
      max_message_size := some 10000000, method := strBytes "GET",
      request_line_limit := some 1000, state := .Headers,
      target := ⟨strBytes "/"⟩, total_bytes := 18 }
    { body := strBytes "Hi",
      headers := { headers := [⟨strBytes "Content-Length", strBytes "2"⟩],
                   lineLimit := none },
      reason_phrase := strBytes "OK", state := .FixedBody 2,
      status_code := 200 }
    (by decide) (by decide)

theorem findIdx?_append_some {α : Type} (p : α → Bool) (l1 l2 : List α)
    (i : Nat) (h : l1.findIdx? p = some i) :
    (l1 ++ l2).findIdx? p = some i := by
  induction l1 generalizing i with
  | nil => simp at h
  | cons a rest ih =>
    simp only [List.findIdx?_cons, Nat.zero_add, List.findIdx?_start_succ,
      List.cons_append] at h ⊢
    split at h
    · rename_i hpa
      rw [if_pos hpa]
      exact h
    · rename_i hpa
      rw [if_neg hpa]
      obtain ⟨k, hk, hik⟩ := by simpa using h
      rw [ih k hk]
      simpa using hik

theorem findIdx?_append_none {α : Type} (p : α → Bool) (l1 l2 : List α)
    (h : l1.findIdx? p = none) :
    (l1 ++ l2).findIdx? p = (l2.findIdx? p).map (· + l1.length) := by
  induction l1 with
  | nil => simp
  | cons a rest ih =>
    simp only [List.findIdx?_cons, Nat.zero_add, List.findIdx?_start_succ,
      List.cons_append] at h ⊢
    split at h
    · exact Option.noConfusion h
    · rename_i hpa
      rw [if_neg hpa]
      have hrest : rest.findIdx? p = none := by
        cases hfr : rest.findIdx? p with
        | none => rfl
        | some k =>
          rw [hfr] at h
          simp at h
      rw [ih hrest]
      cases hf2 : l2.findIdx? p with
      | none => rfl
      | some k =>
        simp only [Option.map_some', List.length_cons]
        rw [show k + rest.length + 1 = k + (rest.length + 1) from by omega]

theorem findIdx?_replicate_none {α : Type} (p : α → Bool) (n : Nat) (a : α)
    (h : p a = false) : (List.replicate n a).findIdx? p = none := by
  rw [List.findIdx?_eq_none_iff]
  intro x hx
  rw [(List.mem_replicate.mp hx).2]
  exact h

theorem utf8Step_ascii (a : Byte) (rest : List Byte) (ha : a < 128) :
    utf8Step (a :: rest) = some rest := by
  rw [utf8Step.eq_def]
  dsimp only
  rw [if_pos ha]

theorem utf8Loop_ascii : ∀ (f : Nat) (l : List Byte),
    (∀ b ∈ l, b < 128) → l.length ≤ f → utf8Loop f l = true := by
  intro f
  induction f with
  | zero =>
    intro l h hlen
    cases l with
    | nil => rfl
    | cons a rest => simp at hlen
  | succ fuel ih =>
    intro l h hlen
    cases l with
    | nil => rfl
    | cons a rest =>
      rw [utf8Loop]
      rw [utf8Step_ascii a rest (h a (List.mem_cons_self a rest))]
      dsimp only
      exact ih rest (fun b hb => h b (List.mem_cons_of_mem _ hb))
        (by simp at hlen ⊢; omega)

theorem isValidUtf8_of_lt128 (l : List Byte) (h : ∀ b ∈ l, b < 128) :
    isValidUtf8 l = true := by
  rw [isValidUtf8]
  exact utf8Loop_ascii l.length l h (Nat.le_refl _)

theorem c1Line_length : c1Line.length = 1000 := by
  rw [c1Line, List.length_append, List.length_append, List.length_replicate]
  decide

theorem c1Line_no_cr : (13 : Byte) ∉ c1Line := by
  rw [c1Line]
  intro hmem
  rcases List.mem_append.mp hmem with h1 | h2
  · simp at h1
  · rcases List.mem_append.mp h2 with h3 | h4
    · exact absurd (List.eq_of_mem_replicate h3) (by decide)
    · simp at h4

theorem c1Line_lt128 : ∀ b ∈ c1Line, b < 128 := by
  intro b hb
  rw [c1Line] at hb
  rcases List.mem_append.mp hb with h1 | h2
  · simp at h1
    rcases h1 with rfl | rfl | rfl | rfl <;> decide
  · rcases List.mem_append.mp h2 with h3 | h4
    · rw [List.eq_of_mem_replicate h3]
      decide
    · simp at h4
      rcases h4 with rfl | rfl | rfl | rfl | rfl | rfl | rfl | rfl | rfl <;> decide

theorem c1Msg_find_crlf : find_crlf c1Msg = some 1000 := by
  rw [c1Msg]
  rw [show (CRLF ++ CRLF : List Byte) = 13 :: 10 :: [13, 10] from rfl]
  rw [find_crlf_append_crlf c1Line [13, 10] c1Line_no_cr, c1Line_length]

theorem c1Msg_take_1000 : c1Msg.take 1000 = c1Line := by
  rw [c1Msg, List.take_append_of_le_length (by rw [c1Line_length]),
    List.take_of_length_le (by rw [c1Line_length])]

theorem c1Msg_drop_1000 : c1Msg.drop 1000 = [13, 10, 13, 10] := by
  rw [c1Msg, List.drop_append_of_le_length (by rw [c1Line_length]),
    List.drop_eq_nil_of_le (by rw [c1Line_length]), List.nil_append]
  rfl

theorem c1Msg_drop_1002 : c1Msg.drop 1002 = [13, 10] := by
  rw [show (1002 : Nat) = 1000 + 2 from rfl, ← List.drop_drop, c1Msg_drop_1000]
  rfl

theorem c1Msg_take_1001 : c1Msg.take 1001 = c1Line ++ [13] := by
  rw [c1Msg, List.take_append_eq_append_take,
    List.take_of_length_le (by rw [c1Line_length]; omega), c1Line_length]
  rfl

theorem c1Msg_drop_1001 : c1Msg.drop 1001 = [10, 13, 10] := by
  rw [show (1001 : Nat) = 1000 + 1 from rfl, ← List.drop_drop, c1Msg_drop_1000]
  rfl

theorem c1Msg_length : c1Msg.length = 1004 := by
  rw [c1Msg, List.length_append, c1Line_length]
  rfl

theorem c1Line_parse_request_line :
    parse_request_line c1Line = .ok ([71, 69, 84], ⟨List.replicate 987 120⟩) := by
  have hidx1 : c1Line.findIdx? (fun b => b == 32) = some 3 := by
    rw [c1Line]
    exact findIdx?_append_some _ _ _ 3 (by decide)
  have htk3 : c1Line.take 3 = [71, 69, 84] := by
    rw [c1Line, List.take_append_of_le_length (by decide)]
    rfl
  have hdp4 : c1Line.drop 4 =
      List.replicate 987 120 ++ [32, 72, 84, 84, 80, 47, 49, 46, 49] := by
    rw [c1Line, List.drop_append_of_le_length (by decide)]
    rfl
  have hidx2 : (List.replicate 987 120 ++
      [32, 72, 84, 84, 80, 47, 49, 46, 49]).findIdx? (fun b => b == 32) =
      some 987 := by
    rw [findIdx?_append_none _ _ _
      (findIdx?_replicate_none (fun b => b == 32) 987 120 (by decide))]
    rw [List.length_replicate]
    decide
  have htkX : (List.replicate 987 120 ++
      [32, 72, 84, 84, 80, 47, 49, 46, 49]).take 987 =
      List.replicate 987 120 := by
    rw [List.take_append_of_le_length (by rw [List.length_replicate]),
      List.take_of_length_le (by rw [List.length_replicate])]
  have hdpX : (List.replicate 987 120 ++
      [32, 72, 84, 84, 80, 47, 49, 46, 49]).drop 988 =
      [72, 84, 84, 80, 47, 49, 46, 49] := by
    have h1 : List.drop 987 (List.replicate 987 120 : List Byte) = [] :=
      List.drop_eq_nil_of_le (by rw [List.length_replicate])
    rw [show (988 : Nat) = 987 + 1 from rfl, ← List.drop_drop,
      List.drop_append_of_le_length (by rw [List.length_replicate]),
      h1, List.nil_append]
    rfl
  rw [parse_request_line, hidx1]
  dsimp only
  rw [htk3]
  rw [if_neg (by decide)]
  rw [show (3 : Nat) + 1 = 4 from rfl, hdp4, hidx2]
  dsimp only
  rw [if_neg (by decide)]
  rw [htkX]
  dsimp only [Uri.parse]
  rw [show (987 : Nat) + 1 = 988 from rfl, hdpX]
  rw [if_pos (by decide)]

theorem c1_step1 :
    Request.parseStep Request.new c1Msg = .ok (.CompletePart, 1002, c1R1) := by
  rw [Request.parseStep,
    show Request.new.state = RequestState.RequestLine from rfl]
  rw [Request.parse_message_for_request_line, c1Msg_find_crlf,
    show Request.new.request_line_limit = some 1000 from rfl]
  dsimp only
  rw [if_neg (by decide)]
  rw [Request.requestLineFound, c1Msg_take_1000]
  rw [isValidUtf8_of_lt128 c1Line c1Line_lt128]
  dsimp only
  rw [show Request.count_bytes Request.new (1000 + 2) =
    .ok { Request.new with total_bytes := 1002 } from by decide]
  dsimp only
  rw [c1Line_parse_request_line]
  rfl

theorem c1_step2 :
    Request.parseStep c1R1 [13, 10] = .ok (.CompleteWhole, 2, c1Rfin) := by
  rw [Request.parseStep, show c1R1.state = RequestState.Headers from rfl]
  rw [Request.parse_message_for_headers]
  rw [show c1R1.headers.parse [13, 10] =
    .ok (.Complete, 2, ⟨[], some 1000⟩) from by decide]
  dsimp only
  rw [show ({ c1R1 with
      headers := (⟨[], some 1000⟩ : MessageHeaders) } : Request) = c1R1
    from rfl]
  have hcb : Request.count_bytes c1R1 2 = .ok c1Rfin := by
    rw [Request.count_bytes]
    dsimp only
    rw [show c1R1.max_message_size = some 10000000 from rfl]
    dsimp only
    rw [if_neg (by decide)]
    rfl
  rw [hcb]
  dsimp only
  rw [show c1Rfin.headers.headerValue (strBytes "Content-Length") = none
    from by decide]

theorem c1_parse :
    Request.parse Request.new c1Msg = .ok (.Complete, 1004, c1Rfin) := by
  rw [Request.parse, show (3 : Nat) = 2 + 1 from rfl, Request.parseLoop,
    c1_step1]
  dsimp only
  rw [c1Msg_drop_1002]
  rw [show (2 : Nat) = 1 + 1 from rfl, Request.parseLoop, c1_step2]
  rfl

theorem c1_parse_p1 :
    Request.parse Request.new (c1Msg.take 1001) =
      .error (.RequestLineTooLong c1Line) := by
  rw [c1Msg_take_1001]
  have hstep : Request.parseStep Request.new (c1Line ++ [13]) =
      .error (.RequestLineTooLong c1Line) := by
    rw [Request.parseStep,
      show Request.new.state = RequestState.RequestLine from rfl]
    rw [Request.parse_message_for_request_line,
      find_crlf_append_cr c1Line c1Line_no_cr,
      show Request.new.request_line_limit = some 1000 from rfl]
    dsimp only
    rw [List.length_append, c1Line_length]
    rw [if_pos (by decide)]
    rw [List.take_append_of_le_length (by rw [c1Line_length]),
      List.take_of_length_le (by rw [c1Line_length])]
  rw [Request.parse, show (3 : Nat) = 2 + 1 from rfl, Request.parseLoop, hstep]

theorem c1_feed :
    Request.feed Request.new [] [c1Msg.take 1001, c1Msg.drop 1001] =
      .error (.RequestLineTooLong c1Line) := by
  rw [Request.feed, List.nil_append, c1_parse_p1]

/-- C1 counterexample: the claim as stated is false.  `c1Msg` is a valid
message — a fresh one-shot parse returns `Complete` consuming all 1004
bytes — and `[c1Msg.take 1001, c1Msg.drop 1001]` is a partition of it into
non-empty pieces, yet feeding the pieces in order fails with
`RequestLineTooLong`: the no-CRLF branch tests `raw.len() > limit` while
the CRLF branch tests `lineEnd > limit`, so a request line of exactly
`limit` bytes parses whole but not split. -/
theorem C1_counterexample :
    Request.parse Request.new c1Msg = .ok (.Complete, c1Msg.length, c1Rfin) ∧
    [c1Msg.take 1001, c1Msg.drop 1001].flatten = c1Msg ∧
    c1Msg.take 1001 ≠ [] ∧
    c1Msg.drop 1001 ≠ [] ∧
    Request.feed Request.new [] [c1Msg.take 1001, c1Msg.drop 1001] =
      .error (.RequestLineTooLong c1Line) := by
  refine ⟨?_, ?_, ?_, ?_, c1_feed⟩
  · rw [c1Msg_length]
    exact c1_parse
  · rw [List.flatten, List.flatten, List.flatten, List.append_nil,
      List.take_append_drop]
  · rw [c1Msg_take_1001]
    simp
  · rw [c1Msg_drop_1001]
    simp

/-- C1 (amended): for a valid message `M` — a fresh parse completes
consuming exactly `|M|` — partitioned into non-empty pieces, feeding the
pieces in order (each call given the unconsumed suffix extended by the next
piece, advancing by the returned consumed count) yields the same final
status, parsed value and total consumed as the one-shot parse.  For
`Response` this holds unconditionally; for `Request` it needs the side
condition that the request line's CRLF does not sit exactly at the
`request_line_limit` boundary (`e < limit`), which the original claim
omits and `C1_counterexample` shows is necessary. -/
theorem C1_incremental_equivalence
    (ps qs : List (List Byte)) (rfin : Request) (sfin : Response)
    (hne : ps ≠ []) (hps : ∀ p ∈ ps, p ≠ [])
    (hside : ∀ limit e, Request.new.request_line_limit = some limit →
      find_crlf ps.flatten = some e → e < limit)
    (hfullR : Request.parse Request.new ps.flatten =
      .ok (.Complete, ps.flatten.length, rfin))
    (hne2 : qs ≠ []) (hqs : ∀ p ∈ qs, p ≠ [])
    (hfullS : Response.parse Response.new qs.flatten =
      .ok (.Complete, qs.flatten.length, sfin)) :
    Request.feed Request.new [] ps =
      .ok (.Complete, ps.flatten.length, rfin) ∧
    Response.feed Response.new [] qs =
      .ok (.Complete, qs.flatten.length, sfin) := by
  constructor
  · have h0 : Request.parse Request.new [] =
        .ok (.Incomplete, 0, Request.new) := by
      decide
    have hfits : Request.new.lineFits ([] ++ ps.flatten) := by
      intro hst limit e h1 h2
      rw [List.nil_append] at h2
      exact hside limit e h1 h2
    have h := Request.feed_eq ps [] 0 Request.new ps.flatten.length rfin hne
      hps hfits h0 (by rw [List.nil_append]; exact hfullR)
      (by rw [List.nil_append])
    simpa using h
  · have h0 : Response.parse Response.new [] =
        .ok (.Incomplete, 0, Response.new) := by
      decide
    have h := Response.feed_eq_resp qs [] 0 Response.new qs.flatten.length sfin hne2
      hqs h0 (by rw [List.nil_append]; exact hfullS)
      (by rw [List.nil_append])
    simpa using h

theorem C1_incremental_equivalence_witness :
    Request.feed Request.new [] [strBytes "GET / HT", strBytes "TP/1.1\r\n\r\n"] =
      .ok (.Complete,
        ([strBytes "GET / HT", strBytes "TP/1.1\r\n\r\n"] :
          List (List Byte)).flatten.length,
        { body := [], headers := { headers := [], lineLimit := some 1000 },
          max_message_size := some 10000000, method := strBytes "GET",
          request_line_limit := some 1000, state := .Headers,
          target := ⟨strBytes "/"⟩, total_bytes := 18 }) ∧
    Response.feed Response.new []
        [strBytes "HTTP/1.1 200 OK\r\nContent-Le", strBytes "ngth: 2\r\n\r\nHi"] =
      .ok (.Complete,
        ([strBytes "HTTP/1.1 200 OK\r\nContent-Le", strBytes "ngth: 2\r\n\r\nHi"] :
          List (List Byte)).flatten.length,
        { body := strBytes "Hi",
          headers := { headers := [⟨strBytes "Content-Length", strBytes "2"⟩],
                       lineLimit := none },
          reason_phrase := strBytes "OK", state := .FixedBody 2,
          status_code := 200 }) :=
  C1_incremental_equivalence
    [strBytes "GET / HT", strBytes "TP/1.1\r\n\r\n"]
    [strBytes "HTTP/1.1 200 OK\r\nContent-Le", strBytes "ngth: 2\r\n\r\nHi"]
    { body := [], headers := { headers := [], lineLimit := some 1000 },
      max_message_size := some 10000000, method := strBytes "GET",
      request_line_limit := some 1000, state := .Headers,
      target := ⟨strBytes "/"⟩, total_bytes := 18 }
    { body := strBytes "Hi",
      headers := { headers := [⟨strBytes "Content-Length", strBytes "2"⟩],
                   lineLimit := none },
      reason_phrase := strBytes "OK", state := .FixedBody 2,
      status_code := 200 }
    (by decide) (by decide)
    (fun limit e h1 h2 => by
      have hfc : find_crlf ([strBytes "GET / HT", strBytes "TP/1.1\r\n\r\n"] :
          List (List Byte)).flatten = some 14 := by decide
      rw [hfc] at h2
      have he : (14 : Nat) = e := Option.some.inj h2
      have h1b : (some 1000 : Option Nat) = some limit := h1
      have hl : (1000 : Nat) = limit := Option.some.inj h1b
      omega)
    (by decide) (by decide) (by decide) (by decide)

theorem drop_append_cons2 (s r : List Byte) :
    (s ++ 13 :: 10 :: r).drop (s.length + 2) = r := by
  induction s with
  | nil => rfl
  | cons a as ih =>
    simp only [List.cons_append, List.length_cons]
    rw [show as.length + 1 + 2 = (as.length + 2) + 1 from by omega]
    rw [List.drop_succ_cons]
    exact ih

theorem decode_chunks : ∀ (chunks : List (List Byte × List Byte))
    (cb : ChunkedBody) (tail : List Byte) (f1 f2 : Nat),
    cb.state = .ChunkSize → cb.chunk_bytes_needed = 0 →
    (∀ p ∈ chunks, 13 ∉ p.1 ∧ isValidUtf8 p.1 = true ∧
      parse_chunk_size p.1 = .ok p.2.length ∧ p.2 ≠ []) →
    2 * (encodeChunks chunks ++ tail).length < f1 →
    2 * tail.length < f2 →
    ChunkedBody.decodeLoop f1 cb (encodeChunks chunks ++ tail) =
      eshift (encodeChunks chunks).length
        (ChunkedBody.decodeLoop f2
          { cb with buffer := cb.buffer ++ (chunks.map Prod.snd).flatten }
          tail) := by
  intro chunks
  induction chunks with
  | nil =>
    intro cb tail f1 f2 hst hcbn hchunks hf1 hf2
    rw [show encodeChunks [] = [] from rfl, List.nil_append, List.length_nil,
      eshift_zero]
    simp only [List.map_nil, List.flatten_nil, List.append_nil]
    rw [show ({ cb with buffer := cb.buffer } : ChunkedBody) = cb from rfl]
    rw [show encodeChunks [] = [] from rfl, List.nil_append] at hf1
    exact ChunkedBody.decodeLoop_fuel f1 f2 cb tail
      (by rw [hst]; simpa using hf1)
      (by rw [hst]; simpa using hf2)
  | cons p rest ih =>
    intro cb tail f1 f2 hst hcbn hchunks hf1 hf2
    obtain ⟨s, d⟩ := p
    obtain ⟨hnocr, hutf, hsize, hdne⟩ := hchunks (s, d) (by simp)
    dsimp only at hnocr hutf hsize hdne
    have hd0 : d.length ≠ 0 := fun h0 => hdne (List.length_eq_zero.mp h0)
    have hshape : encodeChunks ((s, d) :: rest) ++ tail =
        s ++ 13 :: 10 :: (d ++ 13 :: 10 :: (encodeChunks rest ++ tail)) := by
      rw [encodeChunks, encodeChunk]
      simp [List.append_assoc]
    have hlen1 : (encodeChunks ((s, d) :: rest) ++ tail).length =
        s.length + 2 + (d.length + 2 + (encodeChunks rest ++ tail).length) := by
      rw [hshape]
      simp [List.length_append]
      omega
    have hstep1 : cb.decodeStep
        (s ++ 13 :: 10 :: (d ++ 13 :: 10 :: (encodeChunks rest ++ tail))) =
        .ok (.CompletePart, s.length + 2,
          { cb with chunk_bytes_needed := d.length, state := .ChunkData }) := by
      rw [ChunkedBody.decodeStep, hst, ChunkedBody.decode_size]
      rw [find_crlf_append_crlf s _ hnocr]
      dsimp only
      rw [List.take_left]
      simp only [hutf]
      rw [if_pos trivial]
      rw [hsize]
      dsimp only
      rw [if_neg hd0]
    have hstep2 : ChunkedBody.decodeStep
        { cb with
          chunk_bytes_needed := d.length,
          state := .ChunkData }
        (d ++ 13 :: 10 :: (encodeChunks rest ++ tail)) =
        .ok (.CompletePart, d.length,
          { cb with
            buffer := cb.buffer ++ d,
            chunk_bytes_needed := 0,
            state := .ChunkTerminator }) := by
      rw [ChunkedBody.decodeStep,
        show ({ cb with
          chunk_bytes_needed := d.length,
          state := .ChunkData } : ChunkedBody).state = .ChunkData from rfl]
      rw [ChunkedBody.decode_data]
      dsimp only
      have hmin : (d ++ 13 :: 10 :: (encodeChunks rest ++ tail)).length ⊓
          d.length = d.length := by
        simp only [List.length_append, List.length_cons]
        omega
      rw [hmin]
      rw [if_pos (by omega)]
      rw [List.take_left, Nat.sub_self]
    have hstep3 : ChunkedBody.decodeStep
        { cb with
          buffer := cb.buffer ++ d,
          chunk_bytes_needed := 0,
          state := .ChunkTerminator }
        (13 :: 10 :: (encodeChunks rest ++ tail)) =
        .ok (.CompletePart, 2,
          { cb with
            buffer := cb.buffer ++ d,
            chunk_bytes_needed := 0,
            state := .ChunkSize }) := by
      rw [ChunkedBody.decodeStep,
        show ({ cb with
          buffer := cb.buffer ++ d,
          chunk_bytes_needed := 0,
          state := .ChunkTerminator } : ChunkedBody).state = .ChunkTerminator
          from rfl]
      rw [ChunkedBody.decode_terminator.eq_def]
      dsimp only
      rw [if_pos ⟨rfl, rfl⟩]
    cases f1 with
    | zero => omega
    | succ g =>
      rw [hshape, ChunkedBody.decodeLoop, hstep1]
      dsimp only
      rw [drop_append_cons2 s (d ++ 13 :: 10 :: (encodeChunks rest ++ tail))]
      cases g with
      | zero => omega
      | succ g2 =>
        rw [ChunkedBody.decodeLoop, hstep2]
        dsimp only
        rw [List.drop_left]
        cases g2 with
        | zero => omega
        | succ g3 =>
          rw [ChunkedBody.decodeLoop, hstep3]
          dsimp only
          rw [show (13 :: 10 :: (encodeChunks rest ++ tail)).drop 2 =
            encodeChunks rest ++ tail from rfl]
          rw [ih { cb with
              buffer := cb.buffer ++ d,
              chunk_bytes_needed := 0,
              state := .ChunkSize } tail g3 f2 rfl rfl
            (fun q hq => hchunks q (by simp [hq]))
            (by omega) hf2]
          rw [eshift_eshift, eshift_eshift, eshift_eshift]
          dsimp only
          rw [hst, hcbn]
          rw [show (((s, d) :: rest).map Prod.snd).flatten =
            d ++ (rest.map Prod.snd).flatten from by simp]
          rw [← List.append_assoc]
          rw [show (encodeChunks ((s, d) :: rest)).length =
            s.length + 2 + d.length + 2 + (encodeChunks rest).length from by
              rw [encodeChunks, encodeChunk]
              simp [List.length_append]
              omega]

theorem decode_zero_trailer (cbA : ChunkedBody) (trailerRaw : List Byte)
    (ctr : Nat) (mhtr : MessageHeaders) (f : Nat)
    (hst : cbA.state = .ChunkSize) (htrl : cbA.trailer = MessageHeaders.new)
    (htr : MessageHeaders.new.parse trailerRaw = .ok (.Complete, ctr, mhtr))
    (hf : 2 * (48 :: 13 :: 10 :: trailerRaw).length < f) :
    ChunkedBody.decodeLoop f cbA (48 :: 13 :: 10 :: trailerRaw) =
      .ok (.Complete, 3 + ctr,
        { cbA with
          chunk_bytes_needed := 0,
          state := .Trailer,
          trailer := mhtr }) := by
  have hstep1 : cbA.decodeStep (48 :: 13 :: 10 :: trailerRaw) =
      .ok (.CompletePart, 3,
        { cbA with chunk_bytes_needed := 0, state := .Trailer }) := by
    rw [ChunkedBody.decodeStep, hst, ChunkedBody.decode_size]
    rw [show find_crlf (48 :: 13 :: 10 :: trailerRaw) = some 1 from by
      rw [find_crlf]
      rw [if_neg (by decide)]
      rw [show find_crlf (13 :: 10 :: trailerRaw) = some 0 from by
        rw [find_crlf]
        rw [if_pos (by exact ⟨rfl, rfl⟩)]]
      rfl]
    dsimp only
    rw [show (48 :: 13 :: 10 :: trailerRaw).take 1 = [48] from rfl]
    rw [show isValidUtf8 [48] = true from by decide]
    rw [if_pos rfl]
    rw [show parse_chunk_size [48] = .ok 0 from by decide]
    dsimp only
    rw [if_pos rfl]
  cases f with
  | zero => omega
  | succ g =>
    rw [ChunkedBody.decodeLoop, hstep1]
    dsimp only
    cases g with
    | zero =>
      simp only [List.length_cons] at hf
      omega
    | succ g2 =>
      rw [ChunkedBody.decodeLoop]
      rw [show ChunkedBody.decodeStep
          { cbA with
            chunk_bytes_needed := 0,
            state := .Trailer }
          ((48 :: 13 :: 10 :: trailerRaw).drop 3) =
        .ok (.CompleteWhole, ctr,
          { cbA with
            chunk_bytes_needed := 0,
            state := .Trailer,
            trailer := mhtr }) from by
        rw [ChunkedBody.decodeStep,
          show ({ cbA with
            chunk_bytes_needed := 0,
            state := .Trailer } : ChunkedBody).state = .Trailer from rfl]
        rw [ChunkedBody.decode_trailer]
        rw [show (48 :: 13 :: 10 :: trailerRaw).drop 3 = trailerRaw from rfl]
        rw [show ({ cbA with
          chunk_bytes_needed := 0,
          state := .Trailer } : ChunkedBody).trailer = MessageHeaders.new from
          htrl]
        rw [htr]]
      rfl

theorem decode_full (chunks : List (List Byte × List Byte))
    (trailerRaw : List Byte) (ctr : Nat) (mhtr : MessageHeaders)
    (hchunks : ∀ p ∈ chunks, 13 ∉ p.1 ∧ isValidUtf8 p.1 = true ∧
      parse_chunk_size p.1 = .ok p.2.length ∧ p.2 ≠ [])
    (htr : MessageHeaders.new.parse trailerRaw = .ok (.Complete, ctr, mhtr)) :
    ChunkedBody.new.decode
        (encodeChunks chunks ++ (48 :: 13 :: 10 :: trailerRaw)) =
      .ok (.Complete, (encodeChunks chunks).length + (3 + ctr),
        ⟨(chunks.map Prod.snd).flatten, 0, .Trailer, mhtr⟩) := by
  rw [ChunkedBody.decode]
  rw [decode_chunks chunks ChunkedBody.new (48 :: 13 :: 10 :: trailerRaw)
    (2 * (encodeChunks chunks ++ (48 :: 13 :: 10 :: trailerRaw)).length + 4)
    (2 * (48 :: 13 :: 10 :: trailerRaw).length + 1)
    rfl rfl hchunks (by omega) (by omega)]
  rw [decode_zero_trailer _ trailerRaw ctr mhtr _ rfl rfl htr (by omega)]
  dsimp only [eshift]
  rw [show ((ChunkedBody.new.buffer ++ (chunks.map Prod.snd).flatten :
      List Byte)) = (chunks.map Prod.snd).flatten from by
    rw [show ChunkedBody.new.buffer = [] from rfl, List.nil_append]]

/-! ### Claim C2: chunked-to-fixed framing rewrite -/

/-- `addAllHeaders` appends the given headers in order. -/
theorem addAllHeaders_headers (mh : MessageHeaders) (l : List Header) :
    (addAllHeaders mh l).headers = mh.headers ++ l := by
  induction l generalizing mh with
  | nil => simp [addAllHeaders]
  | cons h rest ih =>
    rw [addAllHeaders, ih]
    simp [MessageHeaders.add_header]

/-- A header whose name does not match `n` survives `setHeaderGo n v`. -/
theorem mem_setHeaderGo_of_not_match (n v : List Byte) (h : Header)
    (l : List Header) (hmem : h ∈ l) (hne : nameMatches h.name n = false) :
    h ∈ setHeaderGo n v l := by
  induction l with
  | nil => cases hmem
  | cons a rest ih =>
    rw [setHeaderGo]
    by_cases ha : nameMatches a.name n
    · rw [if_pos ha]
      cases List.mem_cons.mp hmem with
      | inl heq =>
        subst heq
        rw [ha] at hne
        cases hne
      | inr hm =>
        exact List.mem_cons_of_mem _ (List.mem_filter.mpr ⟨hm, by simp [hne]⟩)
    · rw [if_neg ha]
      cases List.mem_cons.mp hmem with
      | inl heq => exact heq ▸ List.mem_cons_self _ _
      | inr hm => exact List.mem_cons_of_mem _ (ih hm)

/-- Nothing satisfying `p` survives a filter on `!p`. -/
theorem any_of_filter_not {α : Type} (p : α → Bool) (l : List α) :
    (l.filter (fun x => !p x)).any p = false := by
  rw [List.any_eq_false]
  intro x hx
  have h2 := (List.mem_filter.mp hx).2
  simp only [Bool.not_eq_true'] at h2
  simp [h2]

/-- A header name with no matching header has no tokens either. -/
theorem hasHeaderToken_eq_false_of_hasHeader (mh : MessageHeaders)
    (n tok : List Byte) (h : mh.hasHeader n = false) :
    mh.hasHeaderToken n tok = false := by
  have hfil : mh.headers.filter (fun hh => nameMatches hh.name n) = [] := by
    rw [MessageHeaders.hasHeader, List.any_eq_false] at h
    exact List.filter_eq_nil_iff.mpr h
  rw [MessageHeaders.hasHeaderToken, MessageHeaders.headerTokens,
    MessageHeaders.headerValue, hfil]
  rfl

/-- After the chunked rewrite's `remove_header`/`add_header`/`remove_header`
sequence, no `Transfer-Encoding` header remains. -/
theorem rewrite_hasHeader_te_removed (hs : MessageHeaders) (cl : Header)
    (hcl : nameMatches cl.name (strBytes "Transfer-Encoding") = false) :
    (((hs.remove_header (strBytes "Transfer-Encoding")).add_header cl).remove_header
        (strBytes "Trailer")).hasHeader (strBytes "Transfer-Encoding") = false := by
  simp only [MessageHeaders.remove_header, MessageHeaders.add_header,
    MessageHeaders.hasHeader]
  rw [List.any_eq_false]
  intro x hx
  have hx2 := (List.mem_filter.mp hx).1
  cases List.mem_append.mp hx2 with
  | inl h1 =>
    have h2 := (List.mem_filter.mp h1).2
    simpa using h2
  | inr h1 =>
    rw [List.mem_singleton.mp h1]
    simp [hcl]

/-- Counterexample to C2 as stated: the code pops the *last*
`Transfer-Encoding` token whatever it is, so for
`Transfer-Encoding: chunked, foobar` the `foobar` token is popped and the
`chunked` token survives into the completed value. -/
theorem C2_counterexample :
    (Response.new.parse (strBytes
        "HTTP/1.1 200 OK\r\nTransfer-Encoding: chunked, foobar\r\n\r\n0\r\n\r\n")).map
      (fun x => (x.1, x.2.1,
        x.2.2.headers.hasHeaderToken (strBytes "Transfer-Encoding")
          (strBytes "chunked"))) =
      .ok (.Complete, 60, true) := by decide

/-- C2 (amended): after a chunked response completes, the decoded chunk data
becomes the body, every trailer header (other than ones matching
`Transfer-Encoding`/`Trailer`, which the rewrite may clobber) is appended
into the main header block, a `Content-Length` header whose value is the
decimal body length is appended, no `Trailer` header remains, and the
*final* `Transfer-Encoding` token is popped: when it was the only token the
header is removed entirely (so in particular no `chunked` token remains);
otherwise the remaining tokens are re-emitted joined with spaces. -/
theorem C2_chunked_rewrite (r : Response)
    (chunks : List (List Byte × List Byte)) (trailerRaw : List Byte)
    (ctr : Nat) (mhtr : MessageHeaders) (ts : List (List Byte))
    (tlast : List Byte)
    (hchunks : ∀ p ∈ chunks, 13 ∉ p.1 ∧ isValidUtf8 p.1 = true ∧
      parse_chunk_size p.1 = .ok p.2.length ∧ p.2 ≠ [])
    (htr : MessageHeaders.new.parse trailerRaw = .ok (.Complete, ctr, mhtr))
    (htok : (addAllHeaders r.headers mhtr.headers).headerTokens
        (strBytes "Transfer-Encoding") = ts ++ [tlast]) :
    ∃ r2 : Response,
      r.parse_message_for_chunked_body
          (encodeChunks chunks ++ (48 :: 13 :: 10 :: trailerRaw))
          ChunkedBody.new =
        .ok (.CompleteWhole, (encodeChunks chunks).length + (3 + ctr), r2) ∧
      r2.body = (chunks.map Prod.snd).flatten ∧
      (⟨strBytes "Content-Length",
        natToDec ((chunks.map Prod.snd).flatten).length⟩ : Header) ∈
        r2.headers.headers ∧
      r2.headers.hasHeader (strBytes "Trailer") = false ∧
      (∀ h ∈ mhtr.headers,
        nameMatches h.name (strBytes "Transfer-Encoding") = false →
        nameMatches h.name (strBytes "Trailer") = false →
        h ∈ r2.headers.headers) ∧
      (ts = [] →
        r2.headers.hasHeader (strBytes "Transfer-Encoding") = false ∧
        r2.headers.hasHeaderToken (strBytes "Transfer-Encoding")
          (strBytes "chunked") = false) ∧
      (ts ≠ [] → r2.headers.headerValue (strBytes "Transfer-Encoding") =
        some (joinSep [32] ts)) := by
  simp only [Response.parse_message_for_chunked_body]
  rw [decode_full chunks trailerRaw ctr mhtr hchunks htr]
  dsimp only
  rw [htok, List.dropLast_concat]
  by_cases hts : ts = []
  · rw [if_pos hts]
    dsimp only
    refine ⟨_, rfl, rfl, ?_, ?_, ?_, ?_, ?_⟩
    · simp only [MessageHeaders.remove_header, MessageHeaders.add_header]
      exact List.mem_filter.mpr
        ⟨List.mem_append_right _ (List.mem_singleton.mpr rfl), by
          have hx : nameMatches (strBytes "Content-Length")
              (strBytes "Trailer") = false := by decide
          simp [hx]⟩
    · simp only [MessageHeaders.remove_header, MessageHeaders.add_header,
        MessageHeaders.hasHeader]
      exact any_of_filter_not _ _
    · intro h hmem hTE hTr
      simp only [MessageHeaders.remove_header, MessageHeaders.add_header]
      rw [addAllHeaders_headers]
      refine List.mem_filter.mpr ⟨List.mem_append_left _ (List.mem_filter.mpr
        ⟨List.mem_append_right _ hmem, by simp [hTE]⟩), by simp [hTr]⟩
    · intro _
      have hcl0 : nameMatches (strBytes "Content-Length")
          (strBytes "Transfer-Encoding") = false := by decide
      have hh := rewrite_hasHeader_te_removed
        (addAllHeaders r.headers mhtr.headers)
        ⟨strBytes "Content-Length",
          natToDec ((chunks.map Prod.snd).flatten).length⟩ hcl0
      exact ⟨hh, hasHeaderToken_eq_false_of_hasHeader _ _ _ hh⟩
    · intro h
      exact absurd hts h
  · rw [if_neg hts]
    dsimp only
    refine ⟨_, rfl, rfl, ?_, ?_, ?_, ?_, ?_⟩
    · simp only [MessageHeaders.set_header, MessageHeaders.add_header,
        MessageHeaders.remove_header]
      exact List.mem_filter.mpr
        ⟨List.mem_append_right _ (List.mem_singleton.mpr rfl), by
          have hx : nameMatches (strBytes "Content-Length")
              (strBytes "Trailer") = false := by decide
          simp [hx]⟩
    · simp only [MessageHeaders.set_header, MessageHeaders.add_header,
        MessageHeaders.remove_header, MessageHeaders.hasHeader]
      exact any_of_filter_not _ _
    · intro h hmem hTE hTr
      simp only [MessageHeaders.set_header, MessageHeaders.add_header,
        MessageHeaders.remove_header]
      rw [addAllHeaders_headers]
      refine List.mem_filter.mpr ⟨List.mem_append_left _ ?_, by simp [hTr]⟩
      exact mem_setHeaderGo_of_not_match _ _ _ _
        (List.mem_append_right _ hmem) hTE
    · intro h
      exact absurd h hts
    · intro _
      have hcl1 : nameMatches (strBytes "Content-Length")
          (strBytes "Transfer-Encoding") = false := by decide
      exact rewrite_headerValue_te (addAllHeaders r.headers mhtr.headers)
        (joinSep [32] ts)
        ⟨strBytes "Content-Length",
          natToDec ((chunks.map Prod.snd).flatten).length⟩ hcl1

/-- Witness for the amended C2: a one-chunk body `"Hello"` with trailer
`X-Foo: Bar` and `Transfer-Encoding: chunked` as the only token; the header
is removed entirely, `Content-Length` appended, the trailer header moved. -/
theorem C2_chunked_rewrite_witness :
    ∃ r2 : Response,
      ({ Response.new with
          headers := ⟨[⟨strBytes "Transfer-Encoding", strBytes "chunked"⟩],
            none⟩ } : Response).parse_message_for_chunked_body
          (encodeChunks [(strBytes "5", strBytes "Hello")] ++
            (48 :: 13 :: 10 :: strBytes "X-Foo: Bar\r\n\r\n"))
          ChunkedBody.new =
        .ok (.CompleteWhole,
          (encodeChunks [(strBytes "5", strBytes "Hello")]).length + (3 + 14),
          r2) ∧
      r2.body = ([(strBytes "5", strBytes "Hello")].map Prod.snd).flatten ∧
      (⟨strBytes "Content-Length",
        natToDec (([(strBytes "5", strBytes "Hello")].map
          Prod.snd).flatten).length⟩ : Header) ∈ r2.headers.headers ∧
      r2.headers.hasHeader (strBytes "Trailer") = false ∧
      (∀ h ∈ (⟨[⟨strBytes "X-Foo", strBytes "Bar"⟩], none⟩ :
          MessageHeaders).headers,
        nameMatches h.name (strBytes "Transfer-Encoding") = false →
        nameMatches h.name (strBytes "Trailer") = false →
        h ∈ r2.headers.headers) ∧
      (([] : List (List Byte)) = [] →
        r2.headers.hasHeader (strBytes "Transfer-Encoding") = false ∧
        r2.headers.hasHeaderToken (strBytes "Transfer-Encoding")
          (strBytes "chunked") = false) ∧
      (([] : List (List Byte)) ≠ [] →
        r2.headers.headerValue (strBytes "Transfer-Encoding") =
        some (joinSep [32] ([] : List (List Byte)))) :=
  C2_chunked_rewrite
    { Response.new with
      headers := ⟨[⟨strBytes "Transfer-Encoding", strBytes "chunked"⟩], none⟩ }
    [(strBytes "5", strBytes "Hello")] (strBytes "X-Foo: Bar\r\n\r\n") 14
    ⟨[⟨strBytes "X-Foo", strBytes "Bar"⟩], none⟩ [] (strBytes "chunked")
    (by decide) (by decide) (by decide)
